import Mathlib

/-!
# go-smartConfig: the schema walker `getList` and the flag materializer `addFlags`

A shallow embedding of `config.go`.

* Go strings are byte sequences (`GoString`); `len` is `List.length`, slicing is
  `List.take` / `List.drop`, and the one-byte separators searched for by the program
  (the pipe 124, the dot 46, the braces 123 and 125, the backquote 96) are byte values.
* `reflect.Type` values are finite trees (`GoType`): a struct lists its fields in
  declaration order, each with its name, its type and the value of its `flag` struct tag.
  A type that contains itself through a pointer has no such tree.  For such types the types
  of a program are a table of declarations that refer to each other by index (`TypeDecl`),
  and `getListDecl` is `getList` on the table, with a bound on the depth of its calls; on a
  type that has a finite tree the two walks return the same (`getListDecl_tree`), and on a
  type that contains itself the walk over the table does not return.
* `strings.ToLower` is a parameter of the walker (`ToLower`), so every statement holds for
  whatever case mapping the Go runtime applies; `asciiToLower` is its behaviour on ASCII
  names and is used in the worked examples.
* A Go run-time panic (an index out of range on `parts[1]` or `parts[2]`, a registration
  the flag library refuses) is the value `none`.
* `addFlagsLoop`, `addFlags` and `LoadConfigFlags` give the ordered sequence of the
  registrations the program asks the flag set for, each with the text its default value is
  read from.  What the flag library does with a registration is `AddFlag`: it panics when a
  long name or a short name is registered a second time.  `addFlagsRun` is `addFlags` with
  every registration passing through `AddFlag`; it returns the sequence of `addFlags` when
  that sequence has no clash and panics otherwise (`addFlagsRunLoop_eq`).
* The default value handed to the flag set is computed from the default text
  (`Flag.DefValue`): by a model of `time.ParseDuration` for a duration flag, by a model of
  `fmt.Sscanf` with the verb `%v` for a string flag; for the boolean, integer and
  floating-point flags the scan of the library is a parameter (`Sscan`), as is the one
  floating-point product of `time.ParseDuration` (`frac`).
* The channel `configMonitor` is the list of the values it buffers; publications and
  receives are taken one at a time.
* The end of `LoadConfig` is a function of the result of `cmdRoot.Execute()` and of the
  values of the options.
-/

namespace SmartConfig

/-! ## Strings -/

/-- A Go string, as its sequence of bytes. -/
abbrev GoString := List Nat

/-- The UTF-8 bytes of a string literal. -/
def utf8 (s : String) : GoString :=
  s.data.flatMap fun c => (String.utf8EncodeChar c).map UInt8.toNat

/-- Go `strings.Index(s, sep)` for a one-byte separator `sep`: the index of the first
occurrence of the byte in `s`, or `-1` when it does not occur. -/
def Index : GoString → Nat → Int
  | [], _ => -1
  | c :: rest, b => if c = b then 0 else if Index rest b < 0 then -1 else Index rest b + 1

/-- Go `strings.SplitN(s, sep, n)` for a one-byte separator and `n ≥ 0`: at most `n`
substrings, the last one being the unsplit remainder. -/
def SplitN (s : GoString) (sep : Nat) : Nat → List GoString
  | 0 => []
  | 1 => [s]
  | n + 2 =>
    if Index s sep < 0 then [s]
    else s.take (Index s sep).toNat :: SplitN (s.drop ((Index s sep).toNat + 1)) sep (n + 1)

/-- Go `strings.ToLower` on a string of ASCII bytes: `A`..`Z` become `a`..`z`. -/
def asciiToLower (s : GoString) : GoString :=
  s.map fun b => if 65 ≤ b ∧ b ≤ 90 then b + 32 else b

/-! ## Types seen through `reflect` -/

/-- The `reflect.Kind` of a type that is neither a pointer nor a struct. -/
inductive PlainKind
  | Bool | Int | Int8 | Int16 | Int32 | Int64
  | Uint | Uint8 | Uint16 | Uint32 | Uint64 | Uintptr
  | Float32 | Float64 | Complex64 | Complex128
  | Array | Chan | Func | Interface | Map | Slice | String | UnsafePointer
  deriving DecidableEq, Repr

/-- The `reflect.Kind` of a type. -/
inductive Kind
  | Ptr
  | Struct
  | plain (k : PlainKind)
  deriving DecidableEq, Repr

/-- A `reflect.Type`.  `duration` is `reflect.TypeOf(time.Second)`; `plain k` is any other
type whose kind is `k`; `ptr` gives `Elem()`; `struct` gives, for each field in declaration
order, `Field(i).Name`, `Field(i).Type` and `Field(i).Tag.Get(StructTagKey)`. -/
inductive GoType
  | duration
  | plain (k : PlainKind)
  | ptr (elem : GoType)
  | struct (fields : List (GoString × GoType × GoString))

/-- The method `Kind()` of `reflect.Type`; `time.Duration` is an `int64`. -/
def GoType.Kind : GoType → Kind
  | .duration => .plain .Int64
  | .plain k => .plain k
  | .ptr _ => .Ptr
  | .struct _ => .Struct

/-- The struct `FlagSpec` (lines 92-98). -/
structure FlagSpec where
  Type_ : GoType
  Name : GoString
  ShortName : GoString
  Default : GoString
  HelpMessage : GoString

/-! ## `getList` (lines 195-239) -/

/-- The statements after the label `end:` (lines 224-238): nothing is added for an empty
tag; otherwise the tag is split on the pipe into at most three parts and one specification
is appended, from `parts[0]`, `parts[1]` and `parts[2]`; the index expressions panic when
the split has fewer than three parts. -/
def getListEnd (pfx : GoString) (t : GoType) (tag : GoString) (result : List FlagSpec) :
    Option (List FlagSpec) :=
  if tag = [] then some result
  else
    match SplitN tag 124 3 with
    | p0 :: p1 :: p2 :: _ => some (result ++ [⟨t, pfx, p0, p1, p2⟩])
    | _ => none

/-- The name handed to the recursive call for a field (lines 208-212). -/
def fieldName (ToLower : GoString → GoString) (pfx name : GoString) : GoString :=
  (if pfx ≠ [] then pfx ++ [46] else pfx) ++ ToLower name

mutual
/-- The function `getList`.  Every branch of the switch (the `goto end` of the duration type
and of the scalar kinds, the pointer case, the struct case and the empty `default`) arrives
at the label `end:`, with `result` as that branch left it. -/
def getList (ToLower : GoString → GoString) (pfx : GoString) :
    GoType → GoString → Option (List FlagSpec)
  | .duration, tag => getListEnd pfx .duration tag []
  | .plain k, tag => getListEnd pfx (.plain k) tag []
  | .ptr e, tag => (getList ToLower pfx e tag).bind (getListEnd pfx (.ptr e) tag)
  | .struct fs, tag => (getListFields ToLower pfx fs).bind (getListEnd pfx (.struct fs) tag)
/-- The loop over the fields of a struct (lines 206-214). -/
def getListFields (ToLower : GoString → GoString) (pfx : GoString) :
    List (GoString × GoType × GoString) → Option (List FlagSpec)
  | [] => some []
  | (name, ty, tag) :: rest =>
    (getList ToLower (fieldName ToLower pfx name) ty tag).bind fun r =>
      (getListFields ToLower pfx rest).map fun rs => r ++ rs
end

/-! ## `addFlags` (lines 100-193) -/

/-- The typed registration methods of the flag set. -/
inductive FlagType
  | Duration | Bool | Int | Int8 | Int16 | Int32 | Int64
  | Uint | Uint8 | Uint16 | Uint32 | Uint64 | Float32 | Float64 | String
  deriving DecidableEq, Repr

/-- One registration in the flag set: the long name, the short name, the type of the flag,
the text its default value is read from (by `fmt.Sscanf` or `time.ParseDuration`), and the
help text.  The default value itself, which is what the program hands to the registration
method, is `Flag.DefValue`. -/
structure Flag where
  Name : GoString
  Shorthand : GoString
  Value : FlagType
  Default : GoString
  Usage : GoString
  deriving DecidableEq, Repr

/-- The help-text rewrite (lines 104-109). -/
def helpText (help : GoString) : GoString :=
  let b := Index help 123
  let e := Index help 125
  if b ≥ 0 ∧ e > b then
    help.take b.toNat ++ [96] ++ (help.take e.toNat).drop (b.toNat + 1) ++ [96]
      ++ help.drop (e.toNat + 1)
  else help

/-- The switch on `len(v.ShortName)` (lines 111-123): the map `used` afterwards, and the
short name the flag is registered with.  A missing key of the Go map reads as `""`. -/
def claimShortName (used : GoString → GoString) (v : FlagSpec) :
    (GoString → GoString) × GoString :=
  match v.ShortName.length with
  | 0 => (used, v.ShortName)
  | 1 =>
    if used v.ShortName ≠ [] then (used, [])
    else (fun k => if k = v.ShortName then v.Name else used k, v.ShortName)
  | _ => (used, [])

/-- The registration of one specification (lines 125-191): the duration type first, then the
switch on the kind.  A kind without a case registers nothing.  The flag records the method
called (`DurationP`, `BoolP`, ..., `StringP`), the name, the short name and the help text
passed to it, and the text `v.Default` from which `time.ParseDuration` (line 126) or
`fmt.Sscanf` (lines 137-189) computes the value passed as default (`Flag.DefValue`). -/
def registerFlag (v : FlagSpec) (short help : GoString) : Option Flag :=
  match v.Type_ with
  | .duration => some ⟨v.Name, short, .Duration, v.Default, help⟩
  | t =>
    match t.Kind with
    | .plain .Bool => some ⟨v.Name, short, .Bool, v.Default, help⟩
    | .plain .Int => some ⟨v.Name, short, .Int, v.Default, help⟩
    | .plain .Int8 => some ⟨v.Name, short, .Int8, v.Default, help⟩
    | .plain .Int16 => some ⟨v.Name, short, .Int32, v.Default, help⟩
    | .plain .Int32 => some ⟨v.Name, short, .Int32, v.Default, help⟩
    | .plain .Int64 => some ⟨v.Name, short, .Int64, v.Default, help⟩
    | .plain .Uint => some ⟨v.Name, short, .Uint, v.Default, help⟩
    | .plain .Uint8 => some ⟨v.Name, short, .Uint8, v.Default, help⟩
    | .plain .Uint16 => some ⟨v.Name, short, .Uint16, v.Default, help⟩
    | .plain .Uint32 => some ⟨v.Name, short, .Uint32, v.Default, help⟩
    | .plain .Uint64 => some ⟨v.Name, short, .Uint64, v.Default, help⟩
    | .plain .Float32 => some ⟨v.Name, short, .Float32, v.Default, help⟩
    | .plain .Float64 => some ⟨v.Name, short, .Float64, v.Default, help⟩
    | .plain .String => some ⟨v.Name, short, .String, v.Default, help⟩
    | _ => none

/-- The loop `for _, v := range list` of `addFlags`, from the map `used` and the flag set
`flags`: the map afterwards, and the flag set with the registrations the loop asks for, in
order.  Whether the flag library accepts them is the matter of `addFlagsRunLoop`. -/
def addFlagsLoop (used : GoString → GoString) (flags : List Flag) :
    List FlagSpec → (GoString → GoString) × List Flag
  | [] => (used, flags)
  | v :: rest =>
    addFlagsLoop (claimShortName used v).1
      (flags ++ (registerFlag v (claimShortName used v).2 (helpText v.HelpMessage)).toList)
      rest

/-- The function `addFlags`: the flag set after the call, from the flag set `flags` before
it; `config` is `reflect.TypeOf(config)`. -/
def addFlags (ToLower : GoString → GoString) (flags : List Flag) (config : GoType) :
    Option (List Flag) :=
  (getList ToLower [] config []).map fun list => (addFlagsLoop (fun _ => []) flags list).2

/-- The flags `LoadConfig` registers itself (lines 59-64). -/
def builtinFlags : List Flag :=
  [ ⟨utf8 "config", utf8 "c", .String, [],
      utf8 "config `FILENAME`, default to `config.yaml` or `config.json`"⟩,
    ⟨utf8 "version", [], .Bool, utf8 "false", utf8 "just print version number only"⟩,
    ⟨utf8 "help", [], .Bool, utf8 "false", utf8 "show this message"⟩,
    ⟨utf8 "gen-yaml", [], .Bool, utf8 "false", utf8 "generate config.yaml"⟩,
    ⟨utf8 "gen-json", [], .Bool, utf8 "false", utf8 "generate config.json"⟩ ]

/-- The flag set of `LoadConfig` when it reaches `cmdRoot.Execute()` (lines 55-66). -/
def LoadConfigFlags (ToLower : GoString → GoString) (config : GoType) : Option (List Flag) :=
  addFlags ToLower builtinFlags config

/-! ## The flag library: `AddFlag`, and `addFlags` carried out on the flag set -/

/-- The method `AddFlag` of the flag set of the library (`github.com/spf13/pflag`), through
which every registration method (`StringVarP`, `BoolVar`, `IntP`, `DurationP`, ...) adds its
flag: the flag set after the call, or `none` for its panic, which happens when the set has
a flag of that name already, when the short name is longer than one byte, or when the short
name belongs to a flag of the set already. -/
def AddFlag (formal : List Flag) (flag : Flag) : Option (List Flag) :=
  if flag.Name ∈ formal.map (fun f => f.Name) then none
  else if flag.Shorthand = [] then some (formal ++ [flag])
  else if flag.Shorthand.length > 1 then none
  else if flag.Shorthand ∈ formal.map (fun f => f.Shorthand) then none
  else some (formal ++ [flag])

/-- The loop `for _, v := range list` of `addFlags` with the flag library taken into
account: as `addFlagsLoop`, with every registration passing through `AddFlag`; `none` when
one of them panics, which ends `addFlags`. -/
def addFlagsRunLoop (used : GoString → GoString) (flags : List Flag) :
    List FlagSpec → Option (List Flag)
  | [] => some flags
  | v :: rest =>
    match registerFlag v (claimShortName used v).2 (helpText v.HelpMessage) with
    | none => addFlagsRunLoop (claimShortName used v).1 flags rest
    | some f =>
      (AddFlag flags f).bind fun flags1 => addFlagsRunLoop (claimShortName used v).1 flags1 rest

/-- The function `addFlags` with the flag library taken into account: the flag set after
the call, or `none` when `getList` or a registration panics. -/
def addFlagsRun (ToLower : GoString → GoString) (flags : List Flag) (config : GoType) :
    Option (List Flag) :=
  (getList ToLower [] config []).bind fun list => addFlagsRunLoop (fun _ => []) flags list

/-- No two flags of the list share a long name, and no two share a non-empty short name. -/
def noClash (fs : List Flag) : Bool :=
  decide ((fs.map fun f => f.Name).Nodup ∧
    ((fs.map fun f => f.Shorthand).filter fun s => decide (s ≠ [])).Nodup)

/-- A flag set as the library builds them: no clash, and short names of at most one
byte. -/
def validFlagSet (fs : List Flag) : Bool :=
  noClash fs && decide (∀ f ∈ fs, f.Shorthand.length ≤ 1)

/-! ## The example program (`_examples/main.go`) -/

/-- The type `ServiceOneConfig`. -/
def ServiceOneConfig : GoType :=
  .struct [ (utf8 "IP", .plain .String, utf8 "H|127.0.0.1|Listen {IP}"),
            (utf8 "Port", .plain .Int, utf8 "p|8080|Listen {Port}") ]

/-- The type `ServiceTwoConfig`. -/
def ServiceTwoConfig : GoType :=
  .struct [ (utf8 "Foo", .plain .Bool, utf8 "|true|help message for foo"),
            (utf8 "Bar", .plain .String, utf8 "|blablabla|help message for bar") ]

/-- The type `ServiceThreeConfig`. -/
def ServiceThreeConfig : GoType :=
  .struct [ (utf8 "Hello", .plain .Int32, utf8 "|100|help message for hello"),
            (utf8 "World", .duration, utf8 "|30s|help message for world") ]

/-- The type `MainConfig`. -/
def MainConfig : GoType :=
  .struct [ (utf8 "Debug", .plain .Bool, utf8 "v|false|debug mode"),
            (utf8 "One", ServiceOneConfig, []),
            (utf8 "Two", ServiceTwoConfig, []),
            (utf8 "Three", ServiceThreeConfig, []) ]

/-- The specifications `getList` returns for `MainConfig`, in order. -/
def mainConfigSpecs : List FlagSpec :=
  [ ⟨.plain .Bool, utf8 "debug", utf8 "v", utf8 "false", utf8 "debug mode"⟩,
    ⟨.plain .String, utf8 "one.ip", utf8 "H", utf8 "127.0.0.1", utf8 "Listen {IP}"⟩,
    ⟨.plain .Int, utf8 "one.port", utf8 "p", utf8 "8080", utf8 "Listen {Port}"⟩,
    ⟨.plain .Bool, utf8 "two.foo", [], utf8 "true", utf8 "help message for foo"⟩,
    ⟨.plain .String, utf8 "two.bar", [], utf8 "blablabla", utf8 "help message for bar"⟩,
    ⟨.plain .Int32, utf8 "three.hello", [], utf8 "100", utf8 "help message for hello"⟩,
    ⟨.duration, utf8 "three.world", [], utf8 "30s", utf8 "help message for world"⟩ ]

/-! ## Notions used to state the properties -/

/-- The kinds that `getList` lists in its `case` clauses ending in `goto end`
(lines 215-219); they are also the kinds `addFlags` has a `case` for. -/
def isScalarKind : PlainKind → Bool
  | .Bool | .Int | .Int8 | .Int16 | .Int32 | .Int64
  | .Uint | .Uint8 | .Uint16 | .Uint32 | .Uint64
  | .Float32 | .Float64 | .String => true
  | _ => false

/-- A leaf: the duration type or a type of scalar kind. -/
def GoType.isLeaf : GoType → Bool
  | .duration => true
  | .plain k => isScalarKind k
  | _ => false

mutual
/-- No field anywhere inside the type carries a non-empty annotation. -/
def GoType.noTag : GoType → Bool
  | .duration => true
  | .plain _ => true
  | .ptr e => e.noTag
  | .struct fs => fieldsNoTag fs
/-- No field of the list, nor any field below one, carries a non-empty annotation. -/
def fieldsNoTag : List (GoString × GoType × GoString) → Bool
  | [] => true
  | (_, ty, tag) :: rest => decide (tag = []) && ty.noTag && fieldsNoTag rest
end

/-- The dotted name of a path of field names, in the words of the specification: the
lower-cased names joined by a dot. -/
def dottedName (ToLower : GoString → GoString) : List GoString → GoString
  | [] => []
  | [f] => ToLower f
  | f :: g :: rest => ToLower f ++ 46 :: dottedName ToLower (g :: rest)

/-- The relation `FieldAt t path ft tg`: following the field names of `path` from the type
`t`, looking through pointers, arrives at a field of type `ft` with annotation `tg`. -/
inductive FieldAt : GoType → List GoString → GoType → GoString → Prop
  | field (fs : List (GoString × GoType × GoString)) (n : GoString) (ft : GoType)
      (tg : GoString) : (n, ft, tg) ∈ fs → FieldAt (.struct fs) [n] ft tg
  | inside (fs : List (GoString × GoType × GoString)) (n : GoString) (ty : GoType)
      (tag : GoString) (path : List GoString) (ft : GoType) (tg : GoString) :
      (n, ty, tag) ∈ fs → FieldAt ty path ft tg → FieldAt (.struct fs) (n :: path) ft tg
  | elem (e : GoType) (path : List GoString) (ft : GoType) (tg : GoString) :
      FieldAt e path ft tg → FieldAt (.ptr e) path ft tg

/-- The relation `Pointee t u`: `u` is `t` or is reached from `t` by `Elem()`. -/
inductive Pointee : GoType → GoType → Prop
  | self (t : GoType) : Pointee t t
  | elem (e u : GoType) : Pointee e u → Pointee (.ptr e) u

mutual
/-- Within every struct of the type the lower-cased field names are non-empty, free of
dots, and pairwise distinct. -/
def GoType.distinctLower (ToLower : GoString → GoString) : GoType → Bool
  | .duration => true
  | .plain _ => true
  | .ptr e => e.distinctLower ToLower
  | .struct fs => fieldsDistinctLower ToLower fs
/-- The condition of `GoType.distinctLower` on a list of fields. -/
def fieldsDistinctLower (ToLower : GoString → GoString) :
    List (GoString × GoType × GoString) → Bool
  | [] => true
  | (name, ty, _) :: rest =>
    decide (ToLower name ≠ []) && decide (46 ∉ ToLower name)
      && decide (∀ f ∈ rest, ToLower f.1 ≠ ToLower name)
      && ty.distinctLower ToLower && fieldsDistinctLower ToLower rest
end

mutual
/-- No field of pointer type carries a non-empty annotation. -/
def GoType.noTaggedPtr : GoType → Bool
  | .duration => true
  | .plain _ => true
  | .ptr e => e.noTaggedPtr
  | .struct fs => fieldsNoTaggedPtr fs
/-- The condition of `GoType.noTaggedPtr` on a list of fields. -/
def fieldsNoTaggedPtr : List (GoString × GoType × GoString) → Bool
  | [] => true
  | (_, ty, tag) :: rest =>
    decide (tag = [] ∨ ty.Kind ≠ Kind.Ptr) && ty.noTaggedPtr && fieldsNoTaggedPtr rest
end

mutual
/-- Every field name of the type is non-empty after lower-casing. -/
def GoType.lowerNonEmpty (ToLower : GoString → GoString) : GoType → Bool
  | .duration => true
  | .plain _ => true
  | .ptr e => e.lowerNonEmpty ToLower
  | .struct fs => fieldsLowerNonEmpty ToLower fs
/-- The condition of `GoType.lowerNonEmpty` on a list of fields. -/
def fieldsLowerNonEmpty (ToLower : GoString → GoString) :
    List (GoString × GoType × GoString) → Bool
  | [] => true
  | (name, ty, _) :: rest =>
    decide (ToLower name ≠ []) && ty.lowerNonEmpty ToLower && fieldsLowerNonEmpty ToLower rest
end

/-- The short name a specification is registered with, in the words of the specification:
its own short name when that is exactly one byte long and no earlier specification has the
same short name, and the empty string otherwise. -/
def registeredShortName (earlier : List FlagSpec) (v : FlagSpec) : GoString :=
  if v.ShortName.length = 1 ∧ ∀ u ∈ earlier, u.ShortName ≠ v.ShortName then v.ShortName
  else []

/-- The flag type of the same primitive type as a scalar kind, in the words of the
specification. -/
def sameFlagType : PlainKind → Option FlagType
  | .Bool => some .Bool
  | .Int => some .Int
  | .Int8 => some .Int8
  | .Int16 => some .Int16
  | .Int32 => some .Int32
  | .Int64 => some .Int64
  | .Uint => some .Uint
  | .Uint8 => some .Uint8
  | .Uint16 => some .Uint16
  | .Uint32 => some .Uint32
  | .Uint64 => some .Uint64
  | .Float32 => some .Float32
  | .Float64 => some .Float64
  | .String => some .String
  | _ => none

/-- The number of positions at which two byte strings differ. -/
def diffCount (a b : GoString) : Nat :=
  ((a.zip b).filter fun p => decide (p.1 ≠ p.2)).length

/-! ## Types that refer to themselves

A Go type may contain itself through a pointer (`type Node struct { Next *Node }`); such a
type has no finite tree.  Here the types of a program are a table of declarations that
refer to each other by index, and `getList` walks the table; the depth of its calls is
bounded by `depth`, the result `none` meaning that the walk has not returned within that
depth. -/

/-- A `reflect.Type` given by reference: as `GoType`, with the element type of a pointer
and the types of the fields given by their index in the table of types. -/
inductive TypeDecl
  | duration
  | plain (k : PlainKind)
  | ptr (elem : Nat)
  | struct (fields : List (GoString × Nat × GoString))

/-- The struct `FlagSpec` over a table of types: `Type_` is the index of the type. -/
structure DeclSpec where
  Type_ : Nat
  Name : GoString
  ShortName : GoString
  Default : GoString
  HelpMessage : GoString
  deriving DecidableEq, Repr

/-- The statements after the label `end:` (lines 224-238), as `getListEnd`. -/
def getListEndDecl (pfx : GoString) (t : Nat) (tag : GoString) (result : List DeclSpec) :
    Option (List DeclSpec) :=
  if tag = [] then some result
  else
    match SplitN tag 124 3 with
    | p0 :: p1 :: p2 :: _ => some (result ++ [⟨t, pfx, p0, p1, p2⟩])
    | _ => none

/-- The loop over the fields of a struct (lines 206-214), where `call` is the recursive
call of `getList`: the outer `none` means that a call has not returned, the inner `none`
that it has panicked. -/
def getListFieldsDecl (ToLower : GoString → GoString)
    (call : GoString → Nat → GoString → Option (Option (List DeclSpec))) (pfx : GoString) :
    List (GoString × Nat × GoString) → Option (Option (List DeclSpec))
  | [] => some (some [])
  | (name, ty, tag) :: rest =>
    match call (fieldName ToLower pfx name) ty tag with
    | none => none
    | some none => some none
    | some (some r) =>
      match getListFieldsDecl ToLower call pfx rest with
      | none => none
      | some none => some none
      | some (some rs) => some (some (r ++ rs))

/-- The function `getList` on the type of index `t` of the table, with calls nested at most
`depth` deep: `none` when that depth does not suffice for the walk to return, `some none`
for a panic, `some (some list)` for the list returned. -/
def getListDecl (ToLower : GoString → GoString) (table : Nat → TypeDecl) :
    Nat → GoString → Nat → GoString → Option (Option (List DeclSpec))
  | 0, _, _, _ => none
  | depth + 1, pfx, t, tag =>
    match table t with
    | .duration => some (getListEndDecl pfx t tag [])
    | .plain _ => some (getListEndDecl pfx t tag [])
    | .ptr e =>
      (getListDecl ToLower table depth pfx e tag).map fun r =>
        r.bind (getListEndDecl pfx t tag)
    | .struct fs =>
      (getListFieldsDecl ToLower
          (fun p ty tg => getListDecl ToLower table depth p ty tg) pfx fs).map fun r =>
        r.bind (getListEndDecl pfx t tag)

/-- The fields of a struct as trees, where `tree` gives the tree of a type. -/
def treeFields (tree : Nat → Option GoType) :
    List (GoString × Nat × GoString) → Option (List (GoString × GoType × GoString))
  | [] => some []
  | (name, ty, tag) :: rest =>
    (tree ty).bind fun t => (treeFields tree rest).map fun ts => (name, t, tag) :: ts

/-- The finite tree of the type of index `t` of the table, when its nesting is less than
`depth` deep; a type that contains itself has no tree, at any depth. -/
def treeOf (table : Nat → TypeDecl) : Nat → Nat → Option GoType
  | 0, _ => none
  | depth + 1, t =>
    match table t with
    | .duration => some .duration
    | .plain k => some (.plain k)
    | .ptr e => (treeOf table depth e).map .ptr
    | .struct fs => (treeFields (fun ty => treeOf table depth ty) fs).map .struct

/-- The parts of a specification other than its type. -/
def FlagSpec.parts (v : FlagSpec) : GoString × GoString × GoString × GoString :=
  (v.Name, v.ShortName, v.Default, v.HelpMessage)

/-- The parts of a specification other than its type. -/
def DeclSpec.parts (v : DeclSpec) : GoString × GoString × GoString × GoString :=
  (v.Name, v.ShortName, v.Default, v.HelpMessage)

/-- The types of `type Node struct { Next *Node }`: index 0 is `Node`, index 1 is
`*Node`. -/
def nodeTable : Nat → TypeDecl
  | 0 => .struct [(utf8 "Next", 1, [])]
  | _ => .ptr 0

/-- The types of the example program by reference: index 0 is `*MainConfig`, 1 is
`MainConfig`, 2 to 4 are the three service structs, 5 is `bool`, 6 `string`, 7 `int`,
8 `int32` and 9 `time.Duration`. -/
def mainTable : Nat → TypeDecl
  | 0 => .ptr 1
  | 1 => .struct [ (utf8 "Debug", 5, utf8 "v|false|debug mode"),
                   (utf8 "One", 2, []), (utf8 "Two", 3, []), (utf8 "Three", 4, []) ]
  | 2 => .struct [ (utf8 "IP", 6, utf8 "H|127.0.0.1|Listen \x7bIP\x7d"),
                   (utf8 "Port", 7, utf8 "p|8080|Listen \x7bPort\x7d") ]
  | 3 => .struct [ (utf8 "Foo", 5, utf8 "|true|help message for foo"),
                   (utf8 "Bar", 6, utf8 "|blablabla|help message for bar") ]
  | 4 => .struct [ (utf8 "Hello", 8, utf8 "|100|help message for hello"),
                   (utf8 "World", 9, utf8 "|30s|help message for world") ]
  | 5 => .plain .Bool
  | 6 => .plain .String
  | 7 => .plain .Int
  | 8 => .plain .Int32
  | _ => .duration

/-! ## The change notification (lines 37, 267-276) -/

/-- The capacity given to `make(chan interface{}, 1)` (line 37). -/
def monitorCap : Nat := 1

/-- The function `noticeChanged` (lines 267-272), on the values buffered in the channel
`configMonitor`, oldest first: the `select` takes the send when the buffer has room and
the empty `default` otherwise, so it never waits. -/
def noticeChanged {α : Type} (configMonitor : List α) (config : α) : List α :=
  if configMonitor.length < monitorCap then configMonitor ++ [config] else configMonitor

/-- A receive on `ConfigChanged()` by the consumer: the oldest buffered value leaves the
channel. -/
def drain {α : Type} (configMonitor : List α) : List α :=
  configMonitor.drop 1

/-- The contents the channel can have: it is made empty (line 37), and then written by
`noticeChanged` and read by the consumer. -/
inductive Reachable {α : Type} : List α → Prop
  | make : Reachable []
  | publish (ch : List α) (config : α) : Reachable ch → Reachable (noticeChanged ch config)
  | drain (ch : List α) : Reachable ch → Reachable (drain ch)

/-- What the watch and the caller share: the contents of the caller's record, and the
channel, which carries references to that record. -/
structure WatchState (ρ ref : Type) where
  record : ρ
  configMonitor : List ref

/-- The callback given to `viper.OnConfigChange` (lines 47-50): `loadConfig(config)` leaves
the contents `loaded` in the record, then `noticeChanged(config)` publishes the reference
`config`. -/
def onConfigChange {ρ ref : Type} (config : ref) (loaded : ρ) (s : WatchState ρ ref) :
    WatchState ρ ref :=
  { record := loaded, configMonitor := noticeChanged s.configMonitor config }

/-! ## The end of `LoadConfig` (lines 70-89) -/

/-- What `LoadConfig` writes before it ends. -/
inductive Output
  | version
  | yamlError
  | yaml
  | json
  deriving DecidableEq, Repr

/-- How `LoadConfig` ends: `os.Exit(status)`, or a return to the caller. -/
inductive Outcome
  | exit (status : Int)
  | returned
  deriving DecidableEq, Repr

/-- The statements of `LoadConfig` after `cmdRoot.Execute()` (lines 70-89): `err` tells
whether `Execute` returned an error, the next four arguments are the values of the options,
and `marshalErr` tells whether `yaml.Marshal` failed. -/
def LoadConfigEnd (err optHelp optVersion optWriteYAML optWriteJSON marshalErr : Bool) :
    List Output × Outcome :=
  if err || optHelp then ([], .exit 0)
  else if optVersion then ([.version], .exit 0)
  else if optWriteYAML then
    (if marshalErr then [.yamlError] else [.yaml], .exit 0)
  else if optWriteJSON then ([.json], .exit 0)
  else ([], .returned)

/-! ## The default values: `time.ParseDuration` and `fmt.Sscanf`

The two library functions that turn the default text of a specification into the value
handed to the flag set (lines 126 and 137-189), after the Go standard library
(`time.ParseDuration` in the version that sums in a `uint64`).  The one floating-point step
of `time.ParseDuration`, the nanoseconds of a fractional part, is the parameter `frac`. -/

/-- Go `leadingInt` of package `time`: the leading digits of `s` as a number, from the
accumulator `x`, and the rest of `s`; `none` on overflow. -/
def leadingInt : GoString → Nat → Option (Nat × GoString)
  | [], x => some (x, [])
  | c :: rest, x =>
    if c < 48 ∨ c > 57 then some (x, c :: rest)
    else if x > 2 ^ 63 / 10 then none
    else if x * 10 + c - 48 > 2 ^ 63 then none
    else leadingInt rest (x * 10 + c - 48)

/-- Go `leadingFraction` of package `time`: the leading digits of `s` as a number, the
number of digits accumulated (the scale is that power of ten), and the rest of `s`; once
the number would overflow, further digits are skipped. -/
def leadingFraction : GoString → Nat → Nat → Bool → Nat × Nat × GoString
  | [], x, k, _ => (x, k, [])
  | c :: rest, x, k, overflow =>
    if c < 48 ∨ c > 57 then (x, k, c :: rest)
    else if overflow then leadingFraction rest x k true
    else if x > (2 ^ 63 - 1) / 10 then leadingFraction rest x k true
    else if x * 10 + c - 48 > 2 ^ 63 then leadingFraction rest x k true
    else leadingFraction rest (x * 10 + c - 48) (k + 1) false

/-- Go `unitMap` of package `time`: the nanoseconds of a unit. -/
def unitMap (u : GoString) : Option Nat :=
  if u = utf8 "ns" then some 1
  else if u = utf8 "us" then some 1000
  else if u = utf8 "µs" then some 1000
  else if u = utf8 "μs" then some 1000
  else if u = utf8 "ms" then some 1000000
  else if u = utf8 "s" then some 1000000000
  else if u = utf8 "m" then some 60000000000
  else if u = utf8 "h" then some 3600000000000
  else none

/-- A byte that ends a unit: a dot or a digit. -/
def endsUnit (c : Nat) : Bool :=
  decide (c = 46 ∨ (48 ≤ c ∧ c ≤ 57))

/-- The optional fractional part `(\.[0-9]*)?` read in a round of `time.ParseDuration`:
its digits as a number, how many digits were accumulated, the rest of the string, and
whether a digit was consumed after the dot. -/
def fractionPart (s : GoString) : Nat × Nat × GoString × Bool :=
  match s with
  | 46 :: r =>
    ((leadingFraction r 0 0 false).1, (leadingFraction r 0 0 false).2.1,
      (leadingFraction r 0 0 false).2.2,
      decide (r.length ≠ (leadingFraction r 0 0 false).2.2.length))
  | _ => (0, 0, s, false)

/-- The test `s[0] == '.' || '0' <= s[0] && s[0] <= '9'` on a non-empty string. -/
def startsNumber (s : GoString) : Bool :=
  match s with
  | c :: _ => decide (c = 46 ∨ (48 ≤ c ∧ c ≤ 57))
  | [] => false

/-- One round of the loop `for s != ""` of Go `time.ParseDuration`, on a non-empty `s` and
with the sum `d` so far (a `uint64`): the rest of the string and the new sum, or `none` for
an error. -/
def parseRound (frac : Nat → Nat → Nat → Nat) (s : GoString) (d : Nat) :
    Option (GoString × Nat) :=
  if startsNumber s = false then none
  else
    match leadingInt s 0 with
    | none => none
    | some (v, s1) =>
      if s.length = s1.length ∧ (fractionPart s1).2.2.2 = false then none
      else if (fractionPart s1).2.2.1.takeWhile (fun c => !endsUnit c) = [] then none
      else
        match unitMap ((fractionPart s1).2.2.1.takeWhile fun c => !endsUnit c) with
        | none => none
        | some unit =>
          if v > 2 ^ 63 / unit then none
          else if (fractionPart s1).1 > 0 then
            if (v * unit + frac (fractionPart s1).1 (fractionPart s1).2.1 unit) % 2 ^ 64
                > 2 ^ 63 then none
            else if (d + (v * unit + frac (fractionPart s1).1 (fractionPart s1).2.1 unit)
                % 2 ^ 64) % 2 ^ 64 > 2 ^ 63 then none
            else some ((fractionPart s1).2.2.1.dropWhile (fun c => !endsUnit c),
              (d + (v * unit + frac (fractionPart s1).1 (fractionPart s1).2.1 unit)
                % 2 ^ 64) % 2 ^ 64)
          else if (d + v * unit) % 2 ^ 64 > 2 ^ 63 then none
          else some ((fractionPart s1).2.2.1.dropWhile (fun c => !endsUnit c),
            (d + v * unit) % 2 ^ 64)

/-- The loop `for s != ""` of Go `time.ParseDuration`: `some (some d)` is the sum at the end
of the string, `some none` an error, and `none` means that the bound `fuel` on the number of
rounds was too small. -/
def parseUnits (frac : Nat → Nat → Nat → Nat) :
    Nat → GoString → Nat → Option (Option Nat)
  | 0, s, d => if s = [] then some (some d) else none
  | fuel + 1, s, d =>
    if s = [] then some (some d)
    else
      match parseRound frac s d with
      | none => some none
      | some (rest, d1) => parseUnits frac fuel rest d1

/-- The string after the optional sign `[-+]?` consumed first by `time.ParseDuration`. -/
def stripSign (s : GoString) : GoString :=
  match s with
  | c :: rest => if c = 45 ∨ c = 43 then rest else s
  | [] => s

/-- Go `time.ParseDuration(s)`: the duration in nanoseconds, and whether the error is
non-nil.  Every round of the loop consumes at least one byte, so the length of the string
bounds the number of rounds. -/
def ParseDuration (frac : Nat → Nat → Nat → Nat) (s : GoString) : Int × Bool :=
  if stripSign s = [48] then (0, false)
  else if stripSign s = [] then (0, true)
  else
    match parseUnits frac (stripSign s).length (stripSign s) 0 with
    | some (some d) =>
      if s.head? = some 45 then (-(d : Int), false)
      else if d > 2 ^ 63 - 1 then (0, true)
      else ((d : Int), false)
    | _ => (0, true)

/-- Go `utf8.DecodeRune` on the head of a byte string: the rune and its width; an invalid
or incomplete encoding gives `RuneError` (U+FFFD) with width 1. -/
def DecodeRune : GoString → Nat × Nat
  | [] => (0xFFFD, 0)
  | b0 :: rest =>
    if b0 < 0x80 then (b0, 1)
    else if 0xC2 ≤ b0 ∧ b0 ≤ 0xDF then
      match rest with
      | b1 :: _ =>
        if 0x80 ≤ b1 ∧ b1 ≤ 0xBF then ((b0 - 0xC0) * 64 + (b1 - 0x80), 2) else (0xFFFD, 1)
      | _ => (0xFFFD, 1)
    else if 0xE0 ≤ b0 ∧ b0 ≤ 0xEF then
      match rest with
      | b1 :: b2 :: _ =>
        if (if b0 = 0xE0 then 0xA0 else 0x80) ≤ b1 ∧ b1 ≤ (if b0 = 0xED then 0x9F else 0xBF)
            ∧ 0x80 ≤ b2 ∧ b2 ≤ 0xBF then
          (((b0 - 0xE0) * 64 + (b1 - 0x80)) * 64 + (b2 - 0x80), 3)
        else (0xFFFD, 1)
      | _ => (0xFFFD, 1)
    else if 0xF0 ≤ b0 ∧ b0 ≤ 0xF4 then
      match rest with
      | b1 :: b2 :: b3 :: _ =>
        if (if b0 = 0xF0 then 0x90 else 0x80) ≤ b1 ∧ b1 ≤ (if b0 = 0xF4 then 0x8F else 0xBF)
            ∧ 0x80 ≤ b2 ∧ b2 ≤ 0xBF ∧ 0x80 ≤ b3 ∧ b3 ≤ 0xBF then
          ((((b0 - 0xF0) * 64 + (b1 - 0x80)) * 64 + (b2 - 0x80)) * 64 + (b3 - 0x80), 4)
        else (0xFFFD, 1)
      | _ => (0xFFFD, 1)
    else (0xFFFD, 1)

/-- Go `utf8.EncodeRune`: the bytes of a rune; a surrogate or a value above U+10FFFF is
written as `RuneError`. -/
def EncodeRune (r : Nat) : GoString :=
  if r < 0x80 then [r]
  else if r < 0x800 then [0xC0 + r / 64, 0x80 + r % 64]
  else if (0xD800 ≤ r ∧ r ≤ 0xDFFF) ∨ r > 0x10FFFF then [0xEF, 0xBF, 0xBD]
  else if r < 0x10000 then [0xE0 + r / 4096, 0x80 + r / 64 % 64, 0x80 + r % 64]
  else [0xF0 + r / 262144, 0x80 + r / 4096 % 64, 0x80 + r / 64 % 64, 0x80 + r % 64]

/-- The runes a scanner reads from a string, one `DecodeRune` after the other; `skip` is
the number of bytes still belonging to the rune read last. -/
def readRunes : GoString → Nat → List Nat
  | [], _ => []
  | _ :: rest, skip + 1 => readRunes rest skip
  | b :: rest, 0 => (DecodeRune (b :: rest)).1 :: readRunes rest ((DecodeRune (b :: rest)).2 - 1)

/-- Go `isSpace` of package `fmt`: the white space of a scan. -/
def isSpace (r : Nat) : Bool :=
  decide ((0x0009 ≤ r ∧ r ≤ 0x000d) ∨ r = 0x0020 ∨ r = 0x0085 ∨ r = 0x00a0 ∨ r = 0x1680
    ∨ (0x2000 ≤ r ∧ r ≤ 0x200a) ∨ r = 0x2028 ∨ r = 0x2029 ∨ r = 0x202f ∨ r = 0x205f
    ∨ r = 0x3000)

/-- Go `SkipSpace` of a scan state of `fmt.Sscanf` (a newline is not white space there): the
runes left, or `none` for the error `unexpected newline`. -/
def SkipSpace : List Nat → Option (List Nat)
  | [] => some []
  | r :: rest =>
    if r = 13 ∧ rest.head? = some 10 then SkipSpace rest
    else if r = 10 then none
    else if isSpace r then SkipSpace rest
    else some (r :: rest)

/-- The variable `value` after `var value string; fmt.Sscanf(text, "%v", &value)` (lines
188-189): white space is skipped, then the runes up to the next white space are the value;
when the scan fails (a newline while skipping, or nothing left) the value stays empty. -/
def SscanString (text : GoString) : GoString :=
  match SkipSpace (readRunes text 0) with
  | none => []
  | some [] => []
  | some (r :: rest) => ((r :: rest).takeWhile fun c => !isSpace c).flatMap EncodeRune

/-- The default value handed to the flag set with a registration: a duration in
nanoseconds, a string, or a value of one of the other scalar types (`ν` stands for the
booleans, integers and floating-point numbers). -/
inductive DefaultValue (ν : Type)
  | duration (ns : Int)
  | string (s : GoString)
  | scanned (value : ν)
  deriving DecidableEq, Repr

/-- The default value of a registered flag, computed from the default text of its
specification: for a duration flag the duration parsed from the text (line 126), for a
string flag the string scanned from it (line 189); for a flag of another type the value
`fmt.Sscanf` leaves in a variable of that type (lines 137-186), where the scan of the
library for these types is the parameter `Sscan`. -/
def Flag.DefValue {ν : Type} (frac : Nat → Nat → Nat → Nat) (Sscan : FlagType → GoString → ν)
    (f : Flag) : DefaultValue ν :=
  match f.Value with
  | .Duration => .duration (ParseDuration frac f.Default).1
  | .String => .string (SscanString f.Default)
  | ty => .scanned (Sscan ty f.Default)

/-- The number written by a string of decimal digits. -/
def decimal (ds : GoString) : Nat :=
  ds.foldl (fun x c => x * 10 + (c - 48)) 0

/-- The nanoseconds of the fraction `f / 10 ^ k` of a unit in exact arithmetic, rounded
down; used for `frac` in worked examples whose floating-point product is exact. -/
def exactFrac (f k unit : Nat) : Nat :=
  f * unit / 10 ^ k

/-- The string consists of decimal digits. -/
def isDigits (s : GoString) : Bool :=
  s.all fun c => decide (48 ≤ c ∧ c ≤ 57)

/-- A term of a duration literal, in the words of the documentation of
`time.ParseDuration` ("a sequence of decimal numbers, each with optional fraction and a
unit suffix"): the digits before the dot, the digits after the dot when there is a dot,
and the unit. -/
structure DurationTerm where
  whole : GoString
  fraction : Option GoString
  unit : GoString

/-- The text of a term. -/
def DurationTerm.text (t : DurationTerm) : GoString :=
  match t.fraction with
  | none => t.whole ++ t.unit
  | some fs => t.whole ++ 46 :: (fs ++ t.unit)

/-- A term is well formed: digits where digits belong, at least one digit, a unit of
`unitMap`, and a fractional part below `2 ^ 63` (longer ones are cut by the library). -/
def DurationTerm.wf (t : DurationTerm) : Bool :=
  isDigits t.whole && (unitMap t.unit).isSome &&
    match t.fraction with
    | none => decide (t.whole ≠ [])
    | some fs => isDigits fs && decide (t.whole ≠ [] ∨ fs ≠ []) && decide (decimal fs ≤ 2 ^ 63 - 1)

/-- The nanoseconds of a term: the whole part times the unit, plus what `frac` gives for a
fractional part that is not zero. -/
def DurationTerm.ns (frac : Nat → Nat → Nat → Nat) (t : DurationTerm) : Nat :=
  match unitMap t.unit, t.fraction with
  | none, _ => 0
  | some unit, none => decimal t.whole * unit
  | some unit, some fs =>
    if decimal fs > 0 then decimal t.whole * unit + frac (decimal fs) fs.length unit
    else decimal t.whole * unit

/-- The text of a sequence of terms. -/
def durationText (terms : List DurationTerm) : GoString :=
  terms.flatMap DurationTerm.text

/-- The sum of a sequence of terms, in nanoseconds. -/
def durationSum (frac : Nat → Nat → Nat → Nat) (terms : List DurationTerm) : Nat :=
  (terms.map (DurationTerm.ns frac)).sum

/-! ## Strings: lemmas -/

theorem Index_append_cons (s t : GoString) (b : Nat) (h : b ∉ s) :
    Index (s ++ b :: t) b = s.length := by
  induction s with
  | nil => simp [Index]
  | cons c s ih =>
    have hc : c ≠ b := fun e => h (by simp [e])
    have hs : b ∉ s := fun e => h (by simp [e])
    have hn : ¬ ((s.length : Int) < 0) := by omega
    rw [List.cons_append]
    simp only [Index, if_neg hc, List.length_cons]
    rw [ih hs, if_neg hn]
    push_cast
    rfl

theorem Index_not_mem (s : GoString) (b : Nat) (h : b ∉ s) : Index s b = -1 := by
  induction s with
  | nil => simp [Index]
  | cons c s ih =>
    have hc : c ≠ b := fun e => h (by simp [e])
    have hs : b ∉ s := fun e => h (by simp [e])
    simp [Index, hc, ih hs]

theorem Index_spec (s : GoString) (b : Nat) :
    (b ∉ s ∧ Index s b = -1) ∨
      ∃ pre post, s = pre ++ b :: post ∧ b ∉ pre ∧ Index s b = pre.length := by
  by_cases h : b ∈ s
  · right
    obtain ⟨pre, post, hs, hp⟩ := List.eq_append_cons_of_mem h
    exact ⟨pre, post, hs, hp, hs ▸ Index_append_cons pre post b hp⟩
  · exact Or.inl ⟨h, Index_not_mem s b h⟩

theorem SplitN_length_le (sep : Nat) (n : Nat) (s : GoString) :
    (SplitN s sep n).length ≤ n := by
  induction n using Nat.strong_induction_on generalizing s with
  | _ n ih =>
    match n with
    | 0 => simp [SplitN]
    | 1 => simp [SplitN]
    | m + 2 =>
      simp only [SplitN]
      split
      · simp
      · have := ih (m + 1) (by omega) (s.drop ((Index s sep).toNat + 1))
        simp only [List.length_cons]
        omega

theorem SplitN_three (s d h : GoString) (hs : 124 ∉ s) (hd : 124 ∉ d) :
    SplitN (s ++ [124] ++ d ++ [124] ++ h) 124 3 = [s, d, h] := by
  have e1 : s ++ [124] ++ d ++ [124] ++ h = s ++ 124 :: (d ++ 124 :: h) := by simp
  rw [e1]
  have i1 := Index_append_cons s (d ++ 124 :: h) 124 hs
  have i2 := Index_append_cons d h 124 hd
  have n1 : ¬ ((s.length : Int) < 0) := by omega
  have n2 : ¬ ((d.length : Int) < 0) := by omega
  simp [SplitN, i1, i2, n1, n2]

/-! ## `getList`: lemmas -/

theorem getListEnd_nil (pfx : GoString) (t : GoType) (result : List FlagSpec) :
    getListEnd pfx t [] result = some result := by
  simp [getListEnd]

theorem getListEnd_three (pfx : GoString) (t : GoType) (tag p0 p1 p2 : GoString)
    (result : List FlagSpec) (hne : tag ≠ []) (hp : SplitN tag 124 3 = [p0, p1, p2]) :
    getListEnd pfx t tag result = some (result ++ [⟨t, pfx, p0, p1, p2⟩]) := by
  simp [getListEnd, hne, hp]

theorem getListEnd_some (pfx : GoString) (t : GoType) (tag : GoString)
    (result l : List FlagSpec) (h : getListEnd pfx t tag result = some l) :
    (tag = [] ∧ l = result) ∨
      ∃ p0 p1 p2, tag ≠ [] ∧ SplitN tag 124 3 = [p0, p1, p2] ∧
        l = result ++ [⟨t, pfx, p0, p1, p2⟩] := by
  unfold getListEnd at h
  by_cases ht : tag = []
  · simp [ht] at h
    exact Or.inl ⟨ht, h.symm⟩
  · right
    rw [if_neg ht] at h
    have hlen := SplitN_length_le 124 3 tag
    match hs : SplitN tag 124 3 with
    | [] => simp [hs] at h
    | [_] => simp [hs] at h
    | [_, _] => simp [hs] at h
    | p0 :: p1 :: p2 :: rest =>
      rw [hs] at hlen h
      have hr : rest = [] := by
        cases rest with
        | nil => rfl
        | cons a r => simp at hlen
      subst hr
      simp only [Option.some.injEq] at h
      exact ⟨p0, p1, p2, ht, rfl, h.symm⟩

theorem getListEnd_mem (pfx : GoString) (t : GoType) (tag : GoString)
    (result l : List FlagSpec) (h : getListEnd pfx t tag result = some l) (v : FlagSpec)
    (hv : v ∈ l) : v ∈ result ∨ (v.Type_ = t ∧ v.Name = pfx ∧ tag ≠ [] ∧
      SplitN tag 124 3 = [v.ShortName, v.Default, v.HelpMessage]) := by
  rcases getListEnd_some pfx t tag result l h with ⟨_, hl⟩ | ⟨p0, p1, p2, hne, hs, hl⟩
  · exact Or.inl (hl ▸ hv)
  · subst hl
    rcases List.mem_append.1 hv with h1 | h1
    · exact Or.inl h1
    · right
      simp only [List.mem_singleton] at h1
      subst h1
      exact ⟨rfl, rfl, hne, hs⟩

mutual
theorem getList_noTag (ToLower : GoString → GoString) (pfx : GoString) :
    (t : GoType) → t.noTag = true → getList ToLower pfx t [] = some []
  | .duration, _ => by simp [getList, getListEnd]
  | .plain _, _ => by simp [getList, getListEnd]
  | .ptr e, h => by
    have := getList_noTag ToLower pfx e (by simpa [GoType.noTag] using h)
    simp [getList, getListEnd, this]
  | .struct fs, h => by
    have := getListFields_noTag ToLower pfx fs (by simpa [GoType.noTag] using h)
    simp [getList, getListEnd, this]
theorem getListFields_noTag (ToLower : GoString → GoString) (pfx : GoString) :
    (fs : List (GoString × GoType × GoString)) → fieldsNoTag fs = true →
      getListFields ToLower pfx fs = some []
  | [], _ => by simp [getListFields]
  | (name, ty, tag) :: rest, h => by
    simp only [fieldsNoTag, Bool.and_eq_true, decide_eq_true_eq] at h
    obtain ⟨⟨h1, h2⟩, h3⟩ := h
    subst h1
    have a := getList_noTag ToLower (fieldName ToLower pfx name) ty h2
    have b := getListFields_noTag ToLower pfx rest h3
    simp [getListFields, a, b]
end

mutual
theorem getList_sizeOf (ToLower : GoString → GoString) (pfx : GoString) :
    (t : GoType) → (tag : GoString) → (l : List FlagSpec) →
      getList ToLower pfx t tag = some l → ∀ v ∈ l, sizeOf v.Type_ ≤ sizeOf t
  | .duration, tag, l, h, v, hv => by
    simp only [getList] at h
    rcases getListEnd_mem _ _ _ _ _ h v hv with h1 | h1
    · simp at h1
    · simp [h1.1]
  | .plain k, tag, l, h, v, hv => by
    simp only [getList] at h
    rcases getListEnd_mem _ _ _ _ _ h v hv with h1 | h1
    · simp at h1
    · simp [h1.1]
  | .ptr e, tag, l, h, v, hv => by
    simp only [getList, Option.bind_eq_some] at h
    obtain ⟨r, hr, h⟩ := h
    rcases getListEnd_mem _ _ _ _ _ h v hv with h1 | h1
    · have := getList_sizeOf ToLower pfx e tag r hr v h1
      simp
      omega
    · simp [h1.1]
  | .struct fs, tag, l, h, v, hv => by
    simp only [getList, Option.bind_eq_some] at h
    obtain ⟨r, hr, h⟩ := h
    rcases getListEnd_mem _ _ _ _ _ h v hv with h1 | h1
    · have := getListFields_sizeOf ToLower pfx fs r hr v h1
      simp
      omega
    · simp [h1.1]
theorem getListFields_sizeOf (ToLower : GoString → GoString) (pfx : GoString) :
    (fs : List (GoString × GoType × GoString)) → (l : List FlagSpec) →
      getListFields ToLower pfx fs = some l → ∀ v ∈ l, sizeOf v.Type_ < sizeOf fs
  | [], l, h, v, hv => by
    simp [getListFields] at h
    subst h
    simp at hv
  | (name, ty, tag) :: rest, l, h, v, hv => by
    simp only [getListFields, Option.bind_eq_some, Option.map_eq_some'] at h
    obtain ⟨r, hr, rs, hrs, h⟩ := h
    subst h
    rcases List.mem_append.1 hv with h1 | h1
    · have := getList_sizeOf ToLower (fieldName ToLower pfx name) ty tag r hr v h1
      simp
      omega
    · have := getListFields_sizeOf ToLower pfx rest rs hrs v h1
      simp
      omega
end

/-! ## `getList`: leaves, pointers and structs -/

/-- C1. A scalar or duration leaf whose annotation is `s|d|h`, with no pipe in `s` nor in
`d`, gives exactly one specification: its short name is `s`, its default `d` and its help
text `h`, pipes of `h` included. -/
theorem getList_leaf_annotation (ToLower : GoString → GoString) (pfx : GoString)
    (t : GoType) (s d h : GoString) (ht : t.isLeaf = true) (hs : 124 ∉ s) (hd : 124 ∉ d) :
    getList ToLower pfx t (s ++ [124] ++ d ++ [124] ++ h) = some [⟨t, pfx, s, d, h⟩] := by
  have hne : s ++ [124] ++ d ++ [124] ++ h ≠ [] := by simp
  have hp := SplitN_three s d h hs hd
  cases t with
  | duration => simp only [getList]; rw [getListEnd_three _ _ _ s d h [] hne hp]; rfl
  | plain k => simp only [getList]; rw [getListEnd_three _ _ _ s d h [] hne hp]; rfl
  | ptr e => simp [GoType.isLeaf] at ht
  | struct fs => simp [GoType.isLeaf] at ht

/-- Witness of C1: the annotation `x|5|help|more` on the leaf `A.B`, an `int` reached
under the name `a.b`. -/
theorem getList_leaf_annotation_witness :
    getList asciiToLower (utf8 "a.b") (.plain .Int) (utf8 "x|5|help|more")
      = some [⟨.plain .Int, utf8 "a.b", utf8 "x", utf8 "5", utf8 "help|more"⟩] :=
  getList_leaf_annotation asciiToLower (utf8 "a.b") (.plain .Int) (utf8 "x") (utf8 "5")
    (utf8 "help|more") rfl (by decide) (by decide)

/-- C7, the claim as stated fails: a pointer to `int` annotated `x|5|help` gives two
specifications, the `int` reached through the pointer gives one. -/
theorem getList_ptr_counterexample :
    getList asciiToLower (utf8 "n") (.ptr (.plain .Int)) (utf8 "x|5|help")
      ≠ getList asciiToLower (utf8 "n") (.plain .Int) (utf8 "x|5|help") := by
  intro h
  have := congrArg (Option.map List.length) h
  revert this
  decide

/-- C7, amended. With the empty annotation a pointer gives what its element type gives.
With a non-empty annotation that splits in three parts, it gives what its element type
gives, followed by one specification of the pointer type itself, under the same name. -/
theorem getList_ptr (ToLower : GoString → GoString) (pfx : GoString) (T : GoType)
    (tag : GoString) :
    (tag = [] → getList ToLower pfx (.ptr T) tag = getList ToLower pfx T tag) ∧
    (∀ l p0 p1 p2, tag ≠ [] → SplitN tag 124 3 = [p0, p1, p2] →
      getList ToLower pfx T tag = some l →
      getList ToLower pfx (.ptr T) tag = some (l ++ [⟨.ptr T, pfx, p0, p1, p2⟩])) := by
  constructor
  · intro h
    subst h
    cases hT : getList ToLower pfx T [] with
    | none => simp [getList, hT]
    | some r => simp [getList, hT, getListEnd_nil]
  · intro l p0 p1 p2 hne hp hl
    simp [getList, hl, getListEnd_three pfx (.ptr T) tag p0 p1 p2 l hne hp]

/-- Witness of C7 amended: the pointer to `int` annotated `x|5|help`. -/
theorem getList_ptr_witness :
    getList asciiToLower (utf8 "n") (.ptr (.plain .Int)) (utf8 "x|5|help")
      = some ([⟨.plain .Int, utf8 "n", utf8 "x", utf8 "5", utf8 "help"⟩]
          ++ [⟨.ptr (.plain .Int), utf8 "n", utf8 "x", utf8 "5", utf8 "help"⟩]) :=
  (getList_ptr asciiToLower (utf8 "n") (.plain .Int) (utf8 "x|5|help")).2 _ (utf8 "x")
    (utf8 "5") (utf8 "help") (by decide) (by decide) rfl

/-- C8, the claim as stated fails: the struct `S` with one field, annotated `s|0|all`, gives
more than the specifications of its fields, and the last specification has type `S`. -/
theorem getList_struct_counterexample :
    getList asciiToLower (utf8 "a") (.struct [(utf8 "X", .plain .Int, utf8 "x|1|h")])
        (utf8 "s|0|all")
      ≠ getListFields asciiToLower (utf8 "a") [(utf8 "X", .plain .Int, utf8 "x|1|h")] ∧
    ∃ l, getList asciiToLower (utf8 "a") (.struct [(utf8 "X", .plain .Int, utf8 "x|1|h")])
        (utf8 "s|0|all") = some l ∧
      ∃ v ∈ l, v.Type_ = .struct [(utf8 "X", .plain .Int, utf8 "x|1|h")] := by
  refine ⟨?_, [⟨.plain .Int, utf8 "a.x", utf8 "x", utf8 "1", utf8 "h"⟩,
      ⟨.struct [(utf8 "X", .plain .Int, utf8 "x|1|h")], utf8 "a", utf8 "s", utf8 "0",
        utf8 "all"⟩], rfl,
    ⟨.struct [(utf8 "X", .plain .Int, utf8 "x|1|h")], utf8 "a", utf8 "s", utf8 "0",
      utf8 "all"⟩, List.mem_cons_of_mem _ (List.mem_singleton.2 rfl), rfl⟩
  intro h
  have := congrArg (Option.map List.length) h
  revert this
  decide

/-- C8, amended. A struct is always expanded.  With the empty annotation the result
consists of the specifications of its fields only, none of which has the struct as its
type.  With a non-empty annotation that splits in three parts, the specifications of the
fields are followed by one specification whose type is the struct itself. -/
theorem getList_struct (ToLower : GoString → GoString) (pfx : GoString)
    (fs : List (GoString × GoType × GoString)) (tag : GoString) :
    (tag = [] → getList ToLower pfx (.struct fs) tag = getListFields ToLower pfx fs ∧
      ∀ l, getList ToLower pfx (.struct fs) tag = some l →
        ∀ v ∈ l, v.Type_ ≠ .struct fs) ∧
    (∀ l p0 p1 p2, tag ≠ [] → SplitN tag 124 3 = [p0, p1, p2] →
      getListFields ToLower pfx fs = some l →
      getList ToLower pfx (.struct fs) tag = some (l ++ [⟨.struct fs, pfx, p0, p1, p2⟩])) := by
  constructor
  · intro h
    subst h
    have e : getList ToLower pfx (.struct fs) [] = getListFields ToLower pfx fs := by
      cases hT : getListFields ToLower pfx fs with
      | none => simp [getList, hT]
      | some r => simp [getList, hT, getListEnd_nil]
    refine ⟨e, ?_⟩
    intro l hl v hv hty
    rw [e] at hl
    have := getListFields_sizeOf ToLower pfx fs l hl v hv
    rw [hty] at this
    simp at this
  · intro l p0 p1 p2 hne hp hl
    simp [getList, hl, getListEnd_three pfx (.struct fs) tag p0 p1 p2 l hne hp]

/-- Witness of C8 amended: the struct with one annotated field, itself annotated. -/
theorem getList_struct_witness :
    getList asciiToLower (utf8 "a") (.struct [(utf8 "X", .plain .Int, utf8 "x|1|h")])
        (utf8 "s|0|all")
      = some ([⟨.plain .Int, utf8 "a.x", utf8 "x", utf8 "1", utf8 "h"⟩]
          ++ [⟨.struct [(utf8 "X", .plain .Int, utf8 "x|1|h")], utf8 "a", utf8 "s", utf8 "0",
                utf8 "all"⟩]) :=
  (getList_struct asciiToLower (utf8 "a") [(utf8 "X", .plain .Int, utf8 "x|1|h")]
    (utf8 "s|0|all")).2 _ (utf8 "s") (utf8 "0") (utf8 "all") (by decide) (by decide) rfl

/-! ## `addFlags`: the help text -/

theorem helpText_brace (pre label post : GoString) (h1 : 123 ∉ pre) (h2 : 125 ∉ pre)
    (h3 : 125 ∉ label) :
    helpText (pre ++ [123] ++ label ++ [125] ++ post)
      = pre ++ [96] ++ label ++ [96] ++ post := by
  have e1 : pre ++ [123] ++ label ++ [125] ++ post = pre ++ 123 :: (label ++ 125 :: post) := by
    simp
  have e2 : pre ++ [123] ++ label ++ [125] ++ post = (pre ++ 123 :: label) ++ 125 :: post := by
    simp
  have hm : 125 ∉ pre ++ 123 :: label := by simp [h2, h3]
  have i1 : Index (pre ++ [123] ++ label ++ [125] ++ post) 123 = pre.length := by
    rw [e1]; exact Index_append_cons _ _ _ h1
  have i2 : Index (pre ++ [123] ++ label ++ [125] ++ post) 125
      = (pre ++ 123 :: label).length := by
    rw [e2]; exact Index_append_cons _ _ _ hm
  have c : ((pre.length : Int) ≥ 0 ∧ ((pre ++ 123 :: label).length : Int) > pre.length) := by
    constructor
    · omega
    · simp only [List.length_append, List.length_cons]; push_cast; omega
  unfold helpText
  simp only [i1, i2, if_pos c, Int.toNat_ofNat]
  have t1 : List.take pre.length (pre ++ [123] ++ label ++ [125] ++ post) = pre := by
    rw [e1]; exact List.take_left' rfl
  have t2 : List.take (pre ++ 123 :: label).length (pre ++ [123] ++ label ++ [125] ++ post)
      = pre ++ 123 :: label := by
    rw [e2]; exact List.take_left' rfl
  have t3 : List.drop ((pre ++ 123 :: label).length + 1)
      (pre ++ [123] ++ label ++ [125] ++ post) = post := by
    rw [e2]
    have : (pre ++ 123 :: label) ++ 125 :: post = (pre ++ 123 :: label ++ [125]) ++ post := by
      simp
    rw [this]
    exact List.drop_left' (by simp; omega)
  rw [t1, t2, t3]
  simp

theorem helpText_cases (help : GoString) :
    helpText help = help ∨
      ∃ pre label post, help = pre ++ [123] ++ label ++ [125] ++ post ∧ 123 ∉ pre ∧
        125 ∉ pre ∧ 125 ∉ label ∧ helpText help = pre ++ [96] ++ label ++ [96] ++ post := by
  rcases Index_spec help 123 with ⟨_, hb⟩ | ⟨p1, q1, hs1, hp1, hb⟩
  · left
    unfold helpText
    simp [hb]
  · rcases Index_spec help 125 with ⟨_, he⟩ | ⟨p2, q2, hs2, hp2, he⟩
    · left
      unfold helpText
      simp only [hb, he]
      rw [if_neg]
      omega
    · by_cases hlt : p1.length < p2.length
      · right
        have hEq : p1 ++ 123 :: q1 = p2 ++ 125 :: q2 := hs1.symm.trans hs2
        obtain ⟨a, ha⟩ | ⟨c, hc⟩ := List.append_eq_append_iff.1 hEq
        · -- p2 = p1 ++ a
          obtain ⟨ha1, ha2⟩ := ha
          cases a with
          | nil => simp at ha1; subst ha1; simp at hlt
          | cons x label =>
            simp only [List.cons_append, List.cons.injEq] at ha2
            obtain ⟨hx, hq⟩ := ha2
            subst hx
            have h2 : 125 ∉ p1 := fun h => hp2 (by rw [ha1]; simp [h])
            have h3 : 125 ∉ label := fun h => hp2 (by rw [ha1]; simp [h])
            have hh : help = p1 ++ [123] ++ label ++ [125] ++ q2 := by
              rw [hs1, hq]; simp
            refine ⟨p1, label, q2, hh, hp1, h2, h3, ?_⟩
            rw [hh]
            exact helpText_brace p1 label q2 hp1 h2 h3
        · obtain ⟨hc1, hc2⟩ := hc
          have := congrArg List.length hc1
          simp at this
          omega
      · left
        unfold helpText
        simp only [hb, he]
        rw [if_neg]
        omega

theorem diffCount_self (a : GoString) : diffCount a a = 0 := by
  induction a with
  | nil => rfl
  | cons x a ih =>
    unfold diffCount at ih ⊢
    simpa using ih

theorem diffCount_append (a b c d : GoString) (h : a.length = b.length) :
    diffCount (a ++ c) (b ++ d) = diffCount a b + diffCount c d := by
  unfold diffCount
  rw [List.zip_append h, List.filter_append, List.length_append]

theorem diffCount_cons_le (x y : Nat) (a b : GoString) :
    diffCount (x :: a) (y :: b) ≤ 1 + diffCount a b := by
  unfold diffCount
  simp only [List.zip_cons_cons, List.filter_cons]
  split
  · simp; omega
  · simp

theorem helpText_length_diff (help : GoString) :
    (helpText help).length = help.length ∧ diffCount help (helpText help) ≤ 2 := by
  rcases helpText_cases help with h | ⟨pre, label, post, hh, _, _, _, h⟩
  · rw [h]
    exact ⟨rfl, by rw [diffCount_self]; omega⟩
  · rw [h]
    refine ⟨by rw [hh]; simp, ?_⟩
    rw [hh]
    have e1 : pre ++ [123] ++ label ++ [125] ++ post
        = pre ++ (123 :: (label ++ (125 :: post))) := by simp
    have e2 : pre ++ [96] ++ label ++ [96] ++ post
        = pre ++ (96 :: (label ++ (96 :: post))) := by simp
    rw [e1, e2, diffCount_append _ _ _ _ rfl, diffCount_self]
    have a1 := diffCount_cons_le 123 96 (label ++ 125 :: post) (label ++ 96 :: post)
    rw [diffCount_append _ _ _ _ rfl, diffCount_self] at a1
    have a2 := diffCount_cons_le 125 96 post post
    rw [diffCount_self] at a2
    omega

theorem registerFlag_fields (v : FlagSpec) (short help : GoString) (f : Flag)
    (h : registerFlag v short help = some f) :
    f.Name = v.Name ∧ f.Shorthand = short ∧ f.Default = v.Default ∧ f.Usage = help := by
  unfold registerFlag at h
  split at h
  · cases h; exact ⟨rfl, rfl, rfl, rfl⟩
  · split at h <;> first | (cases h; exact ⟨rfl, rfl, rfl, rfl⟩) | exact absurd h (by simp)

/-- C9, the claim as stated fails: the help text `} {a}` contains an opening brace before a
closing brace, and is registered unchanged, not as `} ` followed by the quoted label. -/
theorem helpText_counterexample :
    utf8 "\x7d \x7ba\x7d" = utf8 "\x7d " ++ [123] ++ utf8 "a" ++ [125] ++ [] ∧
    helpText (utf8 "\x7d \x7ba\x7d") = utf8 "\x7d \x7ba\x7d" ∧
    helpText (utf8 "\x7d \x7ba\x7d") ≠ utf8 "\x7d " ++ [96] ++ utf8 "a" ++ [96] ++ [] := by
  decide

/-- C9, amended. When the first opening brace of the help text comes before its first
closing brace, the registered help text is the text before that opening brace, a backquote,
the text between the two braces, a backquote, and the text after that closing brace.  The
registered text always has the length of the original and differs from it in at most two
byte positions.  A help text in which no opening brace comes before the first closing brace
is registered unchanged. -/
theorem helpText_rewrite :
    (∀ pre label post : GoString, 123 ∉ pre → 125 ∉ pre → 125 ∉ label →
      helpText (pre ++ [123] ++ label ++ [125] ++ post)
        = pre ++ [96] ++ label ++ [96] ++ post) ∧
    (∀ help : GoString,
      (helpText help).length = help.length ∧ diffCount help (helpText help) ≤ 2) ∧
    (∀ help : GoString,
      (¬ ∃ pre label post, help = pre ++ [123] ++ label ++ [125] ++ post ∧ 123 ∉ pre ∧
        125 ∉ pre ∧ 125 ∉ label) → helpText help = help) ∧
    (∀ (v : FlagSpec) (short : GoString) (f : Flag),
      registerFlag v short (helpText v.HelpMessage) = some f →
        f.Usage = helpText v.HelpMessage) := by
  refine ⟨helpText_brace, helpText_length_diff, ?_, ?_⟩
  · intro help hno
    rcases helpText_cases help with h | ⟨pre, label, post, hh, h1, h2, h3, _⟩
    · exact h
    · exact absurd ⟨pre, label, post, hh, h1, h2, h3⟩ hno
  · intro v short f h
    exact (registerFlag_fields v short _ f h).2.2.2

/-- Witness of C9 amended: `Listen {IP}` is registered as `Listen` followed by the quoted
label `IP`. -/
theorem helpText_rewrite_witness :
    helpText (utf8 "Listen \x7bIP\x7d") = utf8 "Listen " ++ [96] ++ utf8 "IP" ++ [96] ++ [] :=
  helpText_rewrite.1 (utf8 "Listen ") (utf8 "IP") [] (by decide) (by decide) (by decide)

/-! ## `addFlags`: the short names -/

theorem addFlagsLoop_append (used : GoString → GoString) (flags : List Flag)
    (pre post : List FlagSpec) :
    addFlagsLoop used flags (pre ++ post)
      = addFlagsLoop (addFlagsLoop used flags pre).1 (addFlagsLoop used flags pre).2 post := by
  induction pre generalizing used flags with
  | nil => rfl
  | cons v pre ih => simp only [List.cons_append, addFlagsLoop]; exact ih _ _

theorem addFlagsLoop_flags (used : GoString → GoString) (flags : List Flag)
    (l : List FlagSpec) : ∃ later, (addFlagsLoop used flags l).2 = flags ++ later := by
  induction l generalizing used flags with
  | nil => exact ⟨[], by simp [addFlagsLoop]⟩
  | cons v l ih =>
    obtain ⟨later, h⟩ := ih (claimShortName used v).1
      (flags ++ (registerFlag v (claimShortName used v).2 (helpText v.HelpMessage)).toList)
    exact ⟨(registerFlag v (claimShortName used v).2 (helpText v.HelpMessage)).toList ++ later,
      by simp only [addFlagsLoop]; rw [h, List.append_assoc]⟩

/-- The map `used` holds a name exactly for the one-byte short names of the specifications
seen so far. -/
theorem claimShortName_used (seen : List FlagSpec) (used : GoString → GoString)
    (v : FlagSpec) (hv : v.Name ≠ [])
    (inv : ∀ k, used k ≠ [] ↔ (k.length = 1 ∧ ∃ u ∈ seen, u.ShortName = k)) :
    ∀ k, (claimShortName used v).1 k ≠ [] ↔
      (k.length = 1 ∧ ∃ u ∈ seen ++ [v], u.ShortName = k) := by
  intro k
  unfold claimShortName
  split
  next h0 =>
    rw [inv k]
    constructor
    · rintro ⟨h1, u, hu, e⟩
      exact ⟨h1, u, by simp [hu], e⟩
    · rintro ⟨h1, u, hu, e⟩
      refine ⟨h1, ?_⟩
      rcases List.mem_append.1 hu with hu | hu
      · exact ⟨u, hu, e⟩
      · simp only [List.mem_singleton] at hu
        subst hu
        rw [e] at h0
        omega
  next h1 =>
    by_cases hc : used v.ShortName ≠ []
    · rw [if_pos hc]
      simp only
      rw [inv k]
      constructor
      · rintro ⟨hk, u, hu, e⟩
        exact ⟨hk, u, by simp [hu], e⟩
      · rintro ⟨hk, u, hu, e⟩
        refine ⟨hk, ?_⟩
        rcases List.mem_append.1 hu with hu | hu
        · exact ⟨u, hu, e⟩
        · simp only [List.mem_singleton] at hu
          subst hu
          rw [← e]
          exact ((inv u.ShortName).1 hc).2
    · rw [if_neg hc]
      simp only
      by_cases hk : k = v.ShortName
      · rw [if_pos hk]
        constructor
        · intro _
          exact ⟨by rw [hk]; exact h1, v, by simp, hk.symm⟩
        · intro _
          exact hv
      · rw [if_neg hk, inv k]
        constructor
        · rintro ⟨h, u, hu, e⟩
          exact ⟨h, u, by simp [hu], e⟩
        · rintro ⟨h, u, hu, e⟩
          refine ⟨h, ?_⟩
          rcases List.mem_append.1 hu with hu | hu
          · exact ⟨u, hu, e⟩
          · simp only [List.mem_singleton] at hu
            subst hu
            exact absurd e.symm hk
  next h0 h1 =>
    rw [inv k]
    constructor
    · rintro ⟨hk, u, hu, e⟩
      exact ⟨hk, u, by simp [hu], e⟩
    · rintro ⟨hk, u, hu, e⟩
      refine ⟨hk, ?_⟩
      rcases List.mem_append.1 hu with hu | hu
      · exact ⟨u, hu, e⟩
      · simp only [List.mem_singleton] at hu
        subst hu
        rw [e] at h1
        exact absurd hk h1

theorem claimShortName_short (seen : List FlagSpec) (used : GoString → GoString)
    (v : FlagSpec)
    (inv : ∀ k, used k ≠ [] ↔ (k.length = 1 ∧ ∃ u ∈ seen, u.ShortName = k)) :
    (claimShortName used v).2 = registeredShortName seen v := by
  unfold claimShortName registeredShortName
  split
  next h0 =>
    have : v.ShortName = [] := List.length_eq_zero.1 h0
    simp [this]
  next h1 =>
    by_cases hc : used v.ShortName ≠ []
    · rw [if_pos hc]
      obtain ⟨_, u, hu, e⟩ := (inv v.ShortName).1 hc
      rw [if_neg]
      rintro ⟨_, hall⟩
      exact hall u hu e
    · rw [if_neg hc, if_pos]
      refine ⟨h1, ?_⟩
      intro u hu e
      exact hc ((inv v.ShortName).2 ⟨h1, u, hu, e⟩)
  next h0 h1 =>
    rw [if_neg]
    rintro ⟨h, _⟩
    exact h1 h

theorem addFlagsLoop_used (seen : List FlagSpec) (used : GoString → GoString)
    (flags : List Flag) (l : List FlagSpec) (hl : ∀ u ∈ l, u.Name ≠ [])
    (inv : ∀ k, used k ≠ [] ↔ (k.length = 1 ∧ ∃ u ∈ seen, u.ShortName = k)) :
    ∀ k, (addFlagsLoop used flags l).1 k ≠ [] ↔
      (k.length = 1 ∧ ∃ u ∈ seen ++ l, u.ShortName = k) := by
  induction l generalizing seen used flags with
  | nil => simpa [addFlagsLoop] using inv
  | cons v l ih =>
    simp only [addFlagsLoop]
    have hv : v.Name ≠ [] := hl v (by simp)
    have := ih (seen ++ [v]) (claimShortName used v).1
      (flags ++ (registerFlag v (claimShortName used v).2 (helpText v.HelpMessage)).toList)
      (fun u hu => hl u (by simp [hu])) (claimShortName_used seen used v hv inv)
    simpa using this

/-- The flags after the specification `v` that follows the specifications `pre`: the flags
after `pre`, and the registration of `v` under the short name of the specification. -/
theorem addFlagsLoop_snoc (flags : List Flag) (pre : List FlagSpec) (v : FlagSpec)
    (hl : ∀ u ∈ pre, u.Name ≠ []) :
    (addFlagsLoop (fun _ => []) flags (pre ++ [v])).2
      = (addFlagsLoop (fun _ => []) flags pre).2
          ++ (registerFlag v (registeredShortName pre v) (helpText v.HelpMessage)).toList := by
  have inv := addFlagsLoop_used [] (fun _ => []) flags pre hl (by simp)
  simp only [List.nil_append] at inv
  rw [addFlagsLoop_append]
  simp only [addFlagsLoop]
  rw [claimShortName_short pre _ v inv]

mutual
theorem getList_name_ne_nil (ToLower : GoString → GoString) (pfx : GoString) :
    (t : GoType) → (tag : GoString) → (l : List FlagSpec) → (pfx ≠ [] ∨ tag = []) →
      t.lowerNonEmpty ToLower = true → getList ToLower pfx t tag = some l →
      ∀ v ∈ l, v.Name ≠ []
  | .duration, tag, l, hp, _, h, v, hv => by
    simp only [getList] at h
    rcases getListEnd_mem _ _ _ _ _ h v hv with h1 | h1
    · simp at h1
    · rw [h1.2.1]; exact hp.resolve_right h1.2.2.1
  | .plain k, tag, l, hp, _, h, v, hv => by
    simp only [getList] at h
    rcases getListEnd_mem _ _ _ _ _ h v hv with h1 | h1
    · simp at h1
    · rw [h1.2.1]; exact hp.resolve_right h1.2.2.1
  | .ptr e, tag, l, hp, hn, h, v, hv => by
    simp only [getList, Option.bind_eq_some] at h
    obtain ⟨r, hr, h⟩ := h
    rcases getListEnd_mem _ _ _ _ _ h v hv with h1 | h1
    · exact getList_name_ne_nil ToLower pfx e tag r hp
        (by simpa [GoType.lowerNonEmpty] using hn) hr v h1
    · rw [h1.2.1]; exact hp.resolve_right h1.2.2.1
  | .struct fs, tag, l, hp, hn, h, v, hv => by
    simp only [getList, Option.bind_eq_some] at h
    obtain ⟨r, hr, h⟩ := h
    rcases getListEnd_mem _ _ _ _ _ h v hv with h1 | h1
    · exact getListFields_name_ne_nil ToLower pfx fs r
        (by simpa [GoType.lowerNonEmpty] using hn) hr v h1
    · rw [h1.2.1]; exact hp.resolve_right h1.2.2.1
theorem getListFields_name_ne_nil (ToLower : GoString → GoString) (pfx : GoString) :
    (fs : List (GoString × GoType × GoString)) → (l : List FlagSpec) →
      fieldsLowerNonEmpty ToLower fs = true → getListFields ToLower pfx fs = some l →
      ∀ v ∈ l, v.Name ≠ []
  | [], l, _, h, v, hv => by
    simp [getListFields] at h
    subst h
    simp at hv
  | (name, ty, tag) :: rest, l, hn, h, v, hv => by
    simp only [getListFields, Option.bind_eq_some, Option.map_eq_some'] at h
    obtain ⟨r, hr, rs, hrs, h⟩ := h
    subst h
    simp only [fieldsLowerNonEmpty, Bool.and_eq_true, decide_eq_true_eq] at hn
    obtain ⟨⟨h1, h2⟩, h3⟩ := hn
    rcases List.mem_append.1 hv with hm | hm
    · refine getList_name_ne_nil ToLower (fieldName ToLower pfx name) ty tag r
        (Or.inl ?_) h2 hr v hm
      unfold fieldName
      simp [h1]
    · exact getListFields_name_ne_nil ToLower pfx rest rs h3 hrs v hm
end

/-! ## `addFlags`: the type of the flag, and the short names of `LoadConfig` -/

/-- Every kind other than `int16` is registered as a flag of its own type, or not at all
when it is not a scalar kind. -/
theorem registerFlag_same_type (k : PlainKind) (n s d h short help : GoString)
    (h16 : k ≠ .Int16) :
    (registerFlag ⟨.plain k, n, s, d, h⟩ short help).map (fun f => f.Value)
      = sameFlagType k := by
  cases k <;> first | rfl | exact absurd rfl h16

/-- C10, at the failing input: a field of type `int16` is registered as a flag of type
`int32` (the case `reflect.Int16` declares an `int32` and calls `Int32P`), where the flag of
the same primitive type is an `int16` flag. -/
theorem addFlags_int16 :
    addFlags asciiToLower []
        (.ptr (.struct [(utf8 "Small", .plain .Int16, utf8 "|1|small number")]))
      = some [⟨utf8 "small", [], .Int32, utf8 "1", utf8 "small number"⟩] ∧
    sameFlagType .Int16 = some .Int16 ∧
    ∀ (n s d h short help : GoString),
      (registerFlag ⟨.plain .Int16, n, s, d, h⟩ short help).map (fun f => f.Value)
        = some .Int32 := by
  refine ⟨by decide, rfl, ?_⟩
  intro n s d h short help
  rfl

/-- C5, at the failing input: a leaf annotated with the short name `c` is registered with
that short name, which `LoadConfig` has given to `--config` before; the map `used` of
`addFlags` starts empty and does not know the built-in flags. -/
theorem LoadConfigFlags_short_c :
    LoadConfigFlags asciiToLower
        (.ptr (.struct [(utf8 "Cache", .plain .Int, utf8 "c|64|cache size")]))
      = some (builtinFlags
          ++ [⟨utf8 "cache", utf8 "c", .Int, utf8 "64", utf8 "cache size"⟩]) ∧
    (∃ f ∈ builtinFlags, f.Name = utf8 "config" ∧ f.Shorthand = utf8 "c") ∧
    ¬ (((builtinFlags
          ++ [(⟨utf8 "cache", utf8 "c", .Int, utf8 "64", utf8 "cache size"⟩ : Flag)]).map
        (fun f => f.Shorthand)).filter (fun s => decide (s ≠ []))).Nodup := by
  refine ⟨by decide, by decide, by decide⟩

/-! ## `getList`: the dotted names -/

theorem foldl_fieldName (ToLower : GoString → GoString) (path : List GoString)
    (pfx : GoString) (hp : pfx ≠ []) (hne : path ≠ []) (hn : ∀ n ∈ path, ToLower n ≠ []) :
    path.foldl (fieldName ToLower) pfx = pfx ++ 46 :: dottedName ToLower path := by
  induction path generalizing pfx with
  | nil => exact absurd rfl hne
  | cons n rest ih =>
    cases rest with
    | nil => simp [fieldName, hp, dottedName]
    | cons g r =>
      have hq : fieldName ToLower pfx n ≠ [] := by simp [fieldName, hp]
      rw [List.foldl_cons, ih (fieldName ToLower pfx n) hq (by simp)
        (fun m hm => hn m (List.mem_cons_of_mem _ hm))]
      simp [fieldName, hp, dottedName]

theorem foldl_fieldName_nil (ToLower : GoString → GoString) (path : List GoString)
    (hn : ∀ n ∈ path, ToLower n ≠ []) :
    path.foldl (fieldName ToLower) [] = dottedName ToLower path := by
  cases path with
  | nil => rfl
  | cons n rest =>
    have h1 : ToLower n ≠ [] := hn n (by simp)
    have hq : fieldName ToLower [] n = ToLower n := by simp [fieldName]
    cases rest with
    | nil => simp [hq, dottedName]
    | cons g r =>
      rw [List.foldl_cons, hq, foldl_fieldName ToLower (g :: r) (ToLower n) h1 (by simp)
        (fun m hm => hn m (List.mem_cons_of_mem _ hm))]
      simp [dottedName]

theorem FieldAt_cons (f : GoString × GoType × GoString)
    (fs : List (GoString × GoType × GoString)) (path : List GoString) (ft : GoType)
    (tg : GoString) (h : FieldAt (.struct fs) path ft tg) :
    FieldAt (.struct (f :: fs)) path ft tg := by
  cases h with
  | field _ n _ _ hm => exact FieldAt.field _ n ft tg (List.mem_cons_of_mem _ hm)
  | inside _ n ty tag p _ _ hm hf =>
    exact FieldAt.inside _ n ty tag p ft tg (List.mem_cons_of_mem _ hm) hf

mutual
theorem getList_origin (ToLower : GoString → GoString) :
    (t : GoType) → (pfx tag : GoString) → (l : List FlagSpec) →
      getList ToLower pfx t tag = some l → ∀ v ∈ l,
        (Pointee t v.Type_ ∧ v.Name = pfx ∧ tag ≠ [] ∧
          SplitN tag 124 3 = [v.ShortName, v.Default, v.HelpMessage]) ∨
        ∃ path ft tg, FieldAt t path ft tg ∧ Pointee ft v.Type_ ∧ tg ≠ [] ∧
          SplitN tg 124 3 = [v.ShortName, v.Default, v.HelpMessage] ∧
          v.Name = path.foldl (fieldName ToLower) pfx
  | .duration, pfx, tag, l, h, v, hv => by
    simp only [getList] at h
    rcases getListEnd_mem _ _ _ _ _ h v hv with h1 | h1
    · simp at h1
    · exact Or.inl ⟨h1.1 ▸ Pointee.self _, h1.2⟩
  | .plain k, pfx, tag, l, h, v, hv => by
    simp only [getList] at h
    rcases getListEnd_mem _ _ _ _ _ h v hv with h1 | h1
    · simp at h1
    · exact Or.inl ⟨h1.1 ▸ Pointee.self _, h1.2⟩
  | .ptr e, pfx, tag, l, h, v, hv => by
    simp only [getList, Option.bind_eq_some] at h
    obtain ⟨r, hr, h⟩ := h
    rcases getListEnd_mem _ _ _ _ _ h v hv with h1 | h1
    · rcases getList_origin ToLower e pfx tag r hr v h1 with h2 | ⟨path, ft, tg, hf, h2⟩
      · exact Or.inl ⟨Pointee.elem _ _ h2.1, h2.2⟩
      · exact Or.inr ⟨path, ft, tg, FieldAt.elem _ _ _ _ hf, h2⟩
    · exact Or.inl ⟨h1.1 ▸ Pointee.self _, h1.2⟩
  | .struct fs, pfx, tag, l, h, v, hv => by
    simp only [getList, Option.bind_eq_some] at h
    obtain ⟨r, hr, h⟩ := h
    rcases getListEnd_mem _ _ _ _ _ h v hv with h1 | h1
    · exact Or.inr (getListFields_origin ToLower fs pfx r hr v h1)
    · exact Or.inl ⟨h1.1 ▸ Pointee.self _, h1.2⟩
theorem getListFields_origin (ToLower : GoString → GoString) :
    (fs : List (GoString × GoType × GoString)) → (pfx : GoString) → (l : List FlagSpec) →
      getListFields ToLower pfx fs = some l → ∀ v ∈ l,
        ∃ path ft tg, FieldAt (.struct fs) path ft tg ∧ Pointee ft v.Type_ ∧ tg ≠ [] ∧
          SplitN tg 124 3 = [v.ShortName, v.Default, v.HelpMessage] ∧
          v.Name = path.foldl (fieldName ToLower) pfx
  | [], pfx, l, h, v, hv => by
    simp [getListFields] at h
    subst h
    simp at hv
  | (name, ty, tag) :: rest, pfx, l, h, v, hv => by
    simp only [getListFields, Option.bind_eq_some, Option.map_eq_some'] at h
    obtain ⟨r, hr, rs, hrs, h⟩ := h
    subst h
    rcases List.mem_append.1 hv with hm | hm
    · rcases getList_origin ToLower ty (fieldName ToLower pfx name) tag r hr v hm with
        h2 | ⟨path, ft, tg, hf, h2, h3, h4, h5⟩
      · exact ⟨[name], ty, tag, FieldAt.field _ _ _ _ (List.mem_cons_self _ _), h2.1,
          h2.2.2.1, h2.2.2.2, h2.2.1⟩
      · exact ⟨name :: path, ft, tg,
          FieldAt.inside _ name ty tag path ft tg (List.mem_cons_self _ _) hf, h2, h3, h4, h5⟩
    · obtain ⟨path, ft, tg, hf, h2⟩ := getListFields_origin ToLower rest pfx rs hrs v hm
      exact ⟨path, ft, tg, FieldAt_cons _ _ _ _ _ hf, h2⟩
end

theorem getList_own (ToLower : GoString → GoString) (t : GoType) (pfx tag : GoString)
    (l : List FlagSpec) (h : getList ToLower pfx t tag = some l) (hne : tag ≠ []) :
    ∃ v ∈ l, v.Type_ = t ∧ v.Name = pfx ∧
      SplitN tag 124 3 = [v.ShortName, v.Default, v.HelpMessage] := by
  have key : ∀ result, getListEnd pfx t tag result = some l →
      ∃ v ∈ l, v.Type_ = t ∧ v.Name = pfx ∧
        SplitN tag 124 3 = [v.ShortName, v.Default, v.HelpMessage] := by
    intro result hr
    rcases getListEnd_some pfx t tag result l hr with ⟨h0, _⟩ | ⟨p0, p1, p2, _, hs, hl⟩
    · exact absurd h0 hne
    · exact ⟨⟨t, pfx, p0, p1, p2⟩, by rw [hl]; simp, rfl, rfl, hs⟩
  cases t with
  | duration => exact key [] (by simpa only [getList] using h)
  | plain k => exact key [] (by simpa only [getList] using h)
  | ptr e =>
    simp only [getList, Option.bind_eq_some] at h
    obtain ⟨r, _, h⟩ := h
    exact key r h
  | struct fs =>
    simp only [getList, Option.bind_eq_some] at h
    obtain ⟨r, _, h⟩ := h
    exact key r h

theorem getListFields_mem (ToLower : GoString → GoString) (pfx : GoString)
    (fs : List (GoString × GoType × GoString)) (l : List FlagSpec)
    (h : getListFields ToLower pfx fs = some l) (n : GoString) (ty : GoType) (tag : GoString)
    (hm : (n, ty, tag) ∈ fs) :
    ∃ r, getList ToLower (fieldName ToLower pfx n) ty tag = some r ∧ ∀ v ∈ r, v ∈ l := by
  induction fs generalizing l with
  | nil => simp at hm
  | cons f rest ih =>
    obtain ⟨name, ty', tag'⟩ := f
    simp only [getListFields, Option.bind_eq_some, Option.map_eq_some'] at h
    obtain ⟨r, hr, rs, hrs, h⟩ := h
    subst h
    rcases List.mem_cons.1 hm with he | hm'
    · simp only [Prod.mk.injEq] at he
      obtain ⟨e1, e2, e3⟩ := he
      subst e1 e2 e3
      exact ⟨r, hr, fun v hv => List.mem_append_left _ hv⟩
    · obtain ⟨r', hr', hsub⟩ := ih rs hrs hm'
      exact ⟨r', hr', fun v hv => List.mem_append_right _ (hsub v hv)⟩

theorem getList_struct_fields (ToLower : GoString → GoString) (pfx tag : GoString)
    (fs : List (GoString × GoType × GoString)) (l : List FlagSpec)
    (h : getList ToLower pfx (.struct fs) tag = some l) :
    ∃ r, getListFields ToLower pfx fs = some r ∧ ∀ v ∈ r, v ∈ l := by
  simp only [getList, Option.bind_eq_some] at h
  obtain ⟨r, hr, h⟩ := h
  refine ⟨r, hr, ?_⟩
  rcases getListEnd_some _ _ _ _ _ h with ⟨_, hl⟩ | ⟨p0, p1, p2, _, _, hl⟩
  · intro v hv; rw [hl]; exact hv
  · intro v hv; rw [hl]; exact List.mem_append_left _ hv

theorem getList_ptr_elem (ToLower : GoString → GoString) (pfx tag : GoString)
    (e : GoType) (l : List FlagSpec) (h : getList ToLower pfx (.ptr e) tag = some l) :
    ∃ r, getList ToLower pfx e tag = some r ∧ ∀ v ∈ r, v ∈ l := by
  simp only [getList, Option.bind_eq_some] at h
  obtain ⟨r, hr, h⟩ := h
  refine ⟨r, hr, ?_⟩
  rcases getListEnd_some _ _ _ _ _ h with ⟨_, hl⟩ | ⟨p0, p1, p2, _, _, hl⟩
  · intro v hv; rw [hl]; exact hv
  · intro v hv; rw [hl]; exact List.mem_append_left _ hv

theorem getList_field_spec (ToLower : GoString → GoString) (t : GoType)
    (path : List GoString) (ft : GoType) (tg : GoString) (hf : FieldAt t path ft tg)
    (hne : tg ≠ []) (pfx tag : GoString) (l : List FlagSpec)
    (h : getList ToLower pfx t tag = some l) :
    ∃ v ∈ l, v.Type_ = ft ∧
      SplitN tg 124 3 = [v.ShortName, v.Default, v.HelpMessage] ∧
      v.Name = path.foldl (fieldName ToLower) pfx := by
  induction hf generalizing pfx tag l with
  | field fs n ft tg hm =>
    obtain ⟨r, hr, hsub⟩ := getList_struct_fields ToLower pfx tag fs l h
    obtain ⟨r', hr', hsub'⟩ := getListFields_mem ToLower pfx fs r hr n ft tg hm
    obtain ⟨v, hv, h1, h2, h3⟩ := getList_own ToLower ft _ tg r' hr' hne
    exact ⟨v, hsub v (hsub' v hv), h1, h3, h2⟩
  | inside fs n ty tag' path ft tg hm _ ih =>
    obtain ⟨r, hr, hsub⟩ := getList_struct_fields ToLower pfx tag fs l h
    obtain ⟨r', hr', hsub'⟩ := getListFields_mem ToLower pfx fs r hr n ty tag' hm
    obtain ⟨v, hv, h1⟩ := ih hne _ _ r' hr'
    exact ⟨v, hsub v (hsub' v hv), h1⟩
  | elem e path ft tg _ ih =>
    obtain ⟨r, hr, hsub⟩ := getList_ptr_elem ToLower pfx tag e l h
    obtain ⟨v, hv, h1⟩ := ih hne _ _ r hr
    exact ⟨v, hsub v hv, h1⟩

/-- C2. In the walk from the root, every specification comes from a field reached through a
path of field names (it has the type of that field, or of what the field points to, and the
three parts of that field's annotation), and its name is the dotted name of the path: the
lower-cased field names joined by dots.  Conversely the annotated field reached through a
path has a specification of its type under the dotted name of the path. -/
theorem getList_dotted_name (ToLower : GoString → GoString) (t : GoType)
    (l : List FlagSpec) (h : getList ToLower [] t [] = some l) :
    (∀ v ∈ l, ∃ path ft tg, FieldAt t path ft tg ∧ Pointee ft v.Type_ ∧ tg ≠ [] ∧
      SplitN tg 124 3 = [v.ShortName, v.Default, v.HelpMessage] ∧
      ((∀ n ∈ path, ToLower n ≠ []) → v.Name = dottedName ToLower path)) ∧
    (∀ path ft tg, FieldAt t path ft tg → tg ≠ [] → (∀ n ∈ path, ToLower n ≠ []) →
      ∃ v ∈ l, v.Type_ = ft ∧
        SplitN tg 124 3 = [v.ShortName, v.Default, v.HelpMessage] ∧
        v.Name = dottedName ToLower path) := by
  constructor
  · intro v hv
    rcases getList_origin ToLower t [] [] l h v hv with h1 | ⟨path, ft, tg, hf, h2, h3, h4, h5⟩
    · exact absurd rfl h1.2.2.1
    · exact ⟨path, ft, tg, hf, h2, h3, h4, fun hn => by
        rw [h5, foldl_fieldName_nil ToLower path hn]⟩
  · intro path ft tg hf hne hn
    obtain ⟨v, hv, h1, h2, h3⟩ := getList_field_spec ToLower t path ft tg hf hne [] [] l h
    exact ⟨v, hv, h1, h2, by rw [h3, foldl_fieldName_nil ToLower path hn]⟩

/-- Witness of C2: the field `IP` of the field `One` of `MainConfig` has the name
`one.ip`. -/
theorem getList_dotted_name_witness :
    ∃ v ∈ mainConfigSpecs, v.Type_ = .plain .String ∧
      SplitN (utf8 "H|127.0.0.1|Listen \x7bIP\x7d") 124 3
        = [v.ShortName, v.Default, v.HelpMessage] ∧
      v.Name = utf8 "one.ip" :=
  (getList_dotted_name asciiToLower MainConfig mainConfigSpecs rfl).2
    [utf8 "One", utf8 "IP"] (.plain .String) (utf8 "H|127.0.0.1|Listen \x7bIP\x7d")
    (FieldAt.inside _ (utf8 "One") ServiceOneConfig [] _ _ _
      (List.mem_cons_of_mem _ (List.mem_cons_self _ _))
      (FieldAt.field _ _ _ _ (List.mem_cons_self _ _)))
    (by decide) (by decide)

/-! ## `getList`: distinct names -/

theorem stem_inj (X Y e1 e2 : GoString) (hx : 46 ∉ X) (hy : 46 ∉ Y)
    (h1 : e1 = [] ∨ ∃ r, e1 = 46 :: r) (h2 : e2 = [] ∨ ∃ r, e2 = 46 :: r)
    (h : X ++ e1 = Y ++ e2) : X = Y := by
  induction X generalizing Y with
  | nil =>
    cases Y with
    | nil => rfl
    | cons y Y =>
      exfalso
      rcases h1 with h1 | ⟨r, h1⟩
      · subst h1; simp at h
      · subst h1
        simp only [List.nil_append, List.cons_append, List.cons.injEq] at h
        exact hy (by simp [h.1])
  | cons x X ih =>
    cases Y with
    | nil =>
      exfalso
      rcases h2 with h2 | ⟨r, h2⟩
      · subst h2; simp at h
      · subst h2
        simp only [List.nil_append, List.cons_append, List.cons.injEq] at h
        exact hx (by simp [h.1])
    | cons y Y =>
      simp only [List.cons_append, List.cons.injEq] at h
      have hx' : 46 ∉ X := fun m => hx (List.mem_cons_of_mem _ m)
      have hy' : 46 ∉ Y := fun m => hy (List.mem_cons_of_mem _ m)
      rw [h.1, ih Y hx' hy' h.2]

theorem fieldName_stem_inj (ToLower : GoString → GoString) (pfx x y e1 e2 : GoString)
    (hx : 46 ∉ ToLower x) (hy : 46 ∉ ToLower y)
    (h1 : e1 = [] ∨ ∃ r, e1 = 46 :: r) (h2 : e2 = [] ∨ ∃ r, e2 = 46 :: r)
    (h : fieldName ToLower pfx x ++ e1 = fieldName ToLower pfx y ++ e2) :
    ToLower x = ToLower y := by
  unfold fieldName at h
  rw [List.append_assoc, List.append_assoc] at h
  exact stem_inj _ _ e1 e2 hx hy h1 h2 (List.append_cancel_left h)

mutual
theorem getList_name_shape (ToLower : GoString → GoString) :
    (t : GoType) → (q tag : GoString) → (l : List FlagSpec) → q ≠ [] →
      getList ToLower q t tag = some l →
      ∀ v ∈ l, v.Name = q ∨ ∃ r, v.Name = q ++ 46 :: r
  | .duration, q, tag, l, _, h, v, hv => by
    simp only [getList] at h
    rcases getListEnd_mem _ _ _ _ _ h v hv with h1 | h1
    · simp at h1
    · exact Or.inl h1.2.1
  | .plain k, q, tag, l, _, h, v, hv => by
    simp only [getList] at h
    rcases getListEnd_mem _ _ _ _ _ h v hv with h1 | h1
    · simp at h1
    · exact Or.inl h1.2.1
  | .ptr e, q, tag, l, hq, h, v, hv => by
    simp only [getList, Option.bind_eq_some] at h
    obtain ⟨r, hr, h⟩ := h
    rcases getListEnd_mem _ _ _ _ _ h v hv with h1 | h1
    · exact getList_name_shape ToLower e q tag r hq hr v h1
    · exact Or.inl h1.2.1
  | .struct fs, q, tag, l, hq, h, v, hv => by
    simp only [getList, Option.bind_eq_some] at h
    obtain ⟨r, hr, h⟩ := h
    rcases getListEnd_mem _ _ _ _ _ h v hv with h1 | h1
    · exact Or.inr (getListFields_name_shape ToLower fs q r hq hr v h1)
    · exact Or.inl h1.2.1
theorem getListFields_name_shape (ToLower : GoString → GoString) :
    (fs : List (GoString × GoType × GoString)) → (q : GoString) → (l : List FlagSpec) →
      q ≠ [] → getListFields ToLower q fs = some l → ∀ v ∈ l, ∃ r, v.Name = q ++ 46 :: r
  | [], q, l, _, h, v, hv => by
    simp [getListFields] at h
    subst h
    simp at hv
  | (name, ty, tag) :: rest, q, l, hq, h, v, hv => by
    simp only [getListFields, Option.bind_eq_some, Option.map_eq_some'] at h
    obtain ⟨r, hr, rs, hrs, h⟩ := h
    subst h
    rcases List.mem_append.1 hv with hm | hm
    · have hq' : fieldName ToLower q name ≠ [] := by simp [fieldName, hq]
      have e : fieldName ToLower q name = q ++ 46 :: ToLower name := by simp [fieldName, hq]
      rcases getList_name_shape ToLower ty _ tag r hq' hr v hm with h1 | ⟨s, h1⟩
      · exact ⟨ToLower name, by rw [h1, e]⟩
      · exact ⟨ToLower name ++ 46 :: s, by rw [h1, e]; simp⟩
    · exact getListFields_name_shape ToLower rest q rs hq hrs v hm
end

theorem getListFields_name_field (ToLower : GoString → GoString) (pfx : GoString)
    (fs : List (GoString × GoType × GoString)) (l : List FlagSpec)
    (hn : ∀ f ∈ fs, ToLower f.1 ≠ []) (h : getListFields ToLower pfx fs = some l) :
    ∀ v ∈ l, ∃ f ∈ fs, ∃ e, (e = [] ∨ ∃ r, e = 46 :: r) ∧
      v.Name = fieldName ToLower pfx f.1 ++ e := by
  induction fs generalizing l with
  | nil =>
    simp [getListFields] at h
    subst h
    simp
  | cons f rest ih =>
    obtain ⟨name, ty, tag⟩ := f
    simp only [getListFields, Option.bind_eq_some, Option.map_eq_some'] at h
    obtain ⟨r, hr, rs, hrs, h⟩ := h
    subst h
    intro v hv
    rcases List.mem_append.1 hv with hm | hm
    · have h1 : ToLower name ≠ [] := hn (name, ty, tag) (by simp)
      have hq : fieldName ToLower pfx name ≠ [] := by simp [fieldName, h1]
      rcases getList_name_shape ToLower ty _ tag r hq hr v hm with h2 | ⟨s, h2⟩
      · exact ⟨(name, ty, tag), by simp, [], Or.inl rfl, by simp [h2]⟩
      · exact ⟨(name, ty, tag), by simp, 46 :: s, Or.inr ⟨s, rfl⟩, h2⟩
    · obtain ⟨f, hf, e, he, hv'⟩ :=
        ih rs (fun f hf => hn f (List.mem_cons_of_mem _ hf)) hrs v hm
      exact ⟨f, List.mem_cons_of_mem _ hf, e, he, hv'⟩

theorem fieldsDistinctLower_mem (ToLower : GoString → GoString)
    (fs : List (GoString × GoType × GoString)) (h : fieldsDistinctLower ToLower fs = true) :
    ∀ f ∈ fs, ToLower f.1 ≠ [] ∧ 46 ∉ ToLower f.1 := by
  induction fs with
  | nil => simp
  | cons f rest ih =>
    obtain ⟨name, ty, tag⟩ := f
    simp only [fieldsDistinctLower, Bool.and_eq_true, decide_eq_true_eq] at h
    obtain ⟨⟨⟨⟨h1, h2⟩, _⟩, _⟩, h5⟩ := h
    intro g hg
    rcases List.mem_cons.1 hg with e | hg
    · subst e; exact ⟨h1, h2⟩
    · exact ih h5 g hg

mutual
theorem getList_nodup (ToLower : GoString → GoString) :
    (t : GoType) → (q tag : GoString) → (l : List FlagSpec) →
      (q ≠ [] ∨ tag = []) → (tag = [] ∨ t.Kind ≠ Kind.Ptr) →
      t.distinctLower ToLower = true → t.noTaggedPtr = true →
      getList ToLower q t tag = some l → (l.map (fun v => v.Name)).Nodup
  | .duration, q, tag, l, _, _, _, _, h => by
    simp only [getList] at h
    rcases getListEnd_some _ _ _ _ _ h with ⟨_, hl⟩ | ⟨p0, p1, p2, _, _, hl⟩ <;>
      subst hl <;> simp
  | .plain k, q, tag, l, _, _, _, _, h => by
    simp only [getList] at h
    rcases getListEnd_some _ _ _ _ _ h with ⟨_, hl⟩ | ⟨p0, p1, p2, _, _, hl⟩ <;>
      subst hl <;> simp
  | .ptr e, q, tag, l, hq, ht, hd, hp, h => by
    have ht0 : tag = [] := ht.resolve_right (by simp [GoType.Kind])
    subst ht0
    simp only [getList, Option.bind_eq_some] at h
    obtain ⟨r, hr, h⟩ := h
    rw [getListEnd_nil] at h
    have hrl : r = l := by simpa using h
    rw [← hrl]
    exact getList_nodup ToLower e q [] r (Or.inr rfl) (Or.inl rfl)
      (by simpa [GoType.distinctLower] using hd) (by simpa [GoType.noTaggedPtr] using hp) hr
  | .struct fs, q, tag, l, hq, _, hd, hp, h => by
    simp only [getList, Option.bind_eq_some] at h
    obtain ⟨r, hr, h⟩ := h
    have hr' := getListFields_nodup ToLower fs q r
      (by simpa [GoType.distinctLower] using hd) (by simpa [GoType.noTaggedPtr] using hp) hr
    rcases getListEnd_some _ _ _ _ _ h with ⟨_, hl⟩ | ⟨p0, p1, p2, hne, _, hl⟩
    · subst hl; exact hr'
    · subst hl
      have hq' : q ≠ [] := hq.resolve_right hne
      rw [List.map_append, List.nodup_append]
      refine ⟨hr', by simp, ?_⟩
      intro a ha hb
      simp only [List.map_cons, List.map_nil, List.mem_singleton] at hb
      obtain ⟨v, hv, rfl⟩ := List.mem_map.1 ha
      obtain ⟨s, hs⟩ := getListFields_name_shape ToLower fs q r hq' hr v hv
      rw [hs] at hb
      have := congrArg List.length hb
      simp at this
theorem getListFields_nodup (ToLower : GoString → GoString) :
    (fs : List (GoString × GoType × GoString)) → (pfx : GoString) → (l : List FlagSpec) →
      fieldsDistinctLower ToLower fs = true → fieldsNoTaggedPtr fs = true →
      getListFields ToLower pfx fs = some l → (l.map (fun v => v.Name)).Nodup
  | [], pfx, l, _, _, h => by
    simp [getListFields] at h
    subst h
    simp
  | (name, ty, tag) :: rest, pfx, l, hd, hp, h => by
    simp only [getListFields, Option.bind_eq_some, Option.map_eq_some'] at h
    obtain ⟨r, hr, rs, hrs, h⟩ := h
    subst h
    have hmem := fieldsDistinctLower_mem ToLower _ hd
    simp only [fieldsDistinctLower, Bool.and_eq_true, decide_eq_true_eq] at hd
    obtain ⟨⟨⟨⟨d1, d2⟩, d3⟩, d4⟩, d5⟩ := hd
    simp only [fieldsNoTaggedPtr, Bool.and_eq_true, decide_eq_true_eq] at hp
    obtain ⟨⟨p1, p2⟩, p3⟩ := hp
    have hq : fieldName ToLower pfx name ≠ [] := by simp [fieldName, d1]
    have n1 := getList_nodup ToLower ty _ tag r (Or.inl hq) p1 d4 p2 hr
    have n2 := getListFields_nodup ToLower rest pfx rs d5 p3 hrs
    rw [List.map_append, List.nodup_append]
    refine ⟨n1, n2, ?_⟩
    intro a ha hb
    obtain ⟨v, hv, rfl⟩ := List.mem_map.1 ha
    obtain ⟨w, hw, hwv⟩ := List.mem_map.1 hb
    have s1 : ∃ e, (e = [] ∨ ∃ r, e = 46 :: r) ∧
        v.Name = fieldName ToLower pfx name ++ e := by
      rcases getList_name_shape ToLower ty _ tag r hq hr v hv with h2 | ⟨s, h2⟩
      · exact ⟨[], Or.inl rfl, by simp [h2]⟩
      · exact ⟨46 :: s, Or.inr ⟨s, rfl⟩, h2⟩
    obtain ⟨e1, he1, hv1⟩ := s1
    obtain ⟨f, hf, e2, he2, hw2⟩ := getListFields_name_field ToLower pfx rest rs
      (fun f hf => (hmem f (List.mem_cons_of_mem _ hf)).1) hrs w hw
    have hx := (hmem f (List.mem_cons_of_mem _ hf)).2
    have := fieldName_stem_inj ToLower pfx f.1 name e2 e1 hx d2 he2 he1
      (by rw [← hw2, ← hv1]; exact hwv)
    exact d3 f hf this
end

/-- C6, the claim as stated fails: the fields `Foo` and `FOO` of one struct have distinct
names, and both specifications have the name `foo`.  Also a struct whose only field is an
annotated pointer gives the name of that field twice. -/
theorem getList_names_counterexample :
    [utf8 "Foo", utf8 "FOO"].Nodup ∧
    (getList asciiToLower []
        (.ptr (.struct [ (utf8 "Foo", .plain .Int, utf8 "|1|first"),
                         (utf8 "FOO", .plain .Int, utf8 "|2|second") ])) []).map
      (fun l => l.map (fun v => v.Name)) = some [utf8 "foo", utf8 "foo"] ∧
    ¬ [utf8 "foo", utf8 "foo"].Nodup ∧
    (getList asciiToLower []
        (.ptr (.struct [ (utf8 "Limit", .ptr (.plain .Int), utf8 "l|10|upper limit") ]))
        []).map
      (fun l => l.map (fun v => v.Name)) = some [utf8 "limit", utf8 "limit"] ∧
    ¬ [utf8 "limit", utf8 "limit"].Nodup := by
  decide

/-- C6, amended. When within every struct the lower-cased field names are pairwise distinct
(non-empty and free of dots, as lower-cased identifiers are) and no field of pointer type is
annotated, the names of the specifications are pairwise distinct. -/
theorem getList_names_nodup (ToLower : GoString → GoString) (t : GoType)
    (l : List FlagSpec) (hd : t.distinctLower ToLower = true) (hp : t.noTaggedPtr = true)
    (h : getList ToLower [] t [] = some l) : (l.map (fun v => v.Name)).Nodup :=
  getList_nodup ToLower t [] [] l (Or.inr rfl) (Or.inl rfl) hd hp h

/-- Witness of C6 amended: the names of the specifications of `MainConfig`. -/
theorem getList_names_nodup_witness :
    (mainConfigSpecs.map (fun v => v.Name)).Nodup :=
  getList_names_nodup asciiToLower (.ptr MainConfig) mainConfigSpecs (by decide) (by decide)
    rfl

/-! ## The change notification and the end of `LoadConfig` -/

theorem noticeChanged_length {α : Type} (ch : List α) (c : α) (h : ch.length ≤ 1) :
    (noticeChanged ch c).length ≤ 1 := by
  unfold noticeChanged monitorCap
  split
  · have : ch.length = 0 := by omega
    simp [this]
  · exact h

/-- C14. On the empty channel `noticeChanged` leaves the given reference in the channel; on
a channel that holds a value it changes nothing; and whatever sequence of publications and
receives follows the making of the channel, it holds at most one value. -/
theorem noticeChanged_slot {α : Type} :
    (∀ c : α, noticeChanged [] c = [c]) ∧
    (∀ (old c : α), noticeChanged [old] c = [old]) ∧
    (∀ ch : List α, Reachable ch → ch.length ≤ 1) := by
  refine ⟨fun _ => rfl, fun _ _ => rfl, ?_⟩
  intro ch h
  induction h with
  | make => simp
  | publish ch c _ ih => exact noticeChanged_length ch c ih
  | drain ch _ ih => unfold drain; simp; omega

/-- Witness of C14: three publications and a receive. -/
theorem noticeChanged_slot_witness :
    (noticeChanged (drain (noticeChanged (noticeChanged [] 1) 2)) 3).length ≤ 1 :=
  noticeChanged_slot.2.2 _
    (Reachable.publish _ 3 (Reachable.drain _
      (Reachable.publish _ 2 (Reachable.publish _ 1 Reachable.make))))

/-- C15. Every notification of `LoadConfig` is the call `noticeChanged(config)` of the
callback of lines 47-50, made after `loadConfig(config)` has rewritten the caller's record.
When two of them follow each other with no receive in between, whether the channel was
empty before or held a notification already, the channel afterwards holds exactly one value,
never two; that value is equal to the value of the second notification, the reference
`config`, and the record behind it holds what the second reload left there, not what the
first did. -/
theorem onConfigChange_twice {ρ ref : Type} (config : ref) (r1 r2 : ρ)
    (s : WatchState ρ ref) (hs : s.configMonitor = [] ∨ s.configMonitor = [config]) :
    (onConfigChange config r2 (onConfigChange config r1 s)).configMonitor = [config] ∧
    (onConfigChange config r2 (onConfigChange config r1 s)).configMonitor.length = 1 ∧
    (onConfigChange config r2 (onConfigChange config r1 s)).record = r2 := by
  rcases hs with h | h <;> simp [onConfigChange, noticeChanged, monitorCap, h]

/-- Witness of C15: two reloads of the record `0`, to `1` and then to `2`, on the empty
channel. -/
theorem onConfigChange_twice_witness :
    (onConfigChange "config" 2 (onConfigChange "config" 1 ⟨0, []⟩)).configMonitor
      = ["config"] ∧
    (onConfigChange "config" 2 (onConfigChange "config" 1 ⟨0, []⟩)).configMonitor.length = 1 ∧
    (onConfigChange "config" 2 (onConfigChange "config" 1 ⟨0, []⟩)).record = 2 :=
  onConfigChange_twice "config" 1 2 ⟨0, []⟩ (Or.inl rfl)

/-- C16. `LoadConfig` exits with status 0 when `Execute` returned an error or one of the
four options is set, it never exits with another status, and it returns to the caller
exactly when `Execute` succeeded and none of the four options is set. -/
theorem LoadConfigEnd_exit (err optHelp optVersion optWriteYAML optWriteJSON marshalErr : Bool) :
    ((err = true ∨ optHelp = true ∨ optVersion = true ∨ optWriteYAML = true
        ∨ optWriteJSON = true) →
      (LoadConfigEnd err optHelp optVersion optWriteYAML optWriteJSON marshalErr).2
        = .exit 0) ∧
    (∀ status,
      (LoadConfigEnd err optHelp optVersion optWriteYAML optWriteJSON marshalErr).2
        = .exit status → status = 0) ∧
    ((LoadConfigEnd err optHelp optVersion optWriteYAML optWriteJSON marshalErr).2
        = .returned ↔
      (err = false ∧ optHelp = false ∧ optVersion = false ∧ optWriteYAML = false
        ∧ optWriteJSON = false)) := by
  cases err <;> cases optHelp <;> cases optVersion <;> cases optWriteYAML <;>
    cases optWriteJSON <;> cases marshalErr <;> simp [LoadConfigEnd]

/-- Witness of C16: a failed parse, and the option `--gen-json` alone. -/
theorem LoadConfigEnd_exit_witness :
    (LoadConfigEnd true false false false false false).2 = .exit 0 ∧
    (LoadConfigEnd false false false false true false).2 = .exit 0 :=
  ⟨(LoadConfigEnd_exit true false false false false false).1 (Or.inl rfl),
   (LoadConfigEnd_exit false false false false true false).1
     (Or.inr (Or.inr (Or.inr (Or.inr rfl))))⟩

/-! ## `addFlags`: which specifications are registered -/

theorem registerFlag_isSome (v : FlagSpec) (short help : GoString) :
    (registerFlag v short help).isSome = v.Type_.isLeaf := by
  obtain ⟨t, n, s, d, h⟩ := v
  cases t with
  | duration => rfl
  | plain k => cases k <;> rfl
  | ptr e => rfl
  | struct fs => rfl

theorem registerFlag_none (v : FlagSpec) (short help : GoString)
    (h : v.Type_.isLeaf = false) : registerFlag v short help = none := by
  have := registerFlag_isSome v short help
  rw [h] at this
  cases hr : registerFlag v short help with
  | none => rfl
  | some f => rw [hr] at this; simp at this

theorem registerFlag_some (v : FlagSpec) (short help : GoString)
    (h : v.Type_.isLeaf = true) : ∃ f, registerFlag v short help = some f := by
  have := registerFlag_isSome v short help
  rw [h] at this
  cases hr : registerFlag v short help with
  | none => rw [hr] at this; simp at this
  | some f => exact ⟨f, rfl⟩

theorem claimShortName_or (used : GoString → GoString) (v : FlagSpec) :
    (claimShortName used v).2 = [] ∨ (claimShortName used v).2 = v.ShortName := by
  unfold claimShortName
  split
  · exact Or.inr rfl
  · split
    · exact Or.inl rfl
    · exact Or.inr rfl
  · exact Or.inl rfl

/-- The flags the loop adds: one for each specification of duration type or scalar kind, in
the order of the list, each with the name, the default text and the rewritten help text of
its specification. -/
theorem addFlagsLoop_registered (used : GoString → GoString) (flags : List Flag)
    (list : List FlagSpec) :
    ∃ registered, (addFlagsLoop used flags list).2 = flags ++ registered ∧
      List.Forall₂
        (fun v f => f.Name = v.Name ∧ f.Default = v.Default ∧
          f.Usage = helpText v.HelpMessage ∧
          (f.Shorthand = [] ∨ f.Shorthand = v.ShortName))
        (list.filter fun v => v.Type_.isLeaf) registered := by
  induction list generalizing used flags with
  | nil => exact ⟨[], by simp [addFlagsLoop], by simp⟩
  | cons v rest ih =>
    obtain ⟨reg, h1, h2⟩ := ih (claimShortName used v).1
      (flags ++ (registerFlag v (claimShortName used v).2 (helpText v.HelpMessage)).toList)
    simp only [addFlagsLoop]
    cases hl : v.Type_.isLeaf with
    | false =>
      rw [registerFlag_none v _ _ hl] at h1 ⊢
      refine ⟨reg, by simpa using h1, ?_⟩
      simpa [List.filter_cons, hl] using h2
    | true =>
      obtain ⟨f, hf⟩ := registerFlag_some v (claimShortName used v).2
        (helpText v.HelpMessage) hl
      rw [hf] at h1 ⊢
      refine ⟨f :: reg, by simpa using h1, ?_⟩
      have hfields := registerFlag_fields v _ _ f hf
      have hs : f.Shorthand = [] ∨ f.Shorthand = v.ShortName := by
        rw [hfields.2.1]; exact claimShortName_or used v
      simp only [List.filter_cons, hl, if_true]
      exact List.Forall₂.cons ⟨hfields.1, hfields.2.2.1, hfields.2.2.2, hs⟩ h2

theorem forall₂_mem_right {α β : Type} (R : α → β → Prop) (l1 : List α) (l2 : List β)
    (h : List.Forall₂ R l1 l2) (b : β) (hb : b ∈ l2) : ∃ a ∈ l1, R a b := by
  induction h with
  | nil => simp at hb
  | cons hr _ ih =>
    rcases List.mem_cons.1 hb with e | hb
    · subst e
      exact ⟨_, List.mem_cons_self _ _, hr⟩
    · obtain ⟨a, ha, hab⟩ := ih hb
      exact ⟨a, List.mem_cons_of_mem _ ha, hab⟩

theorem addFlagsLoop_origin (used : GoString → GoString) (flags : List Flag)
    (list : List FlagSpec) (f : Flag) (hf : f ∈ (addFlagsLoop used flags list).2) :
    f ∈ flags ∨ ∃ u ∈ list, u.Type_.isLeaf = true ∧ f.Name = u.Name ∧
      (f.Shorthand = [] ∨ f.Shorthand = u.ShortName) := by
  obtain ⟨reg, h1, h2⟩ := addFlagsLoop_registered used flags list
  rw [h1] at hf
  rcases List.mem_append.1 hf with h | h
  · exact Or.inl h
  · right
    obtain ⟨u, hu, hr⟩ := forall₂_mem_right _ _ _ h2 f h
    have hm := List.mem_filter.1 hu
    exact ⟨u, hm.1, hm.2, hr.1, hr.2.2.2⟩

/-- C19. A specification `v` of a kind for which nothing is registered, with a one-byte
short name, takes that short name all the same: the specification `w` that comes later with
the same short name is registered without a short name; and when only specifications of such
kinds had that short name before, no registered flag uses it. -/
theorem addFlags_unsupported_claims (flags : List Flag) (pre : List FlagSpec)
    (v w : FlagSpec) (hn : ∀ u ∈ pre, u.Name ≠ []) (hv : v ∈ pre)
    (hty : v.Type_.isLeaf = false) (hlen : v.ShortName.length = 1)
    (hw : w.ShortName = v.ShortName) :
    (∀ short help, registerFlag v short help = none) ∧
    (addFlagsLoop (fun _ => []) flags (pre ++ [w])).2
      = (addFlagsLoop (fun _ => []) flags pre).2
          ++ (registerFlag w [] (helpText w.HelpMessage)).toList ∧
    ((∀ u ∈ pre, u.ShortName = v.ShortName → u.Type_.isLeaf = false) →
      ∀ f ∈ (addFlagsLoop (fun _ => []) [] (pre ++ [w])).2, f.Shorthand ≠ v.ShortName) := by
  have hshort : registeredShortName pre w = [] := by
    unfold registeredShortName
    rw [if_neg]
    rintro ⟨_, hall⟩
    exact hall v hv hw.symm
  have hsnoc : ∀ fl, (addFlagsLoop (fun _ => []) fl (pre ++ [w])).2
      = (addFlagsLoop (fun _ => []) fl pre).2
          ++ (registerFlag w [] (helpText w.HelpMessage)).toList := by
    intro fl
    rw [addFlagsLoop_snoc fl pre w hn, hshort]
  refine ⟨fun s h => registerFlag_none v s h hty, hsnoc flags, ?_⟩
  intro hall f hf hfs
  have hne : v.ShortName ≠ [] := by
    intro h0
    rw [h0] at hlen
    simp at hlen
  rw [hsnoc []] at hf
  rcases List.mem_append.1 hf with h | h
  · rcases addFlagsLoop_origin _ _ _ f h with h0 | ⟨u, hu, hleaf, _, hs⟩
    · simp at h0
    · rcases hs with hs | hs
      · exact hne (hfs ▸ hs)
      · have := hall u hu (hs ▸ hfs)
        rw [this] at hleaf
        exact absurd hleaf (by simp)
  · cases hr : registerFlag w [] (helpText w.HelpMessage) with
    | none => rw [hr] at h; simp at h
    | some g =>
      rw [hr] at h
      simp only [Option.toList, List.mem_singleton] at h
      subst h
      have := (registerFlag_fields w _ _ f hr).2.1
      exact hne (hfs ▸ this)

/-- Witness of C19: a slice annotated with the short name `t`, then an `int` annotated with
the same short name; the only flag registered is `timeout`, without a short name. -/
theorem addFlags_unsupported_claims_witness :
    (addFlagsLoop (fun _ => []) []
        ([⟨.plain .Slice, utf8 "tags", utf8 "t", utf8 "a", utf8 "tag list"⟩]
          ++ [⟨.plain .Int, utf8 "timeout", utf8 "t", utf8 "5", utf8 "timeout"⟩])).2
      = [] ++ [⟨utf8 "timeout", [], .Int, utf8 "5", utf8 "timeout"⟩] :=
  (addFlags_unsupported_claims []
    [⟨.plain .Slice, utf8 "tags", utf8 "t", utf8 "a", utf8 "tag list"⟩]
    ⟨.plain .Slice, utf8 "tags", utf8 "t", utf8 "a", utf8 "tag list"⟩
    ⟨.plain .Int, utf8 "timeout", utf8 "t", utf8 "5", utf8 "timeout"⟩
    (by intro u hu; rw [List.mem_singleton.1 hu]; decide)
    (List.mem_singleton.2 rfl) rfl rfl rfl).2.1

/-! ## `getList`: the order of the specifications, and the annotations that fail -/

theorem getListFields_parts (ToLower : GoString → GoString) (pfx : GoString)
    (fs : List (GoString × GoType × GoString)) (l : List FlagSpec) :
    getListFields ToLower pfx fs = some l ↔
      ∃ parts, List.Forall₂
          (fun f p => getList ToLower (fieldName ToLower pfx f.1) f.2.1 f.2.2 = some p)
          fs parts ∧ l = parts.flatten := by
  induction fs generalizing l with
  | nil =>
    simp only [getListFields, Option.some.injEq]
    constructor
    · intro h; exact ⟨[], List.Forall₂.nil, by simp [← h]⟩
    · rintro ⟨parts, h, rfl⟩
      cases h
      rfl
  | cons f rest ih =>
    obtain ⟨name, ty, tag⟩ := f
    simp only [getListFields, Option.bind_eq_some, Option.map_eq_some']
    constructor
    · rintro ⟨r, hr, rs, hrs, rfl⟩
      obtain ⟨parts, hp, rfl⟩ := (ih rs).1 hrs
      exact ⟨r :: parts, List.Forall₂.cons hr hp, by simp⟩
    · rintro ⟨parts, h, rfl⟩
      cases h with
      | cons hr hp =>
        exact ⟨_, hr, _, (ih _).2 ⟨_, hp, rfl⟩, by simp⟩

theorem getList_struct_nil (ToLower : GoString → GoString) (pfx : GoString)
    (fs : List (GoString × GoType × GoString)) :
    getList ToLower pfx (.struct fs) [] = getListFields ToLower pfx fs := by
  cases hT : getListFields ToLower pfx fs with
  | none => simp [getList, hT]
  | some r => simp [getList, hT, getListEnd_nil]

theorem getListFields_append (ToLower : GoString → GoString) (pfx : GoString)
    (a b : List (GoString × GoType × GoString)) :
    getListFields ToLower pfx (a ++ b)
      = (getListFields ToLower pfx a).bind fun la =>
          (getListFields ToLower pfx b).map fun lb => la ++ lb := by
  induction a with
  | nil =>
    rw [List.nil_append]
    cases hb : getListFields ToLower pfx b <;> simp [getListFields]
  | cons f rest ih =>
    obtain ⟨name, ty, tag⟩ := f
    rw [List.cons_append]
    simp only [getListFields]
    rw [ih]
    cases getList ToLower (fieldName ToLower pfx name) ty tag <;>
      cases getListFields ToLower pfx rest <;>
      cases getListFields ToLower pfx b <;> simp

/-- C13. A struct walked with the empty annotation (as every struct is in a type where only
leaves carry annotations) gives the concatenation, in the order of declaration of the
fields, of what `getList` gives for each field under the name of that field; so what comes
from a field stands after everything from the fields declared before it and before
everything from the fields declared after it. -/
theorem getList_declaration_order (ToLower : GoString → GoString) (pfx : GoString)
    (fs : List (GoString × GoType × GoString)) (l : List FlagSpec)
    (h : getList ToLower pfx (.struct fs) [] = some l) :
    (∃ parts, List.Forall₂
        (fun f p => getList ToLower (fieldName ToLower pfx f.1) f.2.1 f.2.2 = some p)
        fs parts ∧ l = parts.flatten) ∧
    (∀ before f after, fs = before ++ f :: after →
      ∃ lb lf la, getListFields ToLower pfx before = some lb ∧
        getList ToLower (fieldName ToLower pfx f.1) f.2.1 f.2.2 = some lf ∧
        getListFields ToLower pfx after = some la ∧ l = lb ++ lf ++ la) := by
  rw [getList_struct_nil] at h
  refine ⟨(getListFields_parts ToLower pfx fs l).1 h, ?_⟩
  intro before f after hfs
  obtain ⟨name, ty, tag⟩ := f
  rw [hfs, getListFields_append] at h
  simp only [getListFields, Option.bind_eq_some, Option.map_eq_some'] at h
  obtain ⟨lb, hb, x, ⟨lf, hf, la, ha, hx⟩, hl⟩ := h
  exact ⟨lb, lf, la, hb, hf, ha, by rw [← hl, ← hx, List.append_assoc]⟩

/-- Witness of C13: `MainConfig` gives `debug`, `one.ip`, `one.port`, `two.foo`, `two.bar`,
`three.hello`, `three.world`, in that order. -/
theorem getList_declaration_order_witness :
    getList asciiToLower [] MainConfig [] = some mainConfigSpecs ∧
    mainConfigSpecs.map (fun v => v.Name)
      = [utf8 "debug", utf8 "one.ip", utf8 "one.port", utf8 "two.foo", utf8 "two.bar",
         utf8 "three.hello", utf8 "three.world"] ∧
    ∃ parts, List.Forall₂
        (fun f p => getList asciiToLower (fieldName asciiToLower [] f.1) f.2.1 f.2.2 = some p)
        [ (utf8 "Debug", GoType.plain .Bool, utf8 "v|false|debug mode"),
          (utf8 "One", ServiceOneConfig, []),
          (utf8 "Two", ServiceTwoConfig, []),
          (utf8 "Three", ServiceThreeConfig, []) ] parts ∧
      mainConfigSpecs = parts.flatten :=
  ⟨rfl, by decide,
    (getList_declaration_order asciiToLower []
      [ (utf8 "Debug", GoType.plain .Bool, utf8 "v|false|debug mode"),
        (utf8 "One", ServiceOneConfig, []),
        (utf8 "Two", ServiceTwoConfig, []),
        (utf8 "Three", ServiceThreeConfig, []) ] mainConfigSpecs rfl).1⟩

theorem SplitN_length (sep : Nat) (n : Nat) (s : GoString) :
    (SplitN s sep (n + 1)).length = min (n + 1) (s.count sep + 1) := by
  induction n generalizing s with
  | zero => simp [SplitN]
  | succ m ih =>
    rcases Index_spec s sep with ⟨hm, hi⟩ | ⟨pre, post, hs, hp, hi⟩
    · have hc : s.count sep = 0 := List.count_eq_zero.2 hm
      simp only [SplitN, hi, hc]
      simp
    · have hn : ¬ ((pre.length : Int) < 0) := by omega
      have hd : List.drop (pre.length + 1) s = post := by
        rw [hs]
        have : pre ++ sep :: post = (pre ++ [sep]) ++ post := by simp
        rw [this]
        exact List.drop_left' (by simp)
      have hc : s.count sep = post.count sep + 1 := by
        rw [hs, List.count_append, List.count_eq_zero.2 hp]
        simp
      simp only [SplitN, hi, if_neg hn, Int.toNat_ofNat, hd, List.length_cons, ih post, hc]
      omega

theorem getListEnd_eq_none (pfx : GoString) (t : GoType) (tag : GoString)
    (result : List FlagSpec) (hne : tag ≠ []) (hc : tag.count 124 < 2) :
    getListEnd pfx t tag result = none := by
  cases h : getListEnd pfx t tag result with
  | none => rfl
  | some l =>
    exfalso
    rcases getListEnd_some pfx t tag result l h with ⟨h0, _⟩ | ⟨p0, p1, p2, _, hs, _⟩
    · exact hne h0
    · have := SplitN_length 124 2 tag
      rw [hs] at this
      simp at this
      omega

theorem getListEnd_isSome (pfx : GoString) (t : GoType) (tag : GoString)
    (result : List FlagSpec) (hc : 2 ≤ tag.count 124) :
    ∃ p0 p1 p2, SplitN tag 124 3 = [p0, p1, p2] ∧
      getListEnd pfx t tag result = some (result ++ [⟨t, pfx, p0, p1, p2⟩]) := by
  have hne : tag ≠ [] := by
    intro h0
    rw [h0] at hc
    simp at hc
  have hlen := SplitN_length 124 2 tag
  have h3 : (SplitN tag 124 3).length = 3 := by rw [hlen]; omega
  match hs : SplitN tag 124 3, h3 with
  | [p0, p1, p2], _ =>
    exact ⟨p0, p1, p2, rfl, getListEnd_three pfx t tag p0 p1 p2 result hne hs⟩

/-- C18. For a scalar or duration leaf with a non-empty annotation, `getList` returns, with
the specification of the leaf, exactly when the annotation contains at least two pipes;
with no pipe or one pipe the index expression panics, and so does the walk of every type
that contains a field so annotated. -/
theorem getList_annotation_pipes (ToLower : GoString → GoString) (pfx : GoString)
    (t : GoType) (tag : GoString) (ht : t.isLeaf = true) (hne : tag ≠ []) :
    (2 ≤ tag.count 124 → ∃ p0 p1 p2, SplitN tag 124 3 = [p0, p1, p2] ∧
      getList ToLower pfx t tag = some [⟨t, pfx, p0, p1, p2⟩]) ∧
    (tag.count 124 < 2 → getList ToLower pfx t tag = none) ∧
    (tag.count 124 < 2 → ∀ (root : GoType) (path : List GoString) (q rootTag : GoString),
      FieldAt root path t tag → getList ToLower q root rootTag = none) := by
  refine ⟨?_, ?_, ?_⟩
  · intro hc
    obtain ⟨p0, p1, p2, hs, he⟩ := getListEnd_isSome pfx t tag [] hc
    refine ⟨p0, p1, p2, hs, ?_⟩
    cases t with
    | duration => simpa only [getList] using he
    | plain k => simpa only [getList] using he
    | ptr e => simp [GoType.isLeaf] at ht
    | struct fs => simp [GoType.isLeaf] at ht
  · intro hc
    cases t with
    | duration => simp only [getList]; exact getListEnd_eq_none _ _ _ _ hne hc
    | plain k => simp only [getList]; exact getListEnd_eq_none _ _ _ _ hne hc
    | ptr e => simp [GoType.isLeaf] at ht
    | struct fs => simp [GoType.isLeaf] at ht
  · intro hc root path q rootTag hf
    cases h : getList ToLower q root rootTag with
    | none => rfl
    | some l =>
      exfalso
      obtain ⟨v, _, _, hs, _⟩ := getList_field_spec ToLower root path t tag hf hne q rootTag l h
      have := SplitN_length 124 2 tag
      rw [hs] at this
      simp at this
      omega

/-- Witness of C18: the annotations `x` and `x|5` on an `int`, and a struct with a field
annotated `x|5`. -/
theorem getList_annotation_pipes_witness :
    getList asciiToLower (utf8 "a") (.plain .Int) (utf8 "x") = none ∧
    getList asciiToLower (utf8 "a") (.plain .Int) (utf8 "x|5") = none ∧
    getList asciiToLower []
      (.ptr (.struct [ (utf8 "A", .plain .Int, utf8 "a|1|first"),
                       (utf8 "B", .plain .Int, utf8 "x|5") ])) [] = none :=
  ⟨(getList_annotation_pipes asciiToLower (utf8 "a") (.plain .Int) (utf8 "x") rfl
      (by decide)).2.1 (by decide),
   (getList_annotation_pipes asciiToLower (utf8 "a") (.plain .Int) (utf8 "x|5") rfl
      (by decide)).2.1 (by decide),
   (getList_annotation_pipes asciiToLower [] (.plain .Int) (utf8 "x|5") rfl
      (by decide)).2.2 (by decide) _ [utf8 "B"] [] []
      (FieldAt.elem _ _ _ _ (FieldAt.field _ _ _ _
        (List.mem_cons_of_mem _ (List.mem_cons_self _ _))))⟩

/-! ## The default values -/

theorem leadingInt_length (s : GoString) (x v : Nat) (r : GoString)
    (h : leadingInt s x = some (v, r)) : r.length ≤ s.length := by
  induction s generalizing x with
  | nil =>
    simp only [leadingInt, Option.some.injEq, Prod.mk.injEq] at h
    rw [← h.2]
  | cons c rest ih =>
    simp only [leadingInt] at h
    split at h
    · simp only [Option.some.injEq, Prod.mk.injEq] at h
      rw [← h.2]
    · split at h
      · exact absurd h (by simp)
      · split at h
        · exact absurd h (by simp)
        · have := ih _ h
          simp only [List.length_cons]
          omega

theorem leadingFraction_length (s : GoString) (x k : Nat) (o : Bool) :
    (leadingFraction s x k o).2.2.length ≤ s.length := by
  induction s generalizing x k o with
  | nil => simp [leadingFraction]
  | cons c rest ih =>
    simp only [leadingFraction]
    split
    · simp
    · split
      · have := ih x k true
        simp only [List.length_cons]; omega
      · split
        · have := ih x k true
          simp only [List.length_cons]; omega
        · split
          · have := ih x k true
            simp only [List.length_cons]; omega
          · have := ih (x * 10 + c - 48) (k + 1) false
            simp only [List.length_cons]; omega

theorem fractionPart_length (s : GoString) : (fractionPart s).2.2.1.length ≤ s.length := by
  unfold fractionPart
  split
  · have := leadingFraction_length ‹GoString› 0 0 false
    simp only [List.length_cons]
    omega
  · exact Nat.le_refl _

theorem dropWhile_length_lt (p : Nat → Bool) (l : GoString) (h : l.takeWhile p ≠ []) :
    (l.dropWhile p).length < l.length := by
  have e := congrArg List.length (List.takeWhile_append_dropWhile p l)
  have := List.length_pos.2 h
  simp only [List.length_append] at e
  omega

theorem parseRound_length (frac : Nat → Nat → Nat → Nat) (s : GoString) (d : Nat)
    (rest : GoString) (d1 : Nat) (h : parseRound frac s d = some (rest, d1)) :
    rest.length < s.length := by
  unfold parseRound at h
  split at h
  · exact absurd h (by simp)
  · split at h
    · exact absurd h (by simp)
    · rename_i v s1 hli
      have h1 := leadingInt_length _ _ _ _ hli
      have h2 := fractionPart_length s1
      split at h
      · exact absurd h (by simp)
      · split at h
        · exact absurd h (by simp)
        · rename_i hu
          have h3 := dropWhile_length_lt _ _ hu
          have key : ∀ r : GoString, r = (fractionPart s1).2.2.1.dropWhile
              (fun c => !endsUnit c) → r.length < s.length := by
            intro r hr
            rw [hr]
            omega
          split at h
          · exact absurd h (by simp)
          · split at h
            · exact absurd h (by simp)
            · split at h
              · split at h
                · exact absurd h (by simp)
                · split at h
                  · exact absurd h (by simp)
                  · simp only [Option.some.injEq, Prod.mk.injEq] at h
                    exact key rest h.1.symm
              · split at h
                · exact absurd h (by simp)
                · simp only [Option.some.injEq, Prod.mk.injEq] at h
                  exact key rest h.1.symm

/-- The bound on the rounds of the loop is never reached: with as much fuel as the string
has bytes, `parseUnits` ends with a sum or with an error. -/
theorem parseUnits_fuel (frac : Nat → Nat → Nat → Nat) (fuel : Nat) (s : GoString) (d : Nat)
    (h : s.length ≤ fuel) : parseUnits frac fuel s d ≠ none := by
  induction fuel generalizing s d with
  | zero =>
    have : s = [] := List.length_eq_zero.1 (by omega)
    simp [parseUnits, this]
  | succ fuel ih =>
    simp only [parseUnits]
    split
    · simp
    · split
      · simp
      · rename_i rest d1 hr
        have := parseRound_length frac s d rest d1 hr
        exact ih rest d1 (by omega)

theorem ParseDuration_error (frac : Nat → Nat → Nat → Nat) (text : GoString)
    (h : (ParseDuration frac text).2 = true) : (ParseDuration frac text).1 = 0 := by
  unfold ParseDuration at h ⊢
  by_cases h1 : stripSign text = [48]
  · rw [if_pos h1]
  · rw [if_neg h1] at h ⊢
    by_cases h2 : stripSign text = []
    · rw [if_pos h2]
    · rw [if_neg h2] at h ⊢
      cases hp : parseUnits frac (stripSign text).length (stripSign text) 0 with
      | none => rfl
      | some r =>
        cases r with
        | none => rfl
        | some d =>
          rw [hp] at h
          simp only at h ⊢
          by_cases h3 : text.head? = some 45
          · rw [if_pos h3] at h
            exact absurd h (by simp)
          · rw [if_neg h3] at h ⊢
            by_cases h4 : d > 2 ^ 63 - 1
            · rw [if_pos h4]
            · rw [if_neg h4] at h
              exact absurd h (by simp)

/-! ## The default values: the scan of a string -/

theorem readRunes_ascii_append (a s : GoString) (ha : ∀ b ∈ a, b < 128) :
    readRunes (a ++ s) 0 = a ++ readRunes s 0 := by
  induction a with
  | nil => rfl
  | cons b a ih =>
    have hb : b < 128 := ha b (by simp)
    have hd : DecodeRune (b :: (a ++ s)) = (b, 1) := by simp [DecodeRune, hb]
    rw [List.cons_append]
    simp only [readRunes, hd]
    rw [ih (fun c hc => ha c (by simp [hc]))]
    rfl

theorem readRunes_ascii (a : GoString) (ha : ∀ b ∈ a, b < 128) : readRunes a 0 = a := by
  have := readRunes_ascii_append a [] ha
  simpa [readRunes] using this

theorem flatMap_EncodeRune_ascii (a : GoString) (ha : ∀ b ∈ a, b < 128) :
    a.flatMap EncodeRune = a := by
  induction a with
  | nil => rfl
  | cons b a ih =>
    have hb : b < 128 := ha b (by simp)
    rw [List.flatMap_cons, ih (fun c hc => ha c (by simp [hc]))]
    simp [EncodeRune, hb]

theorem SkipSpace_of_not_isSpace (r : Nat) (rest : List Nat) (h : isSpace r = false) :
    SkipSpace (r :: rest) = some (r :: rest) := by
  have h13 : r ≠ 13 := by rintro rfl; simp [isSpace] at h
  have h10 : r ≠ 10 := by rintro rfl; simp [isSpace] at h
  simp [SkipSpace, h13, h10, h]

theorem SscanString_of_runes (text : GoString)
    (hs : ∀ r ∈ readRunes text 0, isSpace r = false) :
    SscanString text = (readRunes text 0).flatMap EncodeRune := by
  unfold SscanString
  cases hr : readRunes text 0 with
  | nil => rfl
  | cons r rest =>
    rw [hr] at hs
    rw [SkipSpace_of_not_isSpace r rest (hs r (by simp))]
    simp only
    have : (r :: rest).takeWhile (fun c => !isSpace c) = r :: rest := by
      rw [List.takeWhile_eq_self_iff]
      intro x hx
      simp [hs x hx]
    rw [this]

/-- The white space of a scan, rune by rune. -/
theorem isSpace_iff (r : Nat) :
    isSpace r = true ↔
      r ∈ [0x09, 0x0a, 0x0b, 0x0c, 0x0d, 0x20, 0x85, 0xa0, 0x1680, 0x2000, 0x2001, 0x2002,
        0x2003, 0x2004, 0x2005, 0x2006, 0x2007, 0x2008, 0x2009, 0x200a, 0x2028, 0x2029,
        0x202f, 0x205f, 0x3000] := by
  simp only [isSpace, decide_eq_true_eq, List.mem_cons, List.mem_singleton, List.not_mem_nil,
    or_false]
  omega

/-- The decoding and the encoding of runes at the borders of their cases: the widths, the
surrogates, the overlong and the truncated encodings. -/
theorem runes_table :
    DecodeRune (utf8 "😀") = (0x1F600, 4) ∧
    DecodeRune [0xF0, 0x90, 0x80, 0x80] = (0x10000, 4) ∧
    DecodeRune [0xF4, 0x8F, 0xBF, 0xBF] = (0x10FFFF, 4) ∧
    DecodeRune [0xF4, 0x90, 0x80, 0x80] = (0xFFFD, 1) ∧
    DecodeRune [0xF0, 0x8F, 0xBF, 0xBF] = (0xFFFD, 1) ∧
    DecodeRune [0xF5, 0x80, 0x80, 0x80] = (0xFFFD, 1) ∧
    DecodeRune [0xE0, 0xA0, 0x80] = (0x800, 3) ∧
    DecodeRune [0xE0, 0x9F, 0xBF] = (0xFFFD, 1) ∧
    DecodeRune [0xED, 0x9F, 0xBF] = (0xD7FF, 3) ∧
    DecodeRune [0xED, 0xA0, 0x80] = (0xFFFD, 1) ∧
    DecodeRune [0xEF, 0xBF, 0xBD] = (0xFFFD, 3) ∧
    DecodeRune [0xC2, 0x80] = (0x80, 2) ∧
    DecodeRune [0xDF, 0xBF] = (0x7FF, 2) ∧
    DecodeRune [0xC1, 0xBF] = (0xFFFD, 1) ∧
    DecodeRune [0xC3] = (0xFFFD, 1) ∧
    DecodeRune [0xC3, 0x28] = (0xFFFD, 1) ∧
    DecodeRune [0xE2, 0x82] = (0xFFFD, 1) ∧
    DecodeRune [0xF0, 0x9F, 0x98] = (0xFFFD, 1) ∧
    DecodeRune [0x80] = (0xFFFD, 1) ∧
    DecodeRune [0x7F] = (0x7F, 1) ∧
    EncodeRune 0x7F = [0x7F] ∧
    EncodeRune 0x80 = [0xC2, 0x80] ∧
    EncodeRune 0x7FF = [0xDF, 0xBF] ∧
    EncodeRune 0x800 = [0xE0, 0xA0, 0x80] ∧
    EncodeRune 0xD7FF = [0xED, 0x9F, 0xBF] ∧
    EncodeRune 0xD800 = [0xEF, 0xBF, 0xBD] ∧
    EncodeRune 0xDFFF = [0xEF, 0xBF, 0xBD] ∧
    EncodeRune 0xE000 = [0xEE, 0x80, 0x80] ∧
    EncodeRune 0xFFFF = [0xEF, 0xBF, 0xBF] ∧
    EncodeRune 0x10000 = [0xF0, 0x90, 0x80, 0x80] ∧
    EncodeRune 0x1F600 = utf8 "😀" ∧
    EncodeRune 0x10FFFF = [0xF4, 0x8F, 0xBF, 0xBF] ∧
    EncodeRune 0x110000 = [0xEF, 0xBF, 0xBD] ∧
    readRunes (utf8 "aé　😀z") 0 = [0x61, 0xE9, 0x3000, 0x1F600, 0x7A] ∧
    readRunes [0xED, 0xA0, 0x80, 0x61] 0 = [0xFFFD, 0xFFFD, 0xFFFD, 0x61] ∧
    readRunes [0xE2, 0x82, 0x61] 0 = [0xFFFD, 0xFFFD, 0x61] := by
  decide

theorem SkipSpace_spaces (ws l : List Nat) (h : ∀ r ∈ ws, isSpace r = true ∧ r ≠ 10) :
    SkipSpace (ws ++ l) = SkipSpace l := by
  induction ws with
  | nil => rfl
  | cons b ws ih =>
    have hb := h b (by simp)
    rw [List.cons_append, SkipSpace]
    split
    · exact ih (fun c hc => h c (by simp [hc]))
    · rw [if_neg hb.2, if_pos hb.1]
      exact ih (fun c hc => h c (by simp [hc]))

/-- The scan of a string, on the runes of the text: white space other than a newline is
skipped, and the runes up to the next white space or the end are the value. -/
theorem SscanString_runes (text : GoString) (ws tok rest : List Nat)
    (hr : readRunes text 0 = ws ++ tok ++ rest)
    (hws : ∀ r ∈ ws, isSpace r = true ∧ r ≠ 10) (hne : tok ≠ [])
    (htok : ∀ r ∈ tok, isSpace r = false)
    (hrest : ∀ r, rest.head? = some r → isSpace r = true) :
    SscanString text = tok.flatMap EncodeRune := by
  unfold SscanString
  rw [hr, List.append_assoc, SkipSpace_spaces ws _ hws]
  cases tok with
  | nil => exact absurd rfl hne
  | cons t tok1 =>
    rw [List.cons_append, SkipSpace_of_not_isSpace t _ (htok t (by simp))]
    simp only
    have htw : (t :: (tok1 ++ rest)).takeWhile (fun c => !isSpace c) = t :: tok1 := by
      have e : t :: (tok1 ++ rest) = (t :: tok1) ++ rest := by simp
      rw [e, List.takeWhile_append_of_pos]
      · cases rest with
        | nil => simp
        | cons r rest1 => simp [List.takeWhile, hrest r rfl]
      · intro x hx
        simp [htok x hx]
    rw [htw]

/-- The scan of a string stops with the empty value at a newline met while white space is
skipped. -/
theorem SscanString_newline (text : GoString) (ws rest : List Nat)
    (hr : readRunes text 0 = ws ++ 10 :: rest)
    (hws : ∀ r ∈ ws, isSpace r = true ∧ r ≠ 10) : SscanString text = [] := by
  unfold SscanString
  rw [hr, SkipSpace_spaces ws _ hws]
  have : SkipSpace (10 :: rest) = none := by simp [SkipSpace]
  rw [this]

/-- The scan of a string gives the empty value when the text is white space only. -/
theorem SscanString_blank (text : GoString)
    (hws : ∀ r ∈ readRunes text 0, isSpace r = true ∧ r ≠ 10) : SscanString text = [] := by
  unfold SscanString
  have := SkipSpace_spaces (readRunes text 0) [] hws
  rw [List.append_nil] at this
  rw [this]
  rfl
/-- The scan of a string on ASCII text: white space other than a newline, then a token,
then nothing or white space followed by anything. -/
theorem SscanString_ascii (ws tok rest : GoString)
    (hws : ∀ b ∈ ws, b < 128 ∧ isSpace b = true ∧ b ≠ 10) (hne : tok ≠ [])
    (htok : ∀ b ∈ tok, b < 128 ∧ isSpace b = false)
    (hrest : ∀ b, rest.head? = some b → b < 128 ∧ isSpace b = true) :
    SscanString (ws ++ tok ++ rest) = tok := by
  have hwa : ∀ b ∈ ws ++ tok, b < 128 := by
    intro b hb
    rcases List.mem_append.1 hb with h | h
    · exact (hws b h).1
    · exact (htok b h).1
  have hr : readRunes (ws ++ tok ++ rest) 0 = ws ++ tok ++ readRunes rest 0 :=
    readRunes_ascii_append (ws ++ tok) rest hwa
  rw [SscanString_runes _ ws tok (readRunes rest 0) hr (fun r h => (hws r h).2) hne
    (fun r h => (htok r h).2)]
  · exact flatMap_EncodeRune_ascii _ (fun b hb => (htok b hb).1)
  · intro r h
    cases rest with
    | nil => simp [readRunes] at h
    | cons b rest1 =>
      have hb := hrest b rfl
      have hd : DecodeRune (b :: rest1) = (b, 1) := by simp [DecodeRune, hb.1]
      simp only [readRunes, hd, List.head?_cons, Option.some.injEq] at h
      rw [← h]
      exact hb.2

/-- C20, the claim as stated fails: the default text ` x` contains a space, and the
registered default is `x`, not the empty part before the first space. -/
theorem SscanString_counterexample :
    (32 : Nat) ∈ utf8 " x" ∧
    SscanString (utf8 " x") = utf8 "x" ∧
    (utf8 " x").take (Index (utf8 " x") 32).toNat = [] ∧
    SscanString (utf8 " x") ≠ (utf8 " x").take (Index (utf8 " x") 32).toNat := by
  decide

/-- C20, amended. A string flag is registered with the string `fmt.Sscanf` reads from the
default text, taken as the sequence of its runes (an invalid byte reads as U+FFFD).
White space at the start other than a newline is skipped; the value is the UTF-8 encoding of
the runes from there up to the next white space or the end of the text; it is empty when a
newline is met while skipping, and when nothing but white space is there.  So the value is
the whole text when no rune of the text is white space and the text is the encoding of its
runes (valid UTF-8), which holds for every text of ASCII bytes without white space, the
empty text included; and for ASCII text it is the first token.  `hello world` gives
`hello`, the bytes FF 61 62 20 63 give EF BF BD 61 62, a text that starts with a newline
gives the empty string, and a text cut by the ideographic space U+3000 gives its part
before that space. -/
theorem SscanString_default :
    (∀ (ν : Type) (frac : Nat → Nat → Nat → Nat) (Sscan : FlagType → GoString → ν)
      (v : FlagSpec) (short help : GoString) (f : Flag), v.Type_ = .plain .String →
      registerFlag v short help = some f →
      f.Value = .String ∧ f.DefValue frac Sscan = .string (SscanString v.Default)) ∧
    (∀ (text : GoString) (ws tok rest : List Nat), readRunes text 0 = ws ++ tok ++ rest →
      (∀ r ∈ ws, isSpace r = true ∧ r ≠ 10) → tok ≠ [] → (∀ r ∈ tok, isSpace r = false) →
      (∀ r, rest.head? = some r → isSpace r = true) →
      SscanString text = tok.flatMap EncodeRune) ∧
    (∀ (text : GoString) (ws rest : List Nat), readRunes text 0 = ws ++ 10 :: rest →
      (∀ r ∈ ws, isSpace r = true ∧ r ≠ 10) → SscanString text = []) ∧
    (∀ text : GoString, (∀ r ∈ readRunes text 0, isSpace r = true ∧ r ≠ 10) →
      SscanString text = []) ∧
    (∀ text : GoString, (∀ r ∈ readRunes text 0, isSpace r = false) →
      (readRunes text 0).flatMap EncodeRune = text → SscanString text = text) ∧
    (∀ text : GoString, (∀ b ∈ text, b < 128 ∧ isSpace b = false) →
      SscanString text = text) ∧
    (∀ ws tok rest : GoString, (∀ b ∈ ws, b < 128 ∧ isSpace b = true ∧ b ≠ 10) → tok ≠ [] →
      (∀ b ∈ tok, b < 128 ∧ isSpace b = false) →
      (∀ b, rest.head? = some b → b < 128 ∧ isSpace b = true) →
      SscanString (ws ++ tok ++ rest) = tok) ∧
    SscanString (utf8 "hello world") = utf8 "hello" ∧
    SscanString [0xFF, 0x61, 0x62, 0x20, 0x63] = [0xEF, 0xBF, 0xBD, 0x61, 0x62] ∧
    SscanString (utf8 "\nabc") = [] ∧
    SscanString (utf8 "\r\nabc") = [] ∧
    SscanString (utf8 " \t\r x y") = utf8 "x" ∧
    SscanString (utf8 "   ") = [] ∧
    SscanString (utf8 "héllo　wörld") = utf8 "héllo" ∧
    SscanString (utf8 "wörld") = utf8 "wörld" ∧
    SscanString (utf8 "a\u00a0b") = utf8 "a" ∧
    SscanString (utf8 "\u2003😀\u2028z") = utf8 "😀" ∧
    SscanString [0xED, 0xA0, 0x80, 0x61]
      = [0xEF, 0xBF, 0xBD, 0xEF, 0xBF, 0xBD, 0xEF, 0xBF, 0xBD, 0x61] ∧
    (∀ r, isSpace r = true ↔
      r ∈ [0x09, 0x0a, 0x0b, 0x0c, 0x0d, 0x20, 0x85, 0xa0, 0x1680, 0x2000, 0x2001, 0x2002,
        0x2003, 0x2004, 0x2005, 0x2006, 0x2007, 0x2008, 0x2009, 0x200a, 0x2028, 0x2029,
        0x202f, 0x205f, 0x3000]) := by
  refine ⟨?_, SscanString_runes, SscanString_newline, SscanString_blank, ?_, ?_,
    SscanString_ascii, by decide, by decide, by decide, by decide, by decide, by decide,
    by decide, by decide, by decide, by decide, by decide, isSpace_iff⟩
  · intro ν frac Sscan v short help f hv hf
    have : registerFlag v short help = some ⟨v.Name, short, .String, v.Default, help⟩ := by
      unfold registerFlag
      rw [hv]
      rfl
    rw [this] at hf
    cases hf
    exact ⟨rfl, rfl⟩
  · intro text hs hvalid
    rw [SscanString_of_runes text hs, hvalid]
  · intro text h
    have ha : ∀ b ∈ text, b < 128 := fun b hb => (h b hb).1
    have hr := readRunes_ascii text ha
    rw [SscanString_of_runes text (by rw [hr]; exact fun b hb => (h b hb).2), hr]
    exact flatMap_EncodeRune_ascii text ha

/-- Witness of C20 amended: `hello world` gives `hello` (a token followed by a space), and
`blablabla` gives itself. -/
theorem SscanString_default_witness :
    SscanString ([] ++ utf8 "hello" ++ utf8 " world") = utf8 "hello" ∧
    SscanString (utf8 "blablabla") = utf8 "blablabla" :=
  ⟨SscanString_default.2.2.2.2.2.2.1 [] (utf8 "hello") (utf8 " world")
      (by decide) (by decide) (by decide) (by decide),
   SscanString_default.2.2.2.2.2.1 (utf8 "blablabla") (by decide)⟩

/-! ## The default values: the duration literals -/

theorem foldl_decimal_le (ds : GoString) (x : Nat) :
    x ≤ ds.foldl (fun x c => x * 10 + (c - 48)) x := by
  induction ds generalizing x with
  | nil => exact Nat.le_refl _
  | cons c ds ih =>
    have := ih (x * 10 + (c - 48))
    simp only [List.foldl_cons]
    omega

/-- The digits at the head of a string are read as their decimal number, as long as it does
not exceed `2 ^ 63`. -/
theorem leadingInt_digits (ds rest : GoString) (x : Nat)
    (hd : ∀ c ∈ ds, 48 ≤ c ∧ c ≤ 57)
    (hr : ∀ c, rest.head? = some c → c < 48 ∨ c > 57)
    (hb : ds.foldl (fun x c => x * 10 + (c - 48)) x ≤ 2 ^ 63) :
    leadingInt (ds ++ rest) x = some (ds.foldl (fun x c => x * 10 + (c - 48)) x, rest) := by
  induction ds generalizing x with
  | nil =>
    cases rest with
    | nil => rfl
    | cons c r =>
      have := hr c rfl
      simp only [List.nil_append, leadingInt, List.foldl_nil]
      rw [if_pos this]
  | cons c ds ih =>
    have hc := hd c (by simp)
    simp only [List.foldl_cons] at hb ⊢
    have hge := foldl_decimal_le ds (x * 10 + (c - 48))
    rw [List.cons_append, leadingInt]
    have e : x * 10 + c - 48 = x * 10 + (c - 48) := by omega
    rw [if_neg (by omega), if_neg (by omega), if_neg (by omega), e]
    exact ih _ (fun c hc => hd c (by simp [hc])) hb

theorem unitMap_bytes (u : GoString) (unit : Nat) (h : unitMap u = some unit) :
    u ≠ [] ∧ (∀ c ∈ u, endsUnit c = false) ∧ 1 ≤ unit := by
  unfold unitMap at h
  split_ifs at h with h1 h2 h3 h4 h5 h6 h7 h8 <;>
    (simp only [Option.some.injEq] at h; subst h; subst_vars; decide)

theorem fractionPart_none (u : GoString) (h : u.head? ≠ some 46) :
    fractionPart u = (0, 0, u, false) := by
  unfold fractionPart
  split
  · exact absurd rfl h
  · rfl

theorem takeWhile_unit (u rest : GoString) (h : ∀ c ∈ u, endsUnit c = false)
    (hrest : ∀ c, rest.head? = some c → endsUnit c = true) :
    (u ++ rest).takeWhile (fun c => !endsUnit c) = u ∧
    (u ++ rest).dropWhile (fun c => !endsUnit c) = rest := by
  induction u with
  | nil =>
    cases rest with
    | nil => exact ⟨rfl, rfl⟩
    | cons c r =>
      have := hrest c rfl
      simp [List.takeWhile, List.dropWhile, this]
  | cons b u ih =>
    have hb := h b (by simp)
    have := ih (fun c hc => h c (by simp [hc]))
    simp [List.takeWhile, List.dropWhile, hb, this.1, this.2]

/-- The bytes of a unit name are neither digits nor dots, so a unit ends where the next
number starts. -/
theorem head_not_digit (u rest : GoString) (hu0 : u ≠ [])
    (hub : ∀ c ∈ u, endsUnit c = false) (c : Nat) (hc : (u ++ rest).head? = some c) :
    endsUnit c = false := by
  cases u with
  | nil => exact absurd rfl hu0
  | cons b r =>
    simp only [List.cons_append, List.head?_cons, Option.some.injEq] at hc
    exact hub c (by simp [hc])

/-- One round of the loop on a whole number and a unit: the sum grows by the number times
the unit, and what follows the unit is left for the next round. -/
theorem parseRound_integer (frac : Nat → Nat → Nat → Nat) (ds u rest : GoString)
    (unit d : Nat) (hne : ds ≠ []) (hd : ∀ c ∈ ds, 48 ≤ c ∧ c ≤ 57)
    (hu : unitMap u = some unit) (hrest : ∀ c, rest.head? = some c → endsUnit c = true)
    (hfit : d + decimal ds * unit ≤ 2 ^ 63) :
    parseRound frac (ds ++ (u ++ rest)) d = some (rest, d + decimal ds * unit) := by
  obtain ⟨hu0, hub, hu1⟩ := unitMap_bytes u unit hu
  have hv : decimal ds ≤ decimal ds * unit := Nat.le_mul_of_pos_right _ hu1
  have hhead := head_not_digit u rest hu0 hub
  have hli : leadingInt (ds ++ (u ++ rest)) 0 = some (decimal ds, u ++ rest) := by
    apply leadingInt_digits ds (u ++ rest) 0 hd
    · intro c hc
      have := hhead c hc
      simp only [endsUnit, decide_eq_false_iff_not] at this
      omega
    · show decimal ds ≤ 2 ^ 63
      omega
  have hfp : fractionPart (u ++ rest) = (0, 0, u ++ rest, false) := by
    apply fractionPart_none
    intro h46
    have := hhead 46 h46
    simp [endsUnit] at this
  have hsn : startsNumber (ds ++ (u ++ rest)) = true := by
    cases ds with
    | nil => exact absurd rfl hne
    | cons c r =>
      have := hd c (by simp)
      simp only [List.cons_append, startsNumber, decide_eq_true_eq]
      omega
  have hlen : (ds ++ (u ++ rest)).length ≠ (u ++ rest).length := by
    have := List.length_pos.2 hne
    simp only [List.length_append]
    omega
  have hq : ¬ decimal ds > 2 ^ 63 / unit := by
    have : decimal ds * unit ≤ 2 ^ 63 := by omega
    have := (Nat.le_div_iff_mul_le hu1).2 this
    omega
  obtain ⟨htw, hdw⟩ := takeWhile_unit u rest hub hrest
  unfold parseRound
  rw [hsn, hli]
  simp only [hfp, htw, hdw, hu, hlen, false_and, if_false, hu0, hq, Nat.lt_irrefl,
    gt_iff_lt, Bool.true_eq_false]
  have hm : (d + decimal ds * unit) % 2 ^ 64 = d + decimal ds * unit :=
    Nat.mod_eq_of_lt (by omega)
  rw [hm, if_neg (by omega)]

/-- The digits after the dot are read as their decimal number, with their count, as long as
the number stays below `2 ^ 63`. -/
theorem leadingFraction_digits (fs rest : GoString) (x k : Nat)
    (hd : ∀ c ∈ fs, 48 ≤ c ∧ c ≤ 57)
    (hr : ∀ c, rest.head? = some c → c < 48 ∨ c > 57)
    (hb : fs.foldl (fun x c => x * 10 + (c - 48)) x ≤ 2 ^ 63 - 1) :
    leadingFraction (fs ++ rest) x k false
      = (fs.foldl (fun x c => x * 10 + (c - 48)) x, k + fs.length, rest) := by
  induction fs generalizing x k with
  | nil =>
    cases rest with
    | nil => rfl
    | cons c r =>
      have := hr c rfl
      simp only [List.nil_append, leadingFraction, List.foldl_nil]
      rw [if_pos this]
      rfl
  | cons c fs ih =>
    have hc := hd c (by simp)
    simp only [List.foldl_cons] at hb ⊢
    have hge := foldl_decimal_le fs (x * 10 + (c - 48))
    rw [List.cons_append, leadingFraction]
    have e : x * 10 + c - 48 = x * 10 + (c - 48) := by omega
    rw [if_neg (by omega), if_neg (by simp), if_neg (by omega), if_neg (by omega), e,
      ih _ _ (fun c hc => hd c (by simp [hc])) hb]
    simp only [List.length_cons]
    congr 2
    omega

/-- One round of the loop on a number with a fractional part and a unit: the sum grows by
the whole part times the unit and by the nanoseconds `frac` gives for the fraction. -/
theorem parseRound_fraction (frac : Nat → Nat → Nat → Nat) (ds fs u rest : GoString)
    (unit d : Nat) (hne : ds ≠ [] ∨ fs ≠ []) (hd : ∀ c ∈ ds, 48 ≤ c ∧ c ≤ 57)
    (hf : ∀ c ∈ fs, 48 ≤ c ∧ c ≤ 57) (hu : unitMap u = some unit)
    (hrest : ∀ c, rest.head? = some c → endsUnit c = true)
    (hv : decimal ds * unit ≤ 2 ^ 63) (hfb : decimal fs ≤ 2 ^ 63 - 1) :
    parseRound frac (ds ++ 46 :: (fs ++ (u ++ rest))) d
      = if decimal fs > 0 then
          if (decimal ds * unit + frac (decimal fs) fs.length unit) % 2 ^ 64 > 2 ^ 63 then none
          else if (d + (decimal ds * unit + frac (decimal fs) fs.length unit) % 2 ^ 64)
              % 2 ^ 64 > 2 ^ 63 then none
          else some (rest, (d + (decimal ds * unit + frac (decimal fs) fs.length unit)
              % 2 ^ 64) % 2 ^ 64)
        else if (d + decimal ds * unit) % 2 ^ 64 > 2 ^ 63 then none
        else some (rest, (d + decimal ds * unit) % 2 ^ 64) := by
  obtain ⟨hu0, hub, hu1⟩ := unitMap_bytes u unit hu
  have hv1 : decimal ds ≤ decimal ds * unit := Nat.le_mul_of_pos_right _ hu1
  have hhead := head_not_digit u rest hu0 hub
  have hli : leadingInt (ds ++ 46 :: (fs ++ (u ++ rest))) 0
      = some (decimal ds, 46 :: (fs ++ (u ++ rest))) := by
    apply leadingInt_digits ds _ 0 hd
    · intro c hc
      simp only [List.head?_cons, Option.some.injEq] at hc
      omega
    · show decimal ds ≤ 2 ^ 63
      omega
  have hlf : leadingFraction (fs ++ (u ++ rest)) 0 0 false
      = (decimal fs, fs.length, u ++ rest) := by
    have := leadingFraction_digits fs (u ++ rest) 0 0 hf (by
      intro c hc
      have := hhead c hc
      simp only [endsUnit, decide_eq_false_iff_not] at this
      omega) hfb
    simpa [decimal] using this
  have hfp : fractionPart (46 :: (fs ++ (u ++ rest)))
      = (decimal fs, fs.length, u ++ rest, decide (fs ≠ [])) := by
    simp only [fractionPart, hlf]
    congr 3
    simp only [List.length_append, ne_eq, decide_not]
    cases fs with
    | nil => simp
    | cons c r => simp
  have hsn : startsNumber (ds ++ 46 :: (fs ++ (u ++ rest))) = true := by
    cases ds with
    | nil => simp [startsNumber]
    | cons c r =>
      have := hd c (by simp)
      simp only [List.cons_append, startsNumber, decide_eq_true_eq]
      omega
  have hpre : ¬ ((ds ++ 46 :: (fs ++ (u ++ rest))).length = (46 :: (fs ++ (u ++ rest))).length
      ∧ decide (fs ≠ []) = false) := by
    rintro ⟨h1, h2⟩
    rcases hne with h | h
    · have := List.length_pos.2 h
      simp only [List.length_append] at h1
      omega
    · simp [h] at h2
  have hq : ¬ decimal ds > 2 ^ 63 / unit := by
    have := (Nat.le_div_iff_mul_le hu1).2 hv
    omega
  obtain ⟨htw, hdw⟩ := takeWhile_unit u rest hub hrest
  unfold parseRound
  rw [hsn, hli]
  simp only [hfp, htw, hdw, hu, hu0, hq, if_false, Bool.true_eq_false, hpre]

theorem isDigits_mem (s : GoString) (h : isDigits s = true) : ∀ c ∈ s, 48 ≤ c ∧ c ≤ 57 := by
  intro c hc
  have := List.all_eq_true.1 h c hc
  simpa using this

theorem DurationTerm_head (t : DurationTerm) (r : GoString) (h : t.wf = true) (c : Nat)
    (hc : (t.text ++ r).head? = some c) : endsUnit c = true := by
  obtain ⟨w, f, u⟩ := t
  simp only [DurationTerm.wf, Bool.and_eq_true] at h
  obtain ⟨⟨hw, _⟩, hf⟩ := h
  have hwd := isDigits_mem w hw
  cases w with
  | cons b w1 =>
    have hb := hwd b (by simp)
    have e : c = b := by
      cases f <;> simp [DurationTerm.text] at hc <;> exact hc.symm
    simp only [endsUnit, decide_eq_true_eq]
    omega
  | nil =>
    cases f with
    | none => simp at hf
    | some fs =>
      have e : c = 46 := by simp [DurationTerm.text] at hc; exact hc.symm
      simp [endsUnit, e]

/-- One round of the loop reads one term. -/
theorem parseRound_term (frac : Nat → Nat → Nat → Nat) (t : DurationTerm) (rest : GoString)
    (d : Nat) (h : t.wf = true) (hrest : ∀ c, rest.head? = some c → endsUnit c = true)
    (hfit : d + t.ns frac ≤ 2 ^ 63) :
    parseRound frac (t.text ++ rest) d = some (rest, d + t.ns frac) := by
  obtain ⟨w, f, u⟩ := t
  simp only [DurationTerm.wf, Bool.and_eq_true] at h
  obtain ⟨⟨hw, hu⟩, hf⟩ := h
  have hwd := isDigits_mem w hw
  obtain ⟨unit, hunit⟩ := Option.isSome_iff_exists.1 hu
  cases f with
  | none =>
    simp only [decide_eq_true_eq] at hf
    have hns : DurationTerm.ns frac ⟨w, none, u⟩ = decimal w * unit := by
      simp only [DurationTerm.ns, hunit]
    rw [hns] at hfit ⊢
    have := parseRound_integer frac w u rest unit d hf hwd hunit hrest hfit
    simpa [DurationTerm.text] using this
  | some fs =>
    simp only [Bool.and_eq_true, decide_eq_true_eq] at hf
    obtain ⟨⟨hfd, hne⟩, hfb⟩ := hf
    have hfs := isDigits_mem fs hfd
    have hns : DurationTerm.ns frac ⟨w, some fs, u⟩
        = if decimal fs > 0 then decimal w * unit + frac (decimal fs) fs.length unit
          else decimal w * unit := by
      simp only [DurationTerm.ns, hunit]
    have hv : decimal w * unit ≤ 2 ^ 63 := by
      rw [hns] at hfit
      split at hfit <;> omega
    have := parseRound_fraction frac w fs u rest unit d hne hwd hfs hunit hrest hv hfb
    have e : DurationTerm.text ⟨w, some fs, u⟩ ++ rest = w ++ 46 :: (fs ++ (u ++ rest)) := by
      simp [DurationTerm.text]
    rw [e, this, hns]
    rw [hns] at hfit
    by_cases h0 : decimal fs > 0
    · rw [if_pos h0] at hfit ⊢
      rw [if_pos h0]
      have m1 : (decimal w * unit + frac (decimal fs) fs.length unit) % 2 ^ 64
          = decimal w * unit + frac (decimal fs) fs.length unit :=
        Nat.mod_eq_of_lt (by omega)
      have m2 : (d + (decimal w * unit + frac (decimal fs) fs.length unit)) % 2 ^ 64
          = d + (decimal w * unit + frac (decimal fs) fs.length unit) :=
        Nat.mod_eq_of_lt (by omega)
      rw [m1, m2, if_neg (by omega), if_neg (by omega)]
    · rw [if_neg h0] at hfit ⊢
      rw [if_neg h0]
      have m2 : (d + decimal w * unit) % 2 ^ 64 = d + decimal w * unit :=
        Nat.mod_eq_of_lt (by omega)
      rw [m2, if_neg (by omega)]

theorem DurationTerm_text_ne_nil (t : DurationTerm) (h : t.wf = true) : 2 ≤ t.text.length := by
  obtain ⟨w, f, u⟩ := t
  simp only [DurationTerm.wf, Bool.and_eq_true] at h
  obtain ⟨⟨_, hu⟩, hf⟩ := h
  obtain ⟨unit, hunit⟩ := Option.isSome_iff_exists.1 hu
  have hu0 := List.length_pos.2 (unitMap_bytes u unit hunit).1
  cases f with
  | none =>
    simp only [decide_eq_true_eq] at hf
    have := List.length_pos.2 hf
    simp only [DurationTerm.text, List.length_append]
    omega
  | some fs =>
    simp only [DurationTerm.text, List.length_append, List.length_cons]
    omega

/-- The loop reads a sequence of terms to the sum of their nanoseconds. -/
theorem parseUnits_terms (frac : Nat → Nat → Nat → Nat) (terms : List DurationTerm)
    (fuel d : Nat) (hwf : ∀ t ∈ terms, t.wf = true) (hfuel : terms.length ≤ fuel)
    (hfit : d + durationSum frac terms ≤ 2 ^ 63) :
    parseUnits frac fuel (durationText terms) d = some (some (d + durationSum frac terms)) := by
  induction terms generalizing fuel d with
  | nil =>
    cases fuel <;> simp [parseUnits, durationText, durationSum]
  | cons t ts ih =>
    cases fuel with
    | zero => simp at hfuel
    | succ fuel =>
      have ht := hwf t (by simp)
      have hsum : durationSum frac (t :: ts) = t.ns frac + durationSum frac ts := by
        simp [durationSum]
      have htext : durationText (t :: ts) = t.text ++ durationText ts := by
        simp [durationText]
      rw [hsum] at hfit ⊢
      rw [htext]
      have hne : t.text ++ durationText ts ≠ [] := by
        have := DurationTerm_text_ne_nil t ht
        intro h0
        have := congrArg List.length h0
        simp only [List.length_append, List.length_nil] at this
        omega
      have hrest : ∀ c, (durationText ts).head? = some c → endsUnit c = true := by
        intro c hc
        cases ts with
        | nil => simp [durationText] at hc
        | cons t2 ts2 =>
          have e : durationText (t2 :: ts2) = t2.text ++ durationText ts2 := by
            simp [durationText]
          rw [e] at hc
          exact DurationTerm_head t2 _ (hwf t2 (by simp)) c hc
      have hround := parseRound_term frac t (durationText ts) d ht hrest (by omega)
      simp only [parseUnits, hne, if_false, hround]
      rw [ih fuel (d + t.ns frac) (fun u hu => hwf u (by simp [hu]))
        (by simp only [List.length_cons] at hfuel; omega) (by omega)]
      rw [Nat.add_assoc]

theorem durationText_length (terms : List DurationTerm) (hwf : ∀ t ∈ terms, t.wf = true) :
    2 * terms.length ≤ (durationText terms).length := by
  induction terms with
  | nil => simp
  | cons t ts ih =>
    have := DurationTerm_text_ne_nil t (hwf t (by simp))
    have := ih (fun u hu => hwf u (by simp [hu]))
    simp only [durationText, List.flatMap_cons, List.length_append, List.length_cons] at *
    omega

/-- The duration literals: `time.ParseDuration` reads an optional sign and a sequence of
well-formed terms to the sum of the terms, negated after a minus sign, as long as the sum
fits a duration. -/
theorem ParseDuration_terms (frac : Nat → Nat → Nat → Nat) (terms : List DurationTerm)
    (hne : terms ≠ []) (hwf : ∀ t ∈ terms, t.wf = true) :
    (durationSum frac terms ≤ 2 ^ 63 - 1 →
      ParseDuration frac (durationText terms) = (((durationSum frac terms : Nat) : Int), false) ∧
      ParseDuration frac (43 :: durationText terms)
        = (((durationSum frac terms : Nat) : Int), false)) ∧
    (durationSum frac terms ≤ 2 ^ 63 →
      ParseDuration frac (45 :: durationText terms)
        = (-((durationSum frac terms : Nat) : Int), false)) := by
  have hlen := durationText_length terms hwf
  have hpos : 0 < terms.length := List.length_pos.2 hne
  have hhead : ∀ c, (durationText terms).head? = some c → endsUnit c = true := by
    intro c hc
    cases terms with
    | nil => exact absurd rfl hne
    | cons t ts =>
      have e : durationText (t :: ts) = t.text ++ durationText ts := by simp [durationText]
      rw [e] at hc
      exact DurationTerm_head t _ (hwf t (by simp)) c hc
  have hstrip : stripSign (durationText terms) = durationText terms := by
    cases hd : durationText terms with
    | nil => rfl
    | cons c r =>
      have := hhead c (by rw [hd]; rfl)
      simp only [endsUnit, decide_eq_true_eq] at this
      simp only [stripSign]
      rw [if_neg (by omega)]
  have hn48 : durationText terms ≠ [48] := by
    intro h
    rw [h] at hlen
    simp only [List.length_singleton] at hlen
    omega
  have hn0 : durationText terms ≠ [] := by
    intro h
    rw [h] at hlen
    simp only [List.length_nil] at hlen
    omega
  have hpu : ∀ (h : durationSum frac terms ≤ 2 ^ 63),
      parseUnits frac (durationText terms).length (durationText terms) 0
        = some (some (durationSum frac terms)) := by
    intro h
    have := parseUnits_terms frac terms (durationText terms).length 0 hwf (by omega)
      (by omega)
    simpa using this
  have hh45 : (durationText terms).head? ≠ some 45 := by
    intro h
    have := hhead 45 h
    simp [endsUnit] at this
  refine ⟨fun h => ⟨?_, ?_⟩, fun h => ?_⟩
  · unfold ParseDuration
    rw [hstrip, if_neg hn48, if_neg hn0, hpu (by omega)]
    simp only
    rw [if_neg hh45, if_neg (by omega)]
  · have hs : stripSign (43 :: durationText terms) = durationText terms := by
      simp [stripSign]
    unfold ParseDuration
    rw [hs, if_neg hn48, if_neg hn0, hpu (by omega)]
    simp only
    rw [if_neg (by simp), if_neg (by omega)]
  · have hs : stripSign (45 :: durationText terms) = durationText terms := by
      simp [stripSign]
    unfold ParseDuration
    rw [hs, if_neg hn48, if_neg hn0, hpu h]
    simp only
    rw [if_pos (by simp)]

/-- C12. A specification of the duration type is registered as a duration flag under its
name, with the duration `time.ParseDuration` reads from its default text as default: for a
text that is a sequence of terms, each a decimal number with an optional fraction and a
unit, the sum of the terms (negated after a minus sign), and the zero duration whenever the
parse returns an error.  An error is only printed: the flag is handed to the flag set all
the same, and the loop goes on with the rest of the list (unless the flag library refuses
the flag, which does not depend on the default).  The text `30s` parses to 30 * 10^9
nanoseconds, the text `notaduration` gives an error. -/
theorem addFlags_duration {ν : Type} (frac : Nat → Nat → Nat → Nat)
    (Sscan : FlagType → GoString → ν) (used : GoString → GoString)
    (flags : List Flag) (v : FlagSpec) (rest : List FlagSpec) (hv : v.Type_ = .duration) :
    (∃ f, registerFlag v (claimShortName used v).2 (helpText v.HelpMessage) = some f ∧
      f.Value = .Duration ∧ f.Name = v.Name ∧
      f.DefValue frac Sscan = .duration (ParseDuration frac v.Default).1 ∧
      ((ParseDuration frac v.Default).2 = true → f.DefValue frac Sscan = .duration 0) ∧
      (∀ terms : List DurationTerm, terms ≠ [] → (∀ t ∈ terms, t.wf = true) →
        durationSum frac terms ≤ 2 ^ 63 - 1 →
        (v.Default = durationText terms ∨ v.Default = 43 :: durationText terms →
          f.DefValue frac Sscan = .duration (durationSum frac terms)) ∧
        (v.Default = 45 :: durationText terms →
          f.DefValue frac Sscan = .duration (-(durationSum frac terms : Nat)))) ∧
      addFlagsLoop used flags (v :: rest)
        = addFlagsLoop (claimShortName used v).1 (flags ++ [f]) rest ∧
      addFlagsRunLoop used flags (v :: rest)
        = (AddFlag flags f).bind fun flags1 =>
            addFlagsRunLoop (claimShortName used v).1 flags1 rest) ∧
    (∀ terms : List DurationTerm, terms ≠ [] → (∀ t ∈ terms, t.wf = true) →
      (durationSum frac terms ≤ 2 ^ 63 - 1 →
        ParseDuration frac (durationText terms) = (((durationSum frac terms : Nat) : Int), false) ∧
        ParseDuration frac (43 :: durationText terms)
          = (((durationSum frac terms : Nat) : Int), false)) ∧
      (durationSum frac terms ≤ 2 ^ 63 →
        ParseDuration frac (45 :: durationText terms)
          = (-((durationSum frac terms : Nat) : Int), false))) ∧
    (∀ text : GoString, (ParseDuration frac text).2 = true → (ParseDuration frac text).1 = 0) ∧
    ParseDuration frac (utf8 "30s") = (30 * 10 ^ 9, false) ∧
    ParseDuration frac (utf8 "notaduration") = (0, true) ∧
    ParseDuration frac (utf8 "-5s") = (-(5 * 10 ^ 9), false) ∧
    ParseDuration frac (utf8 "+5s") = (5 * 10 ^ 9, false) ∧
    ParseDuration frac (utf8 "1h30m") = (5400 * 10 ^ 9, false) ∧
    ParseDuration frac (utf8 "1h2m3s4ms5us6ns") = (3723004005006, false) ∧
    ParseDuration frac (utf8 "7µs") = (7000, false) ∧
    ParseDuration frac (utf8 "7μs") = (7000, false) ∧
    ParseDuration frac (utf8 "1.s") = (10 ^ 9, false) ∧
    ParseDuration frac (utf8 "1.0s") = (10 ^ 9, false) ∧
    ParseDuration frac (utf8 "0") = (0, false) ∧
    ParseDuration frac (utf8 "-0") = (0, false) ∧
    ParseDuration frac (utf8 "") = (0, true) ∧
    ParseDuration frac (utf8 "-") = (0, true) ∧
    ParseDuration frac (utf8 "30") = (0, true) ∧
    ParseDuration frac (utf8 "s") = (0, true) ∧
    ParseDuration frac (utf8 ".s") = (0, true) ∧
    ParseDuration frac (utf8 "30 s") = (0, true) ∧
    ParseDuration frac (utf8 "30s ") = (0, true) ∧
    ParseDuration frac (utf8 "30x") = (0, true) ∧
    ParseDuration frac (utf8 "--5s") = (0, true) ∧
    ParseDuration frac (utf8 "9223372036854775807ns") = (9223372036854775807, false) ∧
    ParseDuration frac (utf8 "9223372036854775808ns") = (0, true) ∧
    ParseDuration frac (utf8 "-9223372036854775808ns") = (-9223372036854775808, false) ∧
    ParseDuration frac (utf8 "2562048h") = (0, true) ∧
    ParseDuration frac (utf8 "2562047h") = (9223369200000000000, false) ∧
    ParseDuration frac (utf8 "2562047h2562047h") = (0, true) ∧
    ParseDuration frac (utf8 "1h-30m") = (0, true) ∧
    ParseDuration exactFrac (utf8 "1.5s") = (1500000000, false) ∧
    ParseDuration exactFrac (utf8 "-1.5s") = (-1500000000, false) ∧
    ParseDuration exactFrac (utf8 ".5m") = (30 * 10 ^ 9, false) ∧
    ParseDuration exactFrac (utf8 "1.25h") = (4500 * 10 ^ 9, false) ∧
    ParseDuration exactFrac (utf8 "1h0.5s") = (3600500000000, false) ∧
    leadingFraction (utf8 "33333333333333333333s") 0 0 false
      = (3333333333333333333, 19, utf8 "s") ∧
    leadingFraction (utf8 "92233720368547758091s") 0 0 false
      = (922337203685477580, 18, utf8 "s") := by
  refine ⟨?_, ParseDuration_terms frac, ParseDuration_error frac, rfl, rfl, rfl, rfl, rfl,
    rfl, rfl, rfl, rfl, rfl, rfl, rfl, rfl, rfl, rfl, rfl, rfl, rfl, rfl, rfl, rfl, rfl,
    rfl, rfl, rfl, rfl, rfl, rfl, by decide, by decide, by decide, by decide, by decide,
    by decide, by decide⟩
  have hreg : registerFlag v (claimShortName used v).2 (helpText v.HelpMessage)
      = some ⟨v.Name, (claimShortName used v).2, .Duration, v.Default,
          helpText v.HelpMessage⟩ := by
    unfold registerFlag
    rw [hv]
  refine ⟨_, hreg, rfl, rfl, rfl, ?_, ?_, ?_, ?_⟩
  · intro herr
    show DefaultValue.duration (ParseDuration frac v.Default).1 = .duration 0
    rw [ParseDuration_error frac v.Default herr]
  · intro terms hne hwf hsum
    have h := ParseDuration_terms frac terms hne hwf
    refine ⟨?_, ?_⟩
    · intro hd
      show DefaultValue.duration (ParseDuration frac v.Default).1 = _
      rcases hd with hd | hd
      · rw [hd, (h.1 hsum).1]
      · rw [hd, (h.1 hsum).2]
    · intro hd
      show DefaultValue.duration (ParseDuration frac v.Default).1 = _
      rw [hd, h.2 (by omega)]
  · simp only [addFlagsLoop, hreg, Option.toList]
  · simp only [addFlagsRunLoop, hreg]

/-- Witness of C12: a duration with the default text `notaduration`, followed by an `int`;
both flags are registered, the first with the zero duration; and the term `30` `s`. -/
theorem addFlags_duration_witness :
    (∃ f : Flag, f.DefValue (fun _ _ _ => 0) (fun _ _ => 0) = .duration 0 ∧
      (addFlagsLoop (fun _ => []) []
        [ ⟨.duration, utf8 "wait", [], utf8 "notaduration", utf8 "how long"⟩,
          ⟨.plain .Int, utf8 "port", [], utf8 "80", utf8 "port"⟩ ]).2
        = [f, ⟨utf8 "port", [], .Int, utf8 "80", utf8 "port"⟩]) ∧
    ParseDuration (fun _ _ _ => 0) (durationText [⟨utf8 "30", none, utf8 "s"⟩])
      = (((durationSum (fun _ _ _ => 0) [⟨utf8 "30", none, utf8 "s"⟩] : Nat) : Int), false) := by
  have h := addFlags_duration (fun _ _ _ => 0) (fun _ _ => (0 : Nat)) (fun _ => []) []
    ⟨.duration, utf8 "wait", [], utf8 "notaduration", utf8 "how long"⟩
    [⟨.plain .Int, utf8 "port", [], utf8 "80", utf8 "port"⟩] rfl
  obtain ⟨f, _, _, _, _, h5, _, h6, _⟩ := h.1
  refine ⟨⟨f, h5 rfl, by rw [h6]; rfl⟩, ?_⟩
  exact ((h.2.1 [⟨utf8 "30", none, utf8 "s"⟩] (by simp) (by decide)).1 (by decide)).1

/-! ## `getList` on types that refer to themselves -/

theorem nodeTable_walk (ToLower : GoString → GoString) (depth : Nat) :
    ∀ (pfx : GoString) (t : Nat) (tag : GoString),
      getListDecl ToLower nodeTable depth pfx t tag = none := by
  induction depth with
  | zero => intro pfx t tag; rfl
  | succ depth ih =>
    intro pfx t tag
    cases t with
    | zero => simp [getListDecl, nodeTable, getListFieldsDecl, ih]
    | succ n => simp [getListDecl, nodeTable, ih]

theorem getListEndDecl_parts (pfx : GoString) (t : Nat) (ty : GoType) (tag : GoString)
    (r : List DeclSpec) (l : List FlagSpec)
    (h : r.map DeclSpec.parts = l.map FlagSpec.parts) :
    (getListEndDecl pfx t tag r).map (List.map DeclSpec.parts)
      = (getListEnd pfx ty tag l).map (List.map FlagSpec.parts) := by
  unfold getListEndDecl getListEnd
  split
  · simp [h]
  · split <;> simp_all [DeclSpec.parts, FlagSpec.parts]

theorem bind_getListEndDecl_parts (pfx : GoString) (t : Nat) (ty : GoType) (tag : GoString)
    (r : Option (List DeclSpec)) (l : Option (List FlagSpec))
    (h : r.map (List.map DeclSpec.parts) = l.map (List.map FlagSpec.parts)) :
    (r.bind (getListEndDecl pfx t tag)).map (List.map DeclSpec.parts)
      = (l.bind (getListEnd pfx ty tag)).map (List.map FlagSpec.parts) := by
  cases r with
  | none =>
    cases l with
    | none => rfl
    | some l => simp at h
  | some r =>
    cases l with
    | none => simp at h
    | some l =>
      simp only [Option.map_some', Option.some.injEq] at h
      simp only [Option.some_bind]
      exact getListEndDecl_parts pfx t ty tag r l h

/-- The loop over the fields agrees with `getListFields` on the trees of the fields, when
each recursive call agrees with `getList` on the tree of its type. -/
theorem getListFieldsDecl_parts (ToLower : GoString → GoString)
    (call : GoString → Nat → GoString → Option (Option (List DeclSpec)))
    (tree : Nat → Option GoType)
    (hcall : ∀ (p : GoString) (ty : Nat) (tg : GoString) (te : GoType), tree ty = some te →
      (call p ty tg).map (Option.map (List.map DeclSpec.parts))
        = some ((getList ToLower p te tg).map (List.map FlagSpec.parts)))
    (pfx : GoString) (fs : List (GoString × Nat × GoString))
    (tfs : List (GoString × GoType × GoString)) (h : treeFields tree fs = some tfs) :
    (getListFieldsDecl ToLower call pfx fs).map (Option.map (List.map DeclSpec.parts))
      = some ((getListFields ToLower pfx tfs).map (List.map FlagSpec.parts)) := by
  induction fs generalizing tfs with
  | nil =>
    simp only [treeFields, Option.some.injEq] at h
    subst h
    simp [getListFieldsDecl, getListFields]
  | cons f rest ih =>
    obtain ⟨name, ty, tag⟩ := f
    simp only [treeFields] at h
    cases hte : tree ty with
    | none => rw [hte] at h; simp at h
    | some te =>
      rw [hte] at h
      cases hrest : treeFields tree rest with
      | none => rw [hrest] at h; simp at h
      | some trest =>
        rw [hrest] at h
        simp only [Option.some_bind, Option.map_some', Option.some.injEq] at h
        subst h
        have h1 := hcall (fieldName ToLower pfx name) ty tag te hte
        have h2 := ih trest hrest
        simp only [getListFieldsDecl, getListFields]
        cases hc : call (fieldName ToLower pfx name) ty tag with
        | none => rw [hc] at h1; simp at h1
        | some r1 =>
          rw [hc] at h1
          simp only [Option.map_some', Option.some.injEq] at h1
          cases r1 with
          | none =>
            cases hg : getList ToLower (fieldName ToLower pfx name) te tag with
            | none => simp
            | some l => rw [hg] at h1; simp at h1
          | some r =>
            cases hg : getList ToLower (fieldName ToLower pfx name) te tag with
            | none => rw [hg] at h1; simp at h1
            | some l =>
              rw [hg] at h1
              simp only [Option.map_some', Option.some.injEq] at h1
              cases hd : getListFieldsDecl ToLower call pfx rest with
              | none => rw [hd] at h2; simp at h2
              | some r2 =>
                rw [hd] at h2
                simp only [Option.map_some', Option.some.injEq] at h2
                cases r2 with
                | none =>
                  cases hgf : getListFields ToLower pfx trest with
                  | none => simp
                  | some ls => rw [hgf] at h2; simp at h2
                | some rs =>
                  cases hgf : getListFields ToLower pfx trest with
                  | none => rw [hgf] at h2; simp at h2
                  | some ls =>
                    rw [hgf] at h2
                    simp only [Option.map_some', Option.some.injEq] at h2
                    simp [h1, h2]

/-- On a type of the table that has a finite tree, the walk over the table returns within
the depth of the tree, and returns what `getList` returns on the tree (the same panic, or
the same specifications). -/
theorem getListDecl_tree (ToLower : GoString → GoString) (table : Nat → TypeDecl)
    (depth : Nat) :
    ∀ (pfx : GoString) (t : Nat) (tag : GoString) (tree : GoType),
      treeOf table depth t = some tree →
      (getListDecl ToLower table depth pfx t tag).map (Option.map (List.map DeclSpec.parts))
        = some ((getList ToLower pfx tree tag).map (List.map FlagSpec.parts)) := by
  induction depth with
  | zero => intro pfx t tag tree h; simp [treeOf] at h
  | succ depth ih =>
    intro pfx t tag tree h
    simp only [treeOf] at h
    simp only [getListDecl]
    cases ht : table t with
    | duration =>
      rw [ht] at h
      simp only [Option.some.injEq] at h
      subst h
      simp only [getList, Option.map_some', Option.some.injEq]
      exact getListEndDecl_parts pfx t .duration tag [] [] rfl
    | plain k =>
      rw [ht] at h
      simp only [Option.some.injEq] at h
      subst h
      simp only [getList, Option.map_some', Option.some.injEq]
      exact getListEndDecl_parts pfx t (.plain k) tag [] [] rfl
    | ptr e =>
      rw [ht] at h
      simp only at h
      cases hte : treeOf table depth e with
      | none => rw [hte] at h; simp at h
      | some te =>
        rw [hte] at h
        simp only [Option.map_some', Option.some.injEq] at h
        subst h
        have h1 := ih pfx e tag te hte
        cases hc : getListDecl ToLower table depth pfx e tag with
        | none => rw [hc] at h1; simp at h1
        | some r =>
          rw [hc] at h1
          simp only [Option.map_some', Option.some.injEq] at h1
          simp only [getList, hc, Option.map_some', Option.some.injEq]
          exact bind_getListEndDecl_parts pfx t (.ptr te) tag r _ h1
    | struct fs =>
      rw [ht] at h
      simp only at h
      cases htf : treeFields (fun ty => treeOf table depth ty) fs with
      | none => rw [htf] at h; simp at h
      | some tfs =>
        rw [htf] at h
        simp only [Option.map_some', Option.some.injEq] at h
        subst h
        have h1 := getListFieldsDecl_parts ToLower
          (fun p ty tg => getListDecl ToLower table depth p ty tg)
          (fun ty => treeOf table depth ty)
          (fun p ty tg te hte => ih p ty tg te hte) pfx fs tfs htf
        cases hc : getListFieldsDecl ToLower
            (fun p ty tg => getListDecl ToLower table depth p ty tg) pfx fs with
        | none => rw [hc] at h1; simp at h1
        | some r =>
          rw [hc] at h1
          simp only [Option.map_some', Option.some.injEq] at h1
          simp only [getList, hc, Option.map_some', Option.some.injEq]
          exact bind_getListEndDecl_parts pfx t (.struct tfs) tag r _ h1

theorem getListFieldsDecl_no_tree (ToLower : GoString → GoString)
    (call : GoString → Nat → GoString → Option (Option (List DeclSpec)))
    (tree : Nat → Option GoType)
    (hcall : ∀ (p : GoString) (ty : Nat) (tg : GoString), tree ty = none →
      ∀ l, call p ty tg ≠ some (some l))
    (pfx : GoString) (fs : List (GoString × Nat × GoString)) (h : treeFields tree fs = none) :
    ∀ l, getListFieldsDecl ToLower call pfx fs ≠ some (some l) := by
  induction fs with
  | nil => simp [treeFields] at h
  | cons f rest ih =>
    obtain ⟨name, ty, tag⟩ := f
    intro l
    simp only [getListFieldsDecl]
    cases hc : call (fieldName ToLower pfx name) ty tag with
    | none => simp
    | some r1 =>
      cases r1 with
      | none => simp
      | some r =>
        cases hte : tree ty with
        | none => exact absurd hc (hcall _ ty tag hte r)
        | some te =>
          simp only [treeFields, hte, Option.some_bind, Option.map_eq_none'] at h
          have := ih h
          cases hd : getListFieldsDecl ToLower call pfx rest with
          | none => simp
          | some r2 =>
            cases r2 with
            | none => simp
            | some rs => exact absurd hd (this rs)

/-- On a type of the table that has no tree of the given depth, the walk over the table does
not return a list within that depth. -/
theorem getListDecl_no_tree (ToLower : GoString → GoString) (table : Nat → TypeDecl)
    (depth : Nat) :
    ∀ (pfx : GoString) (t : Nat) (tag : GoString), treeOf table depth t = none →
      ∀ l, getListDecl ToLower table depth pfx t tag ≠ some (some l) := by
  induction depth with
  | zero => intro pfx t tag _ l; simp [getListDecl]
  | succ depth ih =>
    intro pfx t tag h l
    simp only [treeOf] at h
    simp only [getListDecl]
    cases ht : table t with
    | duration => rw [ht] at h; simp at h
    | plain k => rw [ht] at h; simp at h
    | ptr e =>
      rw [ht] at h
      simp only [Option.map_eq_none'] at h
      have h1 := ih pfx e tag h
      cases hc : getListDecl ToLower table depth pfx e tag with
      | none => simp [hc]
      | some r =>
        cases r with
        | none => simp [hc]
        | some r => exact absurd hc (h1 r)
    | struct fs =>
      rw [ht] at h
      simp only [Option.map_eq_none'] at h
      have h1 := getListFieldsDecl_no_tree ToLower
        (fun p ty tg => getListDecl ToLower table depth p ty tg)
        (fun ty => treeOf table depth ty) (fun p ty tg hty => ih p ty tg hty) pfx fs h
      cases hc : getListFieldsDecl ToLower
          (fun p ty tg => getListDecl ToLower table depth p ty tg) pfx fs with
      | none => simp [hc]
      | some r =>
        cases r with
        | none => simp [hc]
        | some r => exact absurd hc (h1 r)

/-- The table of the example program: the tree of index 0 is the type `*MainConfig`, and
the walk over the table returns the names `getList` returns on the tree. -/
theorem mainTable_tree :
    treeOf mainTable 4 0 = some (.ptr MainConfig) ∧
    treeOf mainTable 3 0 = none ∧
    getListDecl asciiToLower mainTable 3 [] 0 [] = none ∧
    (getListDecl asciiToLower mainTable 4 [] 0 []).map (Option.map (List.map DeclSpec.parts))
      = some (some (mainConfigSpecs.map FlagSpec.parts)) ∧
    (getListDecl asciiToLower mainTable 4 [] 0 []).map
        (Option.map (List.map fun v => v.Type_))
      = some (some [5, 6, 7, 5, 6, 8, 9]) := by
  refine ⟨rfl, rfl, by decide, rfl, by decide⟩

/-- C4, the claim as stated fails: in `type Node struct { Next *Node }` no field carries an
annotation, and `getList` does not return the empty sequence on it: whatever depth of calls
is allowed, the walk has not returned, since the struct case calls `getList` for the field
and the pointer case calls it for the struct again. -/
theorem getList_no_annotation_counterexample :
    (∀ i, (∀ fs, nodeTable i = .struct fs → ∀ f ∈ fs, f.2.2 = [])) ∧
    (∀ depth, getListDecl asciiToLower nodeTable depth [] 0 [] = none) ∧
    ¬ ∃ depth, getListDecl asciiToLower nodeTable depth [] 0 [] = some (some []) := by
  refine ⟨?_, fun depth => nodeTable_walk asciiToLower depth [] 0 [], ?_⟩
  · intro i fs h f hf
    cases i with
    | zero =>
      simp only [nodeTable, TypeDecl.struct.injEq] at h
      subst h
      simp only [List.mem_singleton] at hf
      subst hf
      rfl
    | succ n => simp [nodeTable] at h
  · rintro ⟨depth, h⟩
    rw [nodeTable_walk asciiToLower depth [] 0 []] at h
    exact absurd h (by simp)

/-- C4, amended. A type that does not contain itself, so that it is a finite tree, and in
which no field carries a non-empty annotation, yields the empty sequence of specifications:
`getList` returns it on the tree, and on every table of types in which an index has that
tree the walk from that index returns it, within the depth of the tree. -/
theorem getList_no_annotation (ToLower : GoString → GoString) (t : GoType)
    (h : t.noTag = true) :
    getList ToLower [] t [] = some [] ∧
    ∀ (table : Nat → TypeDecl) (depth i : Nat), treeOf table depth i = some t →
      getListDecl ToLower table depth [] i [] = some (some []) := by
  have h0 := getList_noTag ToLower [] t h
  refine ⟨h0, ?_⟩
  intro table depth i ht
  have := getListDecl_tree ToLower table depth [] i [] t ht
  rw [h0] at this
  cases hc : getListDecl ToLower table depth [] i [] with
  | none => rw [hc] at this; simp at this
  | some r =>
    rw [hc] at this
    cases r with
    | none => simp at this
    | some l =>
      simp only [Option.map_some', Option.some.injEq, List.map_nil, List.map_eq_nil_iff]
        at this
      rw [this]

/-- Witness of C4 amended: a pointer to a struct with a nested struct, a pointer, a slice
and a duration, none annotated; and a table with the types `*S`, `S` and a slice type, for
`type S struct { D []string }`. -/
theorem getList_no_annotation_witness :
    getList asciiToLower []
      (.ptr (.struct [ (utf8 "A", .struct [(utf8 "B", .plain .Int, []),
                                           (utf8 "C", .ptr (.plain .String), [])], []),
                       (utf8 "D", .plain .Slice, []),
                       (utf8 "E", .duration, []) ])) [] = some [] ∧
    getListDecl asciiToLower
      (fun i => if i = 0 then .ptr 1 else if i = 1 then .struct [(utf8 "D", 2, [])]
        else .plain .Slice) 3 [] 0 [] = some (some []) :=
  ⟨( getList_no_annotation asciiToLower
      (.ptr (.struct [ (utf8 "A", .struct [(utf8 "B", .plain .Int, []),
                                           (utf8 "C", .ptr (.plain .String), [])], []),
                       (utf8 "D", .plain .Slice, []),
                       (utf8 "E", .duration, []) ])) rfl).1,
   ( getList_no_annotation asciiToLower (.ptr (.struct [(utf8 "D", .plain .Slice, [])]))
      rfl).2 _ 3 0 rfl⟩

/-! ## `addFlags` and the flag library -/

theorem validFlagSet_iff (fs : List Flag) :
    validFlagSet fs = true ↔
      (fs.map fun f => f.Name).Nodup ∧
      ((fs.map fun f => f.Shorthand).filter fun s => decide (s ≠ [])).Nodup ∧
      ∀ f ∈ fs, f.Shorthand.length ≤ 1 := by
  simp only [validFlagSet, noClash, Bool.and_eq_true, decide_eq_true_eq, and_assoc]

theorem validFlagSet_initial (a b : List Flag) (h : validFlagSet (a ++ b) = true) :
    validFlagSet a = true := by
  rw [validFlagSet_iff] at h ⊢
  obtain ⟨h1, h2, h3⟩ := h
  simp only [List.map_append, List.filter_append] at h1 h2
  exact ⟨(List.nodup_append.1 h1).1, (List.nodup_append.1 h2).1,
    fun f hf => h3 f (List.mem_append_left _ hf)⟩

/-- The flag library accepts a flag exactly when the flag set stays without clash. -/
theorem AddFlag_eq (formal : List Flag) (flag : Flag) (hv : validFlagSet formal = true) :
    AddFlag formal flag
      = if validFlagSet (formal ++ [flag]) = true then some (formal ++ [flag]) else none := by
  have hv1 := (validFlagSet_iff formal).1 hv
  obtain ⟨h1, h2, h3⟩ := hv1
  have key : validFlagSet (formal ++ [flag]) = true ↔
      (flag.Name ∉ formal.map (fun f => f.Name)) ∧
      (flag.Shorthand = [] ∨
        (flag.Shorthand.length ≤ 1 ∧ flag.Shorthand ∉ formal.map (fun f => f.Shorthand))) := by
    rw [validFlagSet_iff]
    simp only [List.map_append, List.map_cons, List.map_nil, List.filter_append,
      List.nodup_append, List.nodup_cons, List.not_mem_nil, not_false_eq_true, List.nodup_nil,
      and_self, List.disjoint_singleton, true_and, List.mem_append, List.mem_singleton]
    by_cases hs : flag.Shorthand = []
    · simp only [hs, List.filter_cons, ne_eq, not_true_eq_false, decide_False,
        Bool.false_eq_true, if_false, List.filter_nil, List.nodup_nil, List.disjoint_nil_right,
        true_or, and_true]
      constructor
      · rintro ⟨⟨_, hn⟩, _, _⟩
        exact hn
      · intro hn
        refine ⟨⟨h1, hn⟩, h2, ?_⟩
        rintro f (hf | hf)
        · exact h3 f hf
        · rw [hf, hs]; simp
    · simp only [List.filter_cons, ne_eq, hs, not_false_eq_true, decide_True, if_true,
        List.filter_nil, List.nodup_cons, List.not_mem_nil, List.nodup_nil, and_self,
        List.disjoint_singleton, List.mem_filter, decide_eq_true_eq, and_true, not_and,
        not_not, false_or]
      constructor
      · rintro ⟨⟨_, hn⟩, ⟨_, hd⟩, hl⟩
        exact ⟨hn, hl flag (Or.inr rfl), hd.2⟩
      · rintro ⟨hn, hl, hm⟩
        refine ⟨⟨h1, hn⟩, ⟨h2, trivial, hm⟩, ?_⟩
        rintro f (hf | hf)
        · exact h3 f hf
        · rw [hf]; exact hl
  unfold AddFlag
  by_cases hn : flag.Name ∈ formal.map (fun f => f.Name)
  · rw [if_pos hn, if_neg]
    rw [key]
    exact fun h => h.1 hn
  · rw [if_neg hn]
    by_cases hs : flag.Shorthand = []
    · rw [if_pos hs, if_pos (key.2 ⟨hn, Or.inl hs⟩)]
    · rw [if_neg hs]
      by_cases hl : flag.Shorthand.length > 1
      · rw [if_pos hl, if_neg]
        rw [key]
        rintro ⟨_, h | h⟩
        · exact hs h
        · omega
      · rw [if_neg hl]
        by_cases hm : flag.Shorthand ∈ formal.map (fun f => f.Shorthand)
        · rw [if_pos hm, if_neg]
          rw [key]
          rintro ⟨_, h | h⟩
          · exact hs h
          · exact h.2 hm
        · rw [if_neg hm, if_pos (key.2 ⟨hn, Or.inr ⟨by omega, hm⟩⟩)]

/-- The loop carried out on the flag set returns the flag set of `addFlagsLoop` when that
one is without clash, and panics otherwise. -/
theorem addFlagsRunLoop_eq (used : GoString → GoString) (flags : List Flag)
    (list : List FlagSpec) (hv : validFlagSet flags = true) :
    addFlagsRunLoop used flags list
      = if validFlagSet (addFlagsLoop used flags list).2 = true then
          some (addFlagsLoop used flags list).2
        else none := by
  induction list generalizing used flags with
  | nil => simp [addFlagsRunLoop, addFlagsLoop, hv]
  | cons v rest ih =>
    simp only [addFlagsRunLoop, addFlagsLoop]
    cases hr : registerFlag v (claimShortName used v).2 (helpText v.HelpMessage) with
    | none =>
      simp only [Option.toList, List.append_nil]
      exact ih _ flags hv
    | some f =>
      simp only [Option.toList]
      rw [AddFlag_eq flags f hv]
      by_cases hvf : validFlagSet (flags ++ [f]) = true
      · rw [if_pos hvf, Option.some_bind]
        exact ih _ _ hvf
      · rw [if_neg hvf, Option.none_bind, if_neg]
        obtain ⟨later, hl⟩ := addFlagsLoop_flags (claimShortName used v).1 (flags ++ [f]) rest
        rw [hl]
        intro h
        exact hvf (validFlagSet_initial _ _ h)

theorem claimShortName_length (used : GoString → GoString) (v : FlagSpec) :
    (claimShortName used v).2.length ≤ 1 := by
  unfold claimShortName
  split
  · rename_i h; simp only; omega
  · split
    · simp
    · rename_i h _; simp only; omega
  · simp

theorem addFlagsLoop_shorthand (used : GoString → GoString) (flags : List Flag)
    (list : List FlagSpec) (h : ∀ f ∈ flags, f.Shorthand.length ≤ 1) :
    ∀ f ∈ (addFlagsLoop used flags list).2, f.Shorthand.length ≤ 1 := by
  induction list generalizing used flags with
  | nil => simpa [addFlagsLoop] using h
  | cons v rest ih =>
    simp only [addFlagsLoop]
    apply ih
    intro f hf
    rcases List.mem_append.1 hf with hf | hf
    · exact h f hf
    · cases hr : registerFlag v (claimShortName used v).2 (helpText v.HelpMessage) with
      | none => rw [hr] at hf; simp at hf
      | some g =>
        rw [hr] at hf
        simp only [Option.toList, List.mem_singleton] at hf
        subst hf
        rw [(registerFlag_fields v _ _ f hr).2.1]
        exact claimShortName_length used v

theorem addFlagsLoop_from_nil (used : GoString → GoString) (flags : List Flag)
    (list : List FlagSpec) :
    (addFlagsLoop used flags list).2 = flags ++ (addFlagsLoop used [] list).2 := by
  induction list generalizing used flags with
  | nil => simp [addFlagsLoop]
  | cons v rest ih =>
    simp only [addFlagsLoop]
    rw [ih _ (flags ++ _), ih _ ([] ++ _)]
    simp

theorem forall₂_map_name (l1 : List FlagSpec) (l2 : List Flag)
    (R : FlagSpec → Flag → Prop) (hR : ∀ v f, R v f → f.Name = v.Name)
    (h : List.Forall₂ R l1 l2) : l2.map (fun f => f.Name) = l1.map (fun v => v.Name) := by
  induction h with
  | nil => rfl
  | cons hr _ ih => simp [hR _ _ hr, ih]

/-- C11, the claim as stated fails: the fields `Foo` and `FOO` give two specifications of
supported type, both named `foo`; the flag library panics at the second registration, so
`addFlags` does not register one flag for each of them.  The same happens with a field
`Version`, whose name `LoadConfig` has registered before. -/
theorem addFlags_one_flag_per_spec_counterexample :
    getList asciiToLower []
        (.ptr (.struct [ (utf8 "Foo", .plain .Int, utf8 "|1|first"),
                         (utf8 "FOO", .plain .Int, utf8 "|2|second") ])) []
      = some [ ⟨.plain .Int, utf8 "foo", [], utf8 "1", utf8 "first"⟩,
               ⟨.plain .Int, utf8 "foo", [], utf8 "2", utf8 "second"⟩ ] ∧
    (GoType.plain .Int).isLeaf = true ∧
    addFlagsRun asciiToLower []
        (.ptr (.struct [ (utf8 "Foo", .plain .Int, utf8 "|1|first"),
                         (utf8 "FOO", .plain .Int, utf8 "|2|second") ])) = none ∧
    validFlagSet builtinFlags = true ∧
    addFlagsRun asciiToLower builtinFlags
        (.ptr (.struct [(utf8 "Version", .plain .String, utf8 "|1.0|version of the data")]))
      = none := by
  refine ⟨rfl, rfl, by decide, by decide, by decide⟩

/-- C11, amended. `addFlags` asks for exactly one flag for each specification whose type is
the duration type or of a scalar kind, in the order of the list of specifications and under
the name of the specification, and for none for a specification of any other kind.  When
no two flags of the resulting set (those that were in the set before and the new ones)
share a long name or a non-empty short name, the flag library accepts them all, and the
number of flags `addFlags` registers is the number of specifications of supported type;
otherwise the library panics at the registration that repeats a name, and `addFlags` does
not return. -/
theorem addFlags_one_flag_per_spec (ToLower : GoString → GoString) (flags : List Flag)
    (config : GoType) (list : List FlagSpec)
    (h : getList ToLower [] config [] = some list) (hv : validFlagSet flags = true) :
    ∃ registered, registered = (addFlagsLoop (fun _ => []) [] list).2 ∧
      List.Forall₂
        (fun v f => f.Name = v.Name ∧ f.Usage = helpText v.HelpMessage ∧
          (f.Shorthand = [] ∨ f.Shorthand = v.ShortName))
        (list.filter fun v => v.Type_.isLeaf) registered ∧
      registered.map (fun f => f.Name)
        = (list.filter fun v => v.Type_.isLeaf).map (fun v => v.Name) ∧
      registered.length = (list.filter fun v => v.Type_.isLeaf).length ∧
      (noClash (flags ++ registered) = true →
        addFlagsRun ToLower flags config = some (flags ++ registered)) ∧
      (noClash (flags ++ registered) = false → addFlagsRun ToLower flags config = none) ∧
      (∀ v ∈ list, v.Type_.isLeaf = false →
        ∀ short help, registerFlag v short help = none) := by
  obtain ⟨reg, h1, h2⟩ := addFlagsLoop_registered (fun _ => []) [] list
  simp only [List.nil_append] at h1
  have h2' : List.Forall₂
      (fun v f => f.Name = v.Name ∧ f.Usage = helpText v.HelpMessage ∧
        (f.Shorthand = [] ∨ f.Shorthand = v.ShortName))
      (list.filter fun v => v.Type_.isLeaf) reg :=
    h2.imp (fun _ _ hr => ⟨hr.1, hr.2.2.1, hr.2.2.2⟩)
  have hrun : addFlagsRun ToLower flags config
      = if validFlagSet (flags ++ reg) = true then some (flags ++ reg) else none := by
    unfold addFlagsRun
    rw [h, Option.some_bind, addFlagsRunLoop_eq _ _ _ hv, addFlagsLoop_from_nil, h1]
  have hlen : ∀ f ∈ flags ++ reg, f.Shorthand.length ≤ 1 := by
    have := addFlagsLoop_shorthand (fun _ => []) flags list
      (((validFlagSet_iff flags).1 hv).2.2)
    rw [addFlagsLoop_from_nil, h1] at this
    exact this
  have hvalid : validFlagSet (flags ++ reg) = noClash (flags ++ reg) := by
    unfold validFlagSet
    rw [decide_eq_true hlen, Bool.and_true]
  refine ⟨reg, h1.symm, h2', ?_, h2.length_eq.symm, ?_, ?_, ?_⟩
  · exact forall₂_map_name _ _ _ (fun v f hr => hr.1) h2'
  · intro hc
    rw [hrun, hvalid, if_pos hc]
  · intro hc
    rw [hrun, hvalid, hc]
    simp
  · intro v _ hv1 short help
    exact registerFlag_none v short help hv1

/-- Witness of C11 amended: the example program; to the five flags of `LoadConfig` the
seven flags of `MainConfig` are added, and the library accepts them. -/
theorem addFlags_one_flag_per_spec_witness :
    addFlagsRun asciiToLower builtinFlags (.ptr MainConfig)
      = some (builtinFlags ++ (addFlagsLoop (fun _ => []) [] mainConfigSpecs).2) ∧
    (addFlagsLoop (fun _ => []) [] mainConfigSpecs).2.length = 7 := by
  obtain ⟨reg, h1, _, _, h4, h5, _, _⟩ := addFlags_one_flag_per_spec asciiToLower builtinFlags
    (.ptr MainConfig) mainConfigSpecs rfl (by decide)
  subst h1
  exact ⟨h5 (by decide), by decide⟩

/-- When `addFlags` returns, the flag set is the one of the registrations it asked for, and
it has no clash. -/
theorem addFlagsRun_some (ToLower : GoString → GoString) (flags : List Flag) (t : GoType)
    (r : List Flag) (hv : validFlagSet flags = true)
    (h : addFlagsRun ToLower flags t = some r) :
    addFlags ToLower flags t = some r ∧ noClash r = true := by
  unfold addFlagsRun at h
  unfold addFlags
  cases hl : getList ToLower [] t [] with
  | none => rw [hl] at h; simp at h
  | some list =>
    rw [hl, Option.some_bind, addFlagsRunLoop_eq _ _ _ hv] at h
    split at h
    · rename_i hvr
      simp only [Option.some.injEq] at h
      rw [← h]
      simp only [validFlagSet, Bool.and_eq_true] at hvr
      exact ⟨rfl, hvr.1⟩
    · simp at h

/-- The registration of C5 carried out on the flag set: the library panics at the second
flag with the short name `c`. -/
theorem addFlagsRun_short_c :
    addFlagsRun asciiToLower builtinFlags
        (.ptr (.struct [(utf8 "Cache", .plain .Int, utf8 "c|64|cache size")])) = none := by
  decide

/-! ## `addFlags`: the long name, the default and the short name -/

/-- C3, the claim as stated fails: the specification of a string field with the default
text `hello world` does not keep its default; the flag is registered with the default
`hello`, the first token `fmt.Sscanf` reads from the text. -/
theorem addFlags_short_name_counterexample :
    addFlags asciiToLower []
        (.struct [(utf8 "Greeting", .plain .String, utf8 "g|hello world|greeting")])
      = some [⟨utf8 "greeting", utf8 "g", .String, utf8 "hello world", utf8 "greeting"⟩] ∧
    (∀ (frac : Nat → Nat → Nat → Nat) (Sscan : FlagType → GoString → Nat),
      (⟨utf8 "greeting", utf8 "g", .String, utf8 "hello world", utf8 "greeting"⟩ : Flag).DefValue
          frac Sscan = .string (utf8 "hello")) ∧
    utf8 "hello" ≠ utf8 "hello world" := by
  refine ⟨by decide, fun _ _ => ?_, by decide⟩
  show DefaultValue.string (SscanString (utf8 "hello world")) = _
  have : SscanString (utf8 "hello world") = utf8 "hello" := by decide
  rw [this]

/-- C3, amended. In the list of specifications that `addFlags` walks, the specification `v`
that follows the specifications `pre` is registered right after them, under its long name
and with the short name `registeredShortName pre v`: its own short name if that is exactly
one byte long and no earlier specification has the same short name, the empty string
otherwise; when `addFlags` returns, these registrations are the flag set.  Its default is
not kept as written: the flag is registered with the value read
from the default text, by `time.ParseDuration` for a duration, by `fmt.Sscanf` with `%v`
for the other types; for a string that is the first token of the text, which is the text
itself when the text is made of ASCII bytes without white space. -/
theorem addFlags_short_name (ToLower : GoString → GoString) (flags : List Flag)
    (t : GoType) (pre : List FlagSpec) (v : FlagSpec) (post : List FlagSpec)
    (hn : t.lowerNonEmpty ToLower = true)
    (hl : getList ToLower [] t [] = some (pre ++ v :: post)) :
    (∃ later, addFlags ToLower flags t
      = some ((addFlagsLoop (fun _ => []) flags pre).2
          ++ (registerFlag v (registeredShortName pre v) (helpText v.HelpMessage)).toList
          ++ later)) ∧
    (∀ r, validFlagSet flags = true → addFlagsRun ToLower flags t = some r →
      addFlags ToLower flags t = some r) ∧
    (∀ f, registerFlag v (registeredShortName pre v) (helpText v.HelpMessage) = some f →
      f.Name = v.Name ∧ f.Shorthand = registeredShortName pre v ∧
      ∀ (ν : Type) (frac : Nat → Nat → Nat → Nat) (Sscan : FlagType → GoString → ν),
        (f.Value = .Duration →
          f.DefValue frac Sscan = .duration (ParseDuration frac v.Default).1) ∧
        (f.Value = .String →
          f.DefValue frac Sscan = .string (SscanString v.Default) ∧
          ((∀ b ∈ v.Default, b < 128 ∧ isSpace b = false) →
            f.DefValue frac Sscan = .string v.Default)) ∧
        (f.Value ≠ .Duration → f.Value ≠ .String →
          f.DefValue frac Sscan = .scanned (Sscan f.Value v.Default))) := by
  refine ⟨?_, fun r hv hr => (addFlagsRun_some ToLower flags t r hv hr).1, ?_⟩
  · have hne := getList_name_ne_nil ToLower [] t [] _ (Or.inr rfl) hn hl
    have hpre : ∀ u ∈ pre, u.Name ≠ [] := fun u hu => hne u (by simp [hu])
    have e : pre ++ v :: post = (pre ++ [v]) ++ post := by simp
    obtain ⟨later, hlater⟩ := addFlagsLoop_flags
      (addFlagsLoop (fun _ => []) flags (pre ++ [v])).1
      (addFlagsLoop (fun _ => []) flags (pre ++ [v])).2 post
    refine ⟨later, ?_⟩
    unfold addFlags
    rw [hl, Option.map_some', e, addFlagsLoop_append, hlater, addFlagsLoop_snoc flags pre v hpre]
  · intro f hf
    have hfields := registerFlag_fields v _ _ f hf
    refine ⟨hfields.1, hfields.2.1, ?_⟩
    intro ν frac Sscan
    have hd : f.Default = v.Default := hfields.2.2.1
    refine ⟨?_, ?_, ?_⟩
    · intro hval
      simp only [Flag.DefValue, hval, hd]
    · intro hval
      have h1 : f.DefValue frac Sscan = .string (SscanString v.Default) := by
        simp only [Flag.DefValue, hval, hd]
      refine ⟨h1, ?_⟩
      intro hascii
      have ha : ∀ b ∈ v.Default, b < 128 := fun b hb => (hascii b hb).1
      have hr := readRunes_ascii v.Default ha
      rw [h1, SscanString_of_runes v.Default (by rw [hr]; exact fun b hb => (hascii b hb).2),
        hr, flatMap_EncodeRune_ascii v.Default ha]
    · intro h1 h2
      unfold Flag.DefValue
      rw [hd]
      cases hval : f.Value <;> simp_all

/-- Witness of C3 amended: two sibling leaves with the short name `x`; the first keeps it,
the second is registered without a short name, under its own long name. -/
theorem addFlags_short_name_witness :
    (∃ later, addFlags asciiToLower []
        (.struct [ (utf8 "A", .plain .Int, utf8 "x|1|first"),
                   (utf8 "B", .plain .Int, utf8 "x|2|second") ])
      = some ([⟨utf8 "a", utf8 "x", .Int, utf8 "1", utf8 "first"⟩]
          ++ [⟨utf8 "b", [], .Int, utf8 "2", utf8 "second"⟩] ++ later)) :=
  (addFlags_short_name asciiToLower []
    (.struct [ (utf8 "A", .plain .Int, utf8 "x|1|first"),
               (utf8 "B", .plain .Int, utf8 "x|2|second") ])
    [⟨.plain .Int, utf8 "a", utf8 "x", utf8 "1", utf8 "first"⟩]
    ⟨.plain .Int, utf8 "b", utf8 "x", utf8 "2", utf8 "second"⟩ [] rfl rfl).1

end SmartConfig
